import Mathlib

/-!
# minic lexer (`src/lexer/token.go`, `src/common/error.go`)

A shallow embedding of the tokenizer of the minic front end, and theorems about it.

Conventions of the embedding.

* A Go `[]byte` / `string` is a `List Nat` of byte values; byte constants are written as
  numerals (`34` is the double quote, `39` the single quote, `92` the backslash, `10` the
  newline, `32` the space, `9` the tab, `35` the hash sign, `46` the dot, `61` the equals
  sign, `48`..`57` the digits, `65`..`90` and `97`..`122` the letters, `95` the underscore).
* Go `int` cursors and counters are `Nat`: they start non-negative and are only incremented,
  and they are bounded by the buffer length (plus one), so no wrap-around is involved.
* A run of Go code ends in one of four ways, see `Run`: it returns, it calls `common.Error`
  (which prints and calls `os.Exit(1)`), it panics at run time (index out of range), or the
  model runs out of fuel.  Every loop iteration of the source, and every call of `preprocess`,
  costs one unit of fuel; `timeout` is never confused with a result of the program.
-/

namespace Minic

/-! ## Outcomes -/

/-- The calls of `common.Error` in the lexer: the format string (as a constructor) with its
arguments. -/
inductive Diag where
  /-- The format "Unmatched %c at the end of file %s". -/
  | unmatched (delim : Nat) (filename : String)
  /-- The format "Expected %c but got char 0x%02X". -/
  | expected (delim got : Nat)
  /-- The format "Unexpected char %c" (the `%c` stands between single quotes and a newline
  follows). -/
  | unexpectedChar (c : Nat)
  /-- The format "Unexpected EOF". -/
  | unexpectedEOF
  /-- The format "#include not implemented". -/
  | includeNotImplemented
  /-- The format "unknow preprocessor directive %s" (the `%s` stands between single quotes). -/
  | unknownDirective (arg : List Nat)
  deriving DecidableEq

/-- How a run of Go code ends. -/
inductive Run (α : Type) where
  /-- Normal return with a value. -/
  | ret (a : α)
  /-- The run called `common.Error`: the diagnostic is printed and the process exits with
  status 1. -/
  | exit (d : Diag)
  /-- Go run-time panic: index (or slice bound) out of range. -/
  | panic
  /-- The model ran out of fuel (not an outcome of the program). -/
  | timeout
  deriving DecidableEq

/-- Sequencing: anything but a normal return ends the run. -/
def Run.bind {α β : Type} (r : Run α) (f : α → Run β) : Run β :=
  match r with
  | .ret a => f a
  | .exit d => .exit d
  | .panic => .panic
  | .timeout => .timeout

/-- `common.Error(format, args...)`: print to stderr, then `os.Exit(1)`. -/
def Error {α : Type} (d : Diag) : Run α := Run.exit d

/-! ## Go primitives -/

/-- Index expression `str[i]`: panics when `i` is out of range. -/
def idx (str : List Nat) (i : Nat) : Run Nat :=
  match str[i]? with
  | some c => Run.ret c
  | none => Run.panic

/-- Slice expression `str[lo:hi]` (converted to a string): panics unless `lo ≤ hi ≤ len(str)`
(the capacity of the buffer is taken to be its length). -/
def slice (str : List Nat) (lo hi : Nat) : Run (List Nat) :=
  if lo ≤ hi ∧ hi ≤ str.length then Run.ret ((str.take hi).drop lo) else Run.panic

/-- Library function `strings.IndexByte(s, c)`: the index of the first `c` in `s`, or `-1`. -/
def IndexByte : List Nat → Nat → Int
  | [], _ => -1
  | b :: s, c => if b = c then 0 else if IndexByte s c = -1 then -1 else IndexByte s c + 1

/-! ## Data model -/

inductive TokenType where
  | Identifier
  | StringLiteral
  | CharacterLiteral
  | Integer
  | Punctuator
  deriving DecidableEq

/-- The text `[](){}~?:;,%\` of the variable `punctuators`. -/
def punctuators : List Nat := [91, 93, 40, 41, 123, 125, 126, 63, 58, 59, 44, 37, 92]

/-- The struct `Token` (the field `Type` of the source is `Typ` here). -/
structure Token where
  Typ : TokenType
  Str : List Nat
  FileName : String
  Line : Nat
  deriving DecidableEq

def newToken (t : TokenType) (str : List Nat) (filename : String) (line : Nat) : Token :=
  { Typ := t, Str := str, FileName := filename, Line := line }

abbrev TokenList := List Token

/-- `c == '_' || (c >= 'a' && c <= 'z') || (c >= 'A' && c <= 'Z')`. -/
def isAlpha (c : Nat) : Bool :=
  c == 95 || (decide (c ≥ 97) && decide (c ≤ 122)) || (decide (c ≥ 65) && decide (c ≤ 90))

/-- `c >= '0' && c <= '9'`. -/
def isDigit (c : Nat) : Bool :=
  decide (c ≥ 48) && decide (c ≤ 57)

structure Tokenizer where
  tokens : TokenList
  input : List Nat
  filename : String
  i : Nat
  line : Nat
  deriving DecidableEq

/-- The struct literal of `NewTokenizer`: the tokenizer for a file `filename` whose contents
are `data`. -/
def start (filename : String) (data : List Nat) : Tokenizer :=
  { input := data, filename := filename, i := 0, line := 1, tokens := [] }

/-- `NewTokenizer`: the file system is the function `fs` from a path to the file's bytes
(`none` when `os.Stat` or `ioutil.ReadFile` fails, in which case the error is returned). -/
def NewTokenizer (fs : String → Option (List Nat)) (filename : String) : Option Tokenizer :=
  match fs filename with
  | none => none
  | some data => some (start filename data)

def Tokenizer.newToken (t : Tokenizer) (typ : TokenType) (str : List Nat) : Token :=
  Minic.newToken typ str t.filename t.line

/-! ## The loops of `commonTokenizer` -/

/-- The loop `for i < len(str) && isAlpha(str[i]) || isDigit(str[i]) { i++ }` of the identifier
branch.  In Go `&&` binds tighter than `||`, so the condition is
`(i < len(str) && isAlpha(str[i])) || isDigit(str[i])`, and `isDigit(str[i])` is evaluated
whenever the left operand is false. Returns the final `i`. -/
def identLoop (str : List Nat) : Nat → Nat → Run Nat
  | 0, _ => Run.timeout
  | fuel + 1, i =>
    (if i < str.length then (idx str i).bind (fun c => Run.ret (isAlpha c))
      else Run.ret false).bind fun l =>
    (if l then Run.ret true else (idx str i).bind (fun c => Run.ret (isDigit c))).bind fun b =>
    if b then identLoop str fuel (i + 1) else Run.ret i

/-- The loop `for i < len(str) && isDigit(str[i]) { i++ }` of the integer branch. -/
def digitLoop (str : List Nat) : Nat → Nat → Run Nat
  | 0, _ => Run.timeout
  | fuel + 1, i =>
    (if i < str.length then (idx str i).bind (fun c => Run.ret (isDigit c))
      else Run.ret false).bind fun b =>
    if b then digitLoop str fuel (i + 1) else Run.ret i

/-- The loop `for i < len(str) && str[i] != str[begin] { if str[i] == '\\' { i++ }; i++ }` of
the quoted-literal branch. -/
def quoteLoop (str : List Nat) (begin : Nat) : Nat → Nat → Run Nat
  | 0, _ => Run.timeout
  | fuel + 1, i =>
    (if i < str.length then
        (idx str i).bind fun c => (idx str begin).bind fun d => Run.ret (c != d)
      else Run.ret false).bind fun b =>
    if b then
      (idx str i).bind fun c =>
      quoteLoop str begin fuel ((if c == 92 then i + 1 else i) + 1)
    else Run.ret i

/-! ## `preprocess`, `commonTokenizer`, `Tokenize` -/

/-- The bytes of the string "include". -/
def includeStr : List Nat := [105, 110, 99, 108, 117, 100, 101]

/-- The bytes of the string "(null)". -/
def nullStr : List Nat := [40, 110, 117, 108, 108, 41]

/-- The statements of `preprocess` after its loop: directive resolution.
`t.tokens[numOfToken]` panics when no token was appended. -/
def resolveDirective (t : Tokenizer) (numOfToken : Nat) : Run Tokenizer :=
  (if t.tokens.length ≥ numOfToken then
      match t.tokens[numOfToken]? with
      | some tok => Run.ret (some tok)
      | none => Run.panic
    else Run.ret none).bind fun (directive : Option Token) =>
  match directive with
  | some d =>
    if includeStr = d.Str then Error Diag.includeNotImplemented
    else Error (Diag.unknownDirective d.Str)
  | none => Error (Diag.unknownDirective nullStr)

mutual

/-- The loop of `preprocess`, on the receiver `t` and the local `i`; returns the receiver at
the loop's exit.  When the byte at `i` is none of space, tab, newline and backslash, no branch
of the body is taken and the iteration changes nothing. -/
def preprocessLoop : Nat → Tokenizer → Nat → Run Tokenizer
  | 0, _, _ => Run.timeout
  | fuel + 1, t, i =>
    if i < t.input.length then
      (idx t.input i).bind fun c =>
      if c == 32 || c == 9 then preprocessLoop fuel t (i + 1)
      else if c == 10 then Run.ret t
      else if c == 92 then
        -- `i++; if i >= len(str) || str[i] != '\n' { common.Error(..., str[i]) }`
        (if i + 1 ≥ t.input.length then Run.ret true
          else (idx t.input (i + 1)).bind fun c1 => Run.ret (c1 != 10)).bind fun bad =>
        if bad then (idx t.input (i + 1)).bind fun c1 => Error (Diag.unexpectedChar c1)
        else if i + 2 ≥ t.input.length then Error Diag.unexpectedEOF
        else
          (commonTokenizer fuel { t with i := i + 2 }).bind fun r =>
          preprocessLoop fuel
            (match r.2 with
              | some token => { r.1 with tokens := r.1.tokens ++ [token] }
              | none => r.1)
            (i + 2)
      else preprocessLoop fuel t i
    else Run.ret t

/-- The method `preprocess`. -/
def preprocess : Nat → Tokenizer → Run Tokenizer
  | 0, _ => Run.timeout
  | fuel + 1, t =>
    (preprocessLoop fuel t t.i).bind fun t1 => resolveDirective t1 t.tokens.length

/-- The method `commonTokenizer`: the receiver after the call and the returned token
(`none` is the nil pointer). -/
def commonTokenizer : Nat → Tokenizer → Run (Tokenizer × Option Token)
  | fuel, t =>
    let str := t.input
    let i := t.i
    (idx str i).bind fun c =>
    if isAlpha c then
      (identLoop str fuel (i + 1)).bind fun j =>
      (slice str i j).bind fun s =>
      Run.ret ({ t with i := j }, some (t.newToken TokenType.Identifier s))
    else if isDigit c then
      (digitLoop str fuel (i + 1)).bind fun j =>
      (slice str i j).bind fun s =>
      Run.ret ({ t with i := j }, some (t.newToken TokenType.Integer s))
    else if c == 34 || c == 39 then
      (quoteLoop str i fuel (i + 1)).bind fun j =>
      (if j = str.length then Error (Diag.unmatched c t.filename)
        else (idx str j).bind fun cj =>
          if cj != c then Error (Diag.expected c cj) else Run.ret ()).bind fun _ =>
      (slice str (i + 1) j).bind fun s =>
      Run.ret ({ t with i := j + 1 },
        some (t.newToken
          (if c == 39 then TokenType.CharacterLiteral else TokenType.StringLiteral) s))
    else if IndexByte punctuators c != -1 then
      Run.ret ({ t with i := i + 1 }, some (t.newToken TokenType.Punctuator [c]))
    else if c == 35 then
      match fuel with
      | 0 => Run.timeout
      | fuel1 + 1 => (preprocess fuel1 { t with i := i + 1 }).bind fun t1 => Run.ret (t1, none)
    else if c == 124 || c == 38 || c == 43 || c == 47 then
      -- | || |=   & && &=   + ++ +=   / // /=
      (if i + 1 < str.length then
          (idx str (i + 1)).bind fun c1 => Run.ret (c1 == 61 || c1 == c)
        else Run.ret false).bind fun b =>
      let j := if b then i + 2 else i + 1
      (slice str i j).bind fun s =>
      Run.ret ({ t with i := j }, some (t.newToken TokenType.Punctuator s))
    else if c == 45 then
      -- - -- -= ->
      (if i + 1 < str.length then
          (idx str (i + 1)).bind fun c1 => Run.ret (c1 == 61 || c1 == 62)
        else Run.ret false).bind fun b =>
      let j := if b then i + 2 else i + 1
      (slice str i j).bind fun s =>
      Run.ret ({ t with i := j }, some (t.newToken TokenType.Punctuator s))
    else if c == 61 || c == 33 || c == 42 then
      -- = ==   ! !=   * *=
      (if i + 1 < str.length then
          (idx str (i + 1)).bind fun c1 => Run.ret (c1 == 61)
        else Run.ret false).bind fun b =>
      let j := if b then i + 2 else i + 1
      (slice str i j).bind fun s =>
      Run.ret ({ t with i := j }, some (t.newToken TokenType.Punctuator s))
    else if c == 60 || c == 62 then
      -- < << <= <<=   > >> >= >>=
      (if i + 1 < str.length then
          (idx str (i + 1)).bind fun c1 =>
          if c1 == 61 then Run.ret (i + 2)
          else if c1 == c then
            (if i + 2 < str.length then
                (idx str (i + 2)).bind fun c2 => Run.ret (c2 == 61)
              else Run.ret false).bind fun b =>
            Run.ret (if b then i + 3 else i + 2)
          else Run.ret (i + 1)
        else Run.ret (i + 1)).bind fun j =>
      (slice str i j).bind fun s =>
      Run.ret ({ t with i := j }, some (t.newToken TokenType.Punctuator s))
    else if c == 46 then
      -- .   ...
      (if i + 2 < str.length then
          (idx str (i + 1)).bind fun c1 =>
          if c1 == 46 then (idx str (i + 2)).bind fun c2 => Run.ret (c2 == 46)
          else Run.ret false
        else Run.ret false).bind fun b =>
      let j := if b then i + 3 else i + 1
      (slice str i j).bind fun s =>
      Run.ret ({ t with i := j }, some (t.newToken TokenType.Punctuator s))
    else Error (Diag.unexpectedChar c)

end

/-- The loop of `Tokenize`; returns the receiver at the loop's exit. -/
def TokenizeLoop : Nat → Tokenizer → Run Tokenizer
  | 0, _ => Run.timeout
  | fuel + 1, t =>
    if t.i < t.input.length then
      (idx t.input t.i).bind fun c =>
      if c == 32 || c == 9 then TokenizeLoop fuel { t with i := t.i + 1 }
      else if c == 10 then TokenizeLoop fuel { t with i := t.i + 1, line := t.line + 1 }
      else
        (commonTokenizer fuel t).bind fun r =>
        TokenizeLoop fuel
          (match r.2 with
            | some token => { r.1 with tokens := r.1.tokens ++ [token] }
            | none => r.1)
    else Run.ret t

/-- The method `Tokenize`: the receiver after the call and the returned token list. -/
def Tokenize (fuel : Nat) (t : Tokenizer) : Run (Tokenizer × TokenList) :=
  (TokenizeLoop fuel t).bind fun t1 => Run.ret (t1, t1.tokens)

/-- `NewTokenizer` followed by `Tokenize` on a file with contents `data`: the returned list. -/
def lex (fuel : Nat) (filename : String) (data : List Nat) : Run TokenList :=
  (Tokenize fuel (start filename data)).bind fun r => Run.ret r.2

/-! ## The loop bodies, one iteration at a time -/

/-- The body of the loop of `Tokenize`: one iteration, run when `t.i < len(str)`; gives the
receiver after the iteration (theorem `TokenizeLoop_step`). -/
def TokenizeStep (fuel : Nat) (t : Tokenizer) : Run Tokenizer :=
  (idx t.input t.i).bind fun c =>
  if c == 32 || c == 9 then Run.ret { t with i := t.i + 1 }
  else if c == 10 then Run.ret { t with i := t.i + 1, line := t.line + 1 }
  else
    (commonTokenizer fuel t).bind fun r =>
    Run.ret
      (match r.2 with
        | some token => { r.1 with tokens := r.1.tokens ++ [token] }
        | none => r.1)

/-- The body of the loop of `preprocess`: one iteration on the receiver `t` and the local `i`,
run when `i < len(str)`; gives the receiver and the local index after the iteration, or `none`
when the iteration leaves the loop by `break` (theorem `preprocessLoop_step`). -/
def preprocessStep (fuel : Nat) (t : Tokenizer) (i : Nat) : Run (Option (Tokenizer × Nat)) :=
  (idx t.input i).bind fun c =>
  if c == 32 || c == 9 then Run.ret (some (t, i + 1))
  else if c == 10 then Run.ret none
  else if c == 92 then
    (if i + 1 ≥ t.input.length then Run.ret true
      else (idx t.input (i + 1)).bind fun c1 => Run.ret (c1 != 10)).bind fun bad =>
    if bad then (idx t.input (i + 1)).bind fun c1 => Error (Diag.unexpectedChar c1)
    else if i + 2 ≥ t.input.length then Error Diag.unexpectedEOF
    else
      (commonTokenizer fuel { t with i := i + 2 }).bind fun r =>
      Run.ret (some
        (match r.2 with
          | some token => { r.1 with tokens := r.1.tokens ++ [token] }
          | none => r.1,
        i + 2))
  else Run.ret (some (t, i))

/-- The relation the loop of `preprocess` keeps between the offset of the receiver and its
local index: the offset is at most one past the index, or the index stands at a byte for which
the loop body has no branch (so that nothing changes any more). -/
def preprocessInv (t : Tokenizer) (i : Nat) : Prop :=
  t.i ≤ i + 1 ∨
    (t.input[i]? ≠ none ∧ t.input[i]? ≠ some 32 ∧ t.input[i]? ≠ some 9 ∧
      t.input[i]? ≠ some 10 ∧ t.input[i]? ≠ some 92)

/-! ## The scan driver with ghost bookkeeping -/

/-- Ghost record kept for a token the scan driver appends: the offset at which the token
begins and the number of newline bytes the driver has skipped before that offset. -/
structure Begin where
  offset : Nat
  skipped : Nat
  deriving DecidableEq

/-- The loop of `Tokenize` with ghost state that the program does not have: `nl` counts the
newline bytes the driver has skipped so far and `log` holds one `Begin` record per token the
driver has appended.  The ghost state is written and never read: erasing it gives
`TokenizeLoop` (theorem `TokenizeLoopG_erase`). -/
def TokenizeLoopG : Nat → Tokenizer → Nat → List Begin → Run (Tokenizer × Nat × List Begin)
  | 0, _, _, _ => Run.timeout
  | fuel + 1, t, nl, log =>
    if t.i < t.input.length then
      (idx t.input t.i).bind fun c =>
      if c == 32 || c == 9 then TokenizeLoopG fuel { t with i := t.i + 1 } nl log
      else if c == 10 then
        TokenizeLoopG fuel { t with i := t.i + 1, line := t.line + 1 } (nl + 1) log
      else
        (commonTokenizer fuel t).bind fun r =>
        match r.2 with
        | some token =>
          TokenizeLoopG fuel { r.1 with tokens := r.1.tokens ++ [token] } nl
            (log ++ [⟨t.i, nl⟩])
        | none => TokenizeLoopG fuel r.1 nl log
    else Run.ret (t, nl, log)

/-! ## Specification-side definitions -/

/-- One unit of the body of a literal quoted by `d`: either one byte other than `d` and the
backslash, or a backslash followed by any one byte. -/
def isUnit (d : Nat) : List Nat → Bool
  | [c] => c != d && c != 92
  | [b, _] => b == 92
  | _ => false

/-- The bytes the scan driver skips: space, tab and newline. -/
def isBlank (c : Nat) : Bool := c == 32 || c == 9 || c == 10

/-- The bytes at which the dispatch of `commonTokenizer` has a branch, as the specification
lists them: a letter or `_`, a decimal digit, a double or single quote, one of the thirteen
single-byte punctuators, `#`, or one of `| & + / - = ! * < > .`. -/
def startsLexeme (c : Nat) : Bool :=
  isAlpha c || isDigit c || c == 34 || c == 39 || punctuators.contains c || c == 35 ||
    [124, 38, 43, 47, 45, 61, 33, 42, 60, 62, 46].contains c

/-- The texts a Punctuator token may have according to the specification: the thirteen
single-byte punctuators and `| || |= & && &= + ++ += / // /= - -= -> = == ! != * *= < << <=
<<= > >> >= >>= . ...`. -/
def punctuatorTexts : List (List Nat) :=
  [[91], [93], [40], [41], [123], [125], [126], [63], [58], [59], [44], [37], [92],
    [124], [124, 124], [124, 61], [38], [38, 38], [38, 61], [43], [43, 43], [43, 61],
    [47], [47, 47], [47, 61], [45], [45, 61], [45, 62], [61], [61, 61], [33], [33, 61],
    [42], [42, 61], [60], [60, 60], [60, 61], [60, 60, 61], [62], [62, 62], [62, 61],
    [62, 62, 61], [46], [46, 46, 46]]

/-- Well-formedness of a token for its kind, as the specification words it: an Identifier is
a letter or `_` followed by letters, `_` and digits; an Integer is a non-empty string of
digits; a Punctuator has one of the texts of `punctuatorTexts`. -/
def wellFormed (tok : Token) : Bool :=
  match tok.Typ with
  | TokenType.Identifier =>
    match tok.Str with
    | [] => false
    | c :: cs => isAlpha c && cs.all (fun x => isAlpha x || isDigit x)
  | TokenType.Integer => !tok.Str.isEmpty && tok.Str.all isDigit
  | TokenType.Punctuator => punctuatorTexts.contains tok.Str
  | _ => true

/-- The diagnostics issued by the scanning code itself, as opposed to the two diagnostics of
directive resolution and the delimiter-mismatch diagnostic. -/
def Diag.isScanDiag : Diag → Bool
  | Diag.unmatched _ _ => true
  | Diag.unexpectedChar _ => true
  | Diag.unexpectedEOF => true
  | _ => false

/-! ## Basic facts -/

@[simp] theorem Run.ret_bind {α β : Type} (a : α) (f : α → Run β) :
    (Run.ret a).bind f = f a := rfl

@[simp] theorem Run.exit_bind {α β : Type} (d : Diag) (f : α → Run β) :
    (Run.exit d : Run α).bind f = Run.exit d := rfl

@[simp] theorem Run.panic_bind {α β : Type} (f : α → Run β) :
    (Run.panic : Run α).bind f = Run.panic := rfl

@[simp] theorem Run.timeout_bind {α β : Type} (f : α → Run β) :
    (Run.timeout : Run α).bind f = Run.timeout := rfl

theorem idx_some {str : List Nat} {i c : Nat} (h : str[i]? = some c) : idx str i = Run.ret c := by
  simp [idx, h]

theorem idx_none {str : List Nat} {i : Nat} (h : str[i]? = none) : idx str i = Run.panic := by
  simp [idx, h]

theorem lt_of_get {str : List Nat} {i c : Nat} (h : str[i]? = some c) : i < str.length := by
  by_contra hn
  rw [List.getElem?_eq_none (by omega)] at h
  cases h

theorem le_of_get_none {str : List Nat} {i : Nat} (h : str[i]? = none) : str.length ≤ i := by
  by_contra hn
  rw [List.getElem?_eq_getElem (by omega)] at h
  cases h

theorem slice_len {str : List Nat} {i : Nat} (n : Nat) (h : i + n ≤ str.length) :
    slice str i (i + n) = Run.ret ((str.drop i).take n) := by
  unfold slice
  rw [if_pos ⟨by omega, h⟩, List.drop_take]
  simp

theorem slice1 {str : List Nat} {i a : Nat} (h0 : str[i]? = some a) :
    slice str i (i + 1) = Run.ret [a] := by
  have := lt_of_get h0
  rw [slice_len 1 (by omega)]
  congr 1
  apply List.ext_getElem?
  intro n
  rw [List.getElem?_take, List.getElem?_drop]
  rcases n with _ | n
  · simp [h0]
  · simp

theorem slice2 {str : List Nat} {i a b : Nat} (h0 : str[i]? = some a)
    (h1 : str[i + 1]? = some b) : slice str i (i + 2) = Run.ret [a, b] := by
  have := lt_of_get h1
  rw [slice_len 2 (by omega)]
  congr 1
  apply List.ext_getElem?
  intro n
  rw [List.getElem?_take, List.getElem?_drop]
  rcases n with _ | _ | n
  · simp [h0]
  · simp [h1]
  · simp

theorem slice3 {str : List Nat} {i a b c : Nat} (h0 : str[i]? = some a)
    (h1 : str[i + 1]? = some b) (h2 : str[i + 2]? = some c) :
    slice str i (i + 3) = Run.ret [a, b, c] := by
  have := lt_of_get h2
  rw [slice_len 3 (by omega)]
  congr 1
  apply List.ext_getElem?
  intro n
  rw [List.getElem?_take, List.getElem?_drop]
  rcases n with _ | _ | _ | n
  · simp [h0]
  · simp [h1]
  · simp [h2]
  · simp

/-! ## The operator branches of `commonTokenizer` -/

/-- The branch of `<` (60) and `>` (62). -/
theorem commonTokenizer_angle (fuel : Nat) (t : Tokenizer) (c : Nat)
    (hc : t.input[t.i]? = some c) (h : c = 60 ∨ c = 62) :
    (t.input[t.i + 1]? = some c → t.input[t.i + 2]? = some 61 →
      commonTokenizer fuel t = Run.ret
        ({ t with i := t.i + 3 }, some (t.newToken TokenType.Punctuator [c, c, 61]))) ∧
    (t.input[t.i + 1]? = some c → t.input[t.i + 2]? ≠ some 61 →
      commonTokenizer fuel t = Run.ret
        ({ t with i := t.i + 2 }, some (t.newToken TokenType.Punctuator [c, c]))) ∧
    (t.input[t.i + 1]? = some 61 →
      commonTokenizer fuel t = Run.ret
        ({ t with i := t.i + 2 }, some (t.newToken TokenType.Punctuator [c, 61]))) ∧
    (t.input[t.i + 1]? ≠ some c → t.input[t.i + 1]? ≠ some 61 →
      commonTokenizer fuel t = Run.ret
        ({ t with i := t.i + 1 }, some (t.newToken TokenType.Punctuator [c]))) := by
  have hi := lt_of_get hc
  have hc61 : c ≠ 61 := by omega
  have hd : isAlpha c = false ∧ isDigit c = false ∧ (c == 34 || c == 39) = false ∧
      (IndexByte punctuators c != -1) = false ∧ (c == 35) = false ∧
      (c == 124 || c == 38 || c == 43 || c == 47) = false ∧ (c == 45) = false ∧
      (c == 61 || c == 33 || c == 42) = false ∧ (c == 60 || c == 62) = true := by
    rcases h with rfl | rfl <;> decide
  obtain ⟨d1, d2, d3, d4, d5, d6, d7, d8, d9⟩ := hd
  unfold commonTokenizer
  simp only [idx_some hc, Run.ret_bind, d1, d2, d3, d4, d5, d6, d7, d8, d9, if_true, if_false,
    Bool.false_eq_true]
  refine ⟨?_, ?_, ?_, ?_⟩
  · intro h1 h2
    simp [lt_of_get h1, lt_of_get h2, idx_some h1, idx_some h2, hc61, slice3 hc h1 h2]
  · intro h1 h2
    rcases h2v : t.input[t.i + 2]? with _ | c2
    · simp [lt_of_get h1, idx_some h1, hc61, Nat.not_lt.mpr (le_of_get_none h2v),
        slice2 hc h1]
    · have e3 : c2 ≠ 61 := fun e => h2 (by rw [h2v, e])
      simp [lt_of_get h1, lt_of_get h2v, idx_some h1, idx_some h2v, hc61, e3, slice2 hc h1]
  · intro h1
    simp [lt_of_get h1, idx_some h1, slice2 hc h1]
  · intro h1 h2
    rcases h1v : t.input[t.i + 1]? with _ | c1
    · simp [Nat.not_lt.mpr (le_of_get_none h1v), slice1 hc]
    · have e1 : c1 ≠ c := fun e => h1 (by rw [h1v, e])
      have e2 : c1 ≠ 61 := fun e => h2 (by rw [h1v, e])
      simp [lt_of_get h1v, idx_some h1v, e1, e2, slice1 hc]

/-- The branch of `.` (46). -/
theorem commonTokenizer_dot (fuel : Nat) (t : Tokenizer) (hc : t.input[t.i]? = some 46) :
    (t.input[t.i + 1]? = some 46 ∧ t.input[t.i + 2]? = some 46 →
      commonTokenizer fuel t = Run.ret
        ({ t with i := t.i + 3 }, some (t.newToken TokenType.Punctuator [46, 46, 46]))) ∧
    (¬ (t.input[t.i + 1]? = some 46 ∧ t.input[t.i + 2]? = some 46) →
      commonTokenizer fuel t = Run.ret
        ({ t with i := t.i + 1 }, some (t.newToken TokenType.Punctuator [46]))) := by
  have hi := lt_of_get hc
  have hd : isAlpha 46 = false ∧ isDigit 46 = false ∧
      (IndexByte punctuators 46 != -1) = false := by decide
  obtain ⟨d1, d2, d4⟩ := hd
  unfold commonTokenizer
  simp only [idx_some hc, Run.ret_bind, d1, d2, d4, if_false, Bool.false_eq_true]
  refine ⟨?_, ?_⟩
  · rintro ⟨h1, h2⟩
    simp [lt_of_get h2, idx_some h1, idx_some h2, slice3 hc h1 h2]
  · intro hn
    rcases h2v : t.input[t.i + 2]? with _ | c2
    · simp [Nat.not_lt.mpr (le_of_get_none h2v), slice1 hc]
    · have h2l := lt_of_get h2v
      rcases h1v : t.input[t.i + 1]? with _ | c1
      · have := le_of_get_none h1v
        omega
      · by_cases e1 : c1 = 46
        · have e2 : c2 ≠ 46 := fun e => hn ⟨by rw [h1v, e1], by rw [h2v, e]⟩
          simp [h2l, idx_some h1v, idx_some h2v, e1, e2, slice1 hc]
        · simp [h2l, idx_some h1v, e1, slice1 hc]

/-- The branch of `-` (45): `-=`, `->`, and otherwise `-` alone. -/
theorem commonTokenizer_dash (fuel : Nat) (t : Tokenizer) (hc : t.input[t.i]? = some 45) :
    (t.input[t.i + 1]? = some 61 →
      commonTokenizer fuel t = Run.ret
        ({ t with i := t.i + 2 }, some (t.newToken TokenType.Punctuator [45, 61]))) ∧
    (t.input[t.i + 1]? = some 62 →
      commonTokenizer fuel t = Run.ret
        ({ t with i := t.i + 2 }, some (t.newToken TokenType.Punctuator [45, 62]))) ∧
    (t.input[t.i + 1]? ≠ some 61 → t.input[t.i + 1]? ≠ some 62 →
      commonTokenizer fuel t = Run.ret
        ({ t with i := t.i + 1 }, some (t.newToken TokenType.Punctuator [45]))) := by
  have hi := lt_of_get hc
  have hd : isAlpha 45 = false ∧ isDigit 45 = false ∧
      (IndexByte punctuators 45 != -1) = false := by decide
  obtain ⟨d1, d2, d4⟩ := hd
  unfold commonTokenizer
  simp only [idx_some hc, Run.ret_bind, d1, d2, d4, if_false, Bool.false_eq_true]
  refine ⟨?_, ?_, ?_⟩
  · intro h1
    simp [lt_of_get h1, idx_some h1, slice2 hc h1]
  · intro h1
    simp [lt_of_get h1, idx_some h1, slice2 hc h1]
  · intro h1 h2
    rcases h1v : t.input[t.i + 1]? with _ | c1
    · simp [Nat.not_lt.mpr (le_of_get_none h1v), slice1 hc]
    · have e1 : c1 ≠ 61 := fun e => h1 (by rw [h1v, e])
      have e2 : c1 ≠ 62 := fun e => h2 (by rw [h1v, e])
      simp [lt_of_get h1v, idx_some h1v, e1, e2, slice1 hc]

/-- The branch of `|` (124), `&` (38), `+` (43), `/` (47). -/
theorem commonTokenizer_doubling (fuel : Nat) (t : Tokenizer) (c : Nat)
    (hc : t.input[t.i]? = some c) (h : c = 124 ∨ c = 38 ∨ c = 43 ∨ c = 47) :
    (t.input[t.i + 1]? = some c →
      commonTokenizer fuel t = Run.ret
        ({ t with i := t.i + 2 }, some (t.newToken TokenType.Punctuator [c, c]))) ∧
    (t.input[t.i + 1]? = some 61 →
      commonTokenizer fuel t = Run.ret
        ({ t with i := t.i + 2 }, some (t.newToken TokenType.Punctuator [c, 61]))) ∧
    (t.input[t.i + 1]? ≠ some c → t.input[t.i + 1]? ≠ some 61 →
      commonTokenizer fuel t = Run.ret
        ({ t with i := t.i + 1 }, some (t.newToken TokenType.Punctuator [c]))) := by
  have hi := lt_of_get hc
  have hd : isAlpha c = false ∧ isDigit c = false ∧ (c == 34 || c == 39) = false ∧
      (IndexByte punctuators c != -1) = false ∧ (c == 35) = false ∧
      (c == 124 || c == 38 || c == 43 || c == 47) = true := by
    rcases h with rfl | rfl | rfl | rfl <;> decide
  obtain ⟨d1, d2, d3, d4, d5, d6⟩ := hd
  unfold commonTokenizer
  simp only [idx_some hc, Run.ret_bind, d1, d2, d3, d4, d5, d6, if_true, if_false,
    Bool.false_eq_true]
  refine ⟨?_, ?_, ?_⟩
  · intro h1
    simp [lt_of_get h1, idx_some h1, slice2 hc h1]
  · intro h1
    simp [lt_of_get h1, idx_some h1, slice2 hc h1]
  · intro h1 h2
    rcases h1v : t.input[t.i + 1]? with _ | c1
    · simp [Nat.not_lt.mpr (le_of_get_none h1v), slice1 hc]
    · have e1 : c1 ≠ c := fun e => h1 (by rw [h1v, e])
      have e2 : c1 ≠ 61 := fun e => h2 (by rw [h1v, e])
      simp [lt_of_get h1v, idx_some h1v, e1, e2, slice1 hc]

/-- The branch of `=` (61), `!` (33), `*` (42). -/
theorem commonTokenizer_assign (fuel : Nat) (t : Tokenizer) (c : Nat)
    (hc : t.input[t.i]? = some c) (h : c = 61 ∨ c = 33 ∨ c = 42) :
    (t.input[t.i + 1]? = some 61 →
      commonTokenizer fuel t = Run.ret
        ({ t with i := t.i + 2 }, some (t.newToken TokenType.Punctuator [c, 61]))) ∧
    (t.input[t.i + 1]? ≠ some 61 →
      commonTokenizer fuel t = Run.ret
        ({ t with i := t.i + 1 }, some (t.newToken TokenType.Punctuator [c]))) := by
  have hi := lt_of_get hc
  have hd : isAlpha c = false ∧ isDigit c = false ∧ (c == 34 || c == 39) = false ∧
      (IndexByte punctuators c != -1) = false ∧ (c == 35) = false ∧
      (c == 124 || c == 38 || c == 43 || c == 47) = false ∧ (c == 45) = false ∧
      (c == 61 || c == 33 || c == 42) = true := by
    rcases h with rfl | rfl | rfl <;> decide
  obtain ⟨d1, d2, d3, d4, d5, d6, d7, d8⟩ := hd
  unfold commonTokenizer
  simp only [idx_some hc, Run.ret_bind, d1, d2, d3, d4, d5, d6, d7, d8, if_true, if_false,
    Bool.false_eq_true]
  refine ⟨?_, ?_⟩
  · intro h1
    simp [lt_of_get h1, idx_some h1, slice2 hc h1]
  · intro h1
    rcases h1v : t.input[t.i + 1]? with _ | c1
    · simp [Nat.not_lt.mpr (le_of_get_none h1v), slice1 hc]
    · have e1 : c1 ≠ 61 := fun e => h1 (by rw [h1v, e])
      simp [lt_of_get h1v, idx_some h1v, e1, slice1 hc]

/-- C6. At a byte `c` that is `<` (60) or `>` (62) the classifier returns one Punctuator token,
the longest of `c`, `cc`, `c=`, `cc=` standing at the offset: `cc=` (offset + 3) when the next
two bytes are `c` then `=`; `cc` or `c=` (offset + 2) when the next byte is `c` or `=`; `c`
(offset + 1) otherwise.  Hence the buffers `>>=`, `>>` and `> >` give one, one and two tokens. -/
theorem angle_punctuator_longest (fuel : Nat) (fname : String) (t : Tokenizer) (c : Nat)
    (hc : t.input[t.i]? = some c) (h : c = 60 ∨ c = 62) :
    (t.input[t.i + 1]? = some c → t.input[t.i + 2]? = some 61 →
      commonTokenizer fuel t = Run.ret
        ({ t with i := t.i + 3 }, some (t.newToken TokenType.Punctuator [c, c, 61]))) ∧
    (t.input[t.i + 1]? = some c → t.input[t.i + 2]? ≠ some 61 →
      commonTokenizer fuel t = Run.ret
        ({ t with i := t.i + 2 }, some (t.newToken TokenType.Punctuator [c, c]))) ∧
    (t.input[t.i + 1]? = some 61 →
      commonTokenizer fuel t = Run.ret
        ({ t with i := t.i + 2 }, some (t.newToken TokenType.Punctuator [c, 61]))) ∧
    (t.input[t.i + 1]? ≠ some c → t.input[t.i + 1]? ≠ some 61 →
      commonTokenizer fuel t = Run.ret
        ({ t with i := t.i + 1 }, some (t.newToken TokenType.Punctuator [c]))) ∧
    lex (fuel + 2) fname [62, 62, 61] =
      Run.ret [⟨TokenType.Punctuator, [62, 62, 61], fname, 1⟩] ∧
    lex (fuel + 2) fname [62, 62] = Run.ret [⟨TokenType.Punctuator, [62, 62], fname, 1⟩] ∧
    lex (fuel + 4) fname [62, 32, 62] =
      Run.ret [⟨TokenType.Punctuator, [62], fname, 1⟩,
        ⟨TokenType.Punctuator, [62], fname, 1⟩] := by
  obtain ⟨h1, h2, h3, h4⟩ := commonTokenizer_angle fuel t c hc h
  refine ⟨h1, h2, h3, h4, ?_, ?_, ?_⟩
  · simp [lex, Tokenize, start, TokenizeLoop, commonTokenizer, idx, slice, isAlpha, isDigit,
      IndexByte, punctuators, Tokenizer.newToken, newToken]
  · simp [lex, Tokenize, start, TokenizeLoop, commonTokenizer, idx, slice, isAlpha, isDigit,
      IndexByte, punctuators, Tokenizer.newToken, newToken]
  · simp [lex, Tokenize, start, TokenizeLoop, commonTokenizer, idx, slice, isAlpha, isDigit,
      IndexByte, punctuators, Tokenizer.newToken, newToken]

theorem angle_punctuator_longest_witness :
    (start "a.c" [60, 60, 61]).input[(start "a.c" [60, 60, 61]).i]? = some 60 ∧
    (60 = 60 ∨ 60 = 62) ∧
    commonTokenizer 0 (start "a.c" [60, 60, 61]) = Run.ret
      ({ start "a.c" [60, 60, 61] with i := 3 },
        some ⟨TokenType.Punctuator, [60, 60, 61], "a.c", 1⟩) :=
  ⟨by decide, by decide,
    (angle_punctuator_longest 0 "a.c" (start "a.c" [60, 60, 61]) 60 (by decide)
      (by decide)).1 (by decide) (by decide)⟩

/-- C7. At a `.` byte (46) the classifier returns the three-byte Punctuator `...` exactly when
the next two bytes both exist and are `.`, and the one-byte Punctuator `.` otherwise; the
buffer `...` gives one token and the buffer `..` gives two. -/
theorem dot_punctuator (fuel : Nat) (fname : String) (t : Tokenizer)
    (hc : t.input[t.i]? = some 46) :
    (t.input[t.i + 1]? = some 46 ∧ t.input[t.i + 2]? = some 46 →
      commonTokenizer fuel t = Run.ret
        ({ t with i := t.i + 3 }, some (t.newToken TokenType.Punctuator [46, 46, 46]))) ∧
    (¬ (t.input[t.i + 1]? = some 46 ∧ t.input[t.i + 2]? = some 46) →
      commonTokenizer fuel t = Run.ret
        ({ t with i := t.i + 1 }, some (t.newToken TokenType.Punctuator [46]))) ∧
    lex (fuel + 2) fname [46, 46, 46] =
      Run.ret [⟨TokenType.Punctuator, [46, 46, 46], fname, 1⟩] ∧
    lex (fuel + 3) fname [46, 46] =
      Run.ret [⟨TokenType.Punctuator, [46], fname, 1⟩,
        ⟨TokenType.Punctuator, [46], fname, 1⟩] := by
  obtain ⟨h1, h2⟩ := commonTokenizer_dot fuel t hc
  refine ⟨h1, h2, ?_, ?_⟩
  · simp [lex, Tokenize, start, TokenizeLoop, commonTokenizer, idx, slice, isAlpha, isDigit,
      IndexByte, punctuators, Tokenizer.newToken, newToken]
  · simp [lex, Tokenize, start, TokenizeLoop, commonTokenizer, idx, slice, isAlpha, isDigit,
      IndexByte, punctuators, Tokenizer.newToken, newToken]

theorem dot_punctuator_witness :
    (start "a.c" [46, 46]).input[(start "a.c" [46, 46]).i]? = some 46 ∧
    commonTokenizer 0 (start "a.c" [46, 46]) = Run.ret
      ({ start "a.c" [46, 46] with i := 1 }, some ⟨TokenType.Punctuator, [46], "a.c", 1⟩) :=
  ⟨by decide, (dot_punctuator 0 "a.c" (start "a.c" [46, 46]) (by decide)).2.1 (by decide)⟩

/-- C8 (the defect). At a `-` byte (45) followed by another `-` the classifier returns the
one-byte Punctuator `-`: the branch tests the next byte against `=` and `>` only, although
its comment lists `--`.  The buffer `--` gives two one-byte tokens, not the single
token `--`. -/
theorem dash_dash_two_tokens (fuel : Nat) (fname : String) :
    lex (fuel + 3) fname [45, 45] =
      Run.ret [⟨TokenType.Punctuator, [45], fname, 1⟩,
        ⟨TokenType.Punctuator, [45], fname, 1⟩] := by
  simp [lex, Tokenize, start, TokenizeLoop, commonTokenizer, idx, slice, isAlpha, isDigit,
      IndexByte, punctuators, Tokenizer.newToken, newToken]

/-- C9. At a byte `c` among `|` (124), `&` (38), `+` (43), `/` (47) the classifier returns the
two-byte Punctuator `cc` or `c=` when the next byte exists and is `c` or `=`, and the one-byte
Punctuator `c` otherwise; the offset is left just past the returned text. -/
theorem doubling_punctuator (fuel : Nat) (t : Tokenizer) (c : Nat)
    (hc : t.input[t.i]? = some c) (h : c = 124 ∨ c = 38 ∨ c = 43 ∨ c = 47) :
    (t.input[t.i + 1]? = some c →
      commonTokenizer fuel t = Run.ret
        ({ t with i := t.i + 2 }, some (t.newToken TokenType.Punctuator [c, c]))) ∧
    (t.input[t.i + 1]? = some 61 →
      commonTokenizer fuel t = Run.ret
        ({ t with i := t.i + 2 }, some (t.newToken TokenType.Punctuator [c, 61]))) ∧
    (t.input[t.i + 1]? ≠ some c → t.input[t.i + 1]? ≠ some 61 →
      commonTokenizer fuel t = Run.ret
        ({ t with i := t.i + 1 }, some (t.newToken TokenType.Punctuator [c]))) :=
  commonTokenizer_doubling fuel t c hc h

theorem doubling_punctuator_witness :
    (start "a.c" [47, 47]).input[(start "a.c" [47, 47]).i]? = some 47 ∧
    (47 = 124 ∨ 47 = 38 ∨ 47 = 43 ∨ 47 = 47) ∧
    commonTokenizer 0 (start "a.c" [47, 47]) = Run.ret
      ({ start "a.c" [47, 47] with i := 2 }, some ⟨TokenType.Punctuator, [47, 47], "a.c", 1⟩) :=
  ⟨by decide, by decide,
    (doubling_punctuator 0 (start "a.c" [47, 47]) 47 (by decide) (by decide)).1 (by decide)⟩

/-- C10. At a byte `c` among `=` (61), `!` (33), `*` (42) the classifier returns the two-byte
Punctuator `c=` exactly when the next byte exists and is `=`, and the one-byte Punctuator `c`
otherwise; doubling is not recognised: the buffers `!!` and `**` give two one-byte tokens
each, and the buffer `==` gives the single token `==`. -/
theorem assign_punctuator (fuel : Nat) (fname : String) (t : Tokenizer) (c : Nat)
    (hc : t.input[t.i]? = some c) (h : c = 61 ∨ c = 33 ∨ c = 42) :
    (t.input[t.i + 1]? = some 61 →
      commonTokenizer fuel t = Run.ret
        ({ t with i := t.i + 2 }, some (t.newToken TokenType.Punctuator [c, 61]))) ∧
    (t.input[t.i + 1]? ≠ some 61 →
      commonTokenizer fuel t = Run.ret
        ({ t with i := t.i + 1 }, some (t.newToken TokenType.Punctuator [c]))) ∧
    lex (fuel + 3) fname [33, 33] =
      Run.ret [⟨TokenType.Punctuator, [33], fname, 1⟩,
        ⟨TokenType.Punctuator, [33], fname, 1⟩] ∧
    lex (fuel + 3) fname [42, 42] =
      Run.ret [⟨TokenType.Punctuator, [42], fname, 1⟩,
        ⟨TokenType.Punctuator, [42], fname, 1⟩] ∧
    lex (fuel + 2) fname [61, 61] = Run.ret [⟨TokenType.Punctuator, [61, 61], fname, 1⟩] := by
  obtain ⟨h1, h2⟩ := commonTokenizer_assign fuel t c hc h
  refine ⟨h1, h2, ?_, ?_, ?_⟩
  · simp [lex, Tokenize, start, TokenizeLoop, commonTokenizer, idx, slice, isAlpha, isDigit,
      IndexByte, punctuators, Tokenizer.newToken, newToken]
  · simp [lex, Tokenize, start, TokenizeLoop, commonTokenizer, idx, slice, isAlpha, isDigit,
      IndexByte, punctuators, Tokenizer.newToken, newToken]
  · simp [lex, Tokenize, start, TokenizeLoop, commonTokenizer, idx, slice, isAlpha, isDigit,
      IndexByte, punctuators, Tokenizer.newToken, newToken]

theorem assign_punctuator_witness :
    (start "a.c" [33, 61]).input[(start "a.c" [33, 61]).i]? = some 33 ∧
    (33 = 61 ∨ 33 = 33 ∨ 33 = 42) ∧
    commonTokenizer 0 (start "a.c" [33, 61]) = Run.ret
      ({ start "a.c" [33, 61] with i := 2 }, some ⟨TokenType.Punctuator, [33, 61], "a.c", 1⟩) :=
  ⟨by decide, by decide,
    (assign_punctuator 0 "a.c" (start "a.c" [33, 61]) 33 (by decide) (by decide)).1
      (by decide)⟩

/-! ## The scanning loops on a decomposed buffer -/

theorem get_mid (p s : List Nat) (c : Nat) : (p ++ c :: s)[p.length]? = some c := by
  rw [List.getElem?_append_right (Nat.le_refl _)]
  simp

theorem get_end (p : List Nat) : (p ++ [])[p.length]? = none := by
  simp

theorem isAlpha_false_of_isDigit {c : Nat} (h : isDigit c = true) : isAlpha c = false := by
  simp only [isDigit, Bool.and_eq_true, decide_eq_true_eq] at h
  simp only [isAlpha, Bool.or_eq_false_iff, Bool.and_eq_false_iff, decide_eq_false_iff_not,
    beq_eq_false_iff_ne]
  omega

/-- The integer loop runs over a block of digits and stops at its end. -/
theorem digitLoop_run (str ds rest : List Nat) (hds : ∀ c ∈ ds, isDigit c = true)
    (hrest : ∀ c, rest.head? = some c → isDigit c = false) :
    ∀ (p : List Nat) (fuel : Nat), str = p ++ (ds ++ rest) →
      digitLoop str (fuel + ds.length + 1) p.length = Run.ret (p.length + ds.length) := by
  induction ds with
  | nil =>
    intro p fuel hstr
    rw [digitLoop]
    cases rest with
    | nil =>
      have hl : ¬ p.length < str.length := by simp [hstr]
      simp [hl]
    | cons c rest1 =>
      have hl : p.length < str.length := by simp [hstr]
      have hg : str[p.length]? = some c := by rw [hstr]; exact get_mid p rest1 c
      simp [hl, idx_some hg, hrest c rfl]
  | cons d ds ih =>
    intro p fuel hstr
    have hl : p.length < str.length := by simp [hstr]
    have hg : str[p.length]? = some d := by rw [hstr]; exact get_mid p (ds ++ rest) d
    have hd : isDigit d = true := hds d (List.mem_cons_self d ds)
    have := ih (fun c hc => hds c (List.mem_cons_of_mem d hc)) (p ++ [d]) fuel
      (by rw [hstr]; simp)
    rw [List.length_cons, ← Nat.add_assoc, digitLoop]
    simp only [hl, if_true, idx_some hg, Run.ret_bind, hd]
    rw [List.length_append, List.length_singleton] at this
    rw [this]
    congr 1
    omega

/-- The identifier loop runs over a block of letters, underscores and digits and stops at the
byte after it when there is one. -/
theorem identLoop_run (str ds : List Nat) (c : Nat) (rest : List Nat)
    (hds : ∀ x ∈ ds, isAlpha x = true ∨ isDigit x = true)
    (hc : isAlpha c = false ∧ isDigit c = false) :
    ∀ (p : List Nat) (fuel : Nat), str = p ++ (ds ++ c :: rest) →
      identLoop str (fuel + ds.length + 1) p.length = Run.ret (p.length + ds.length) := by
  induction ds with
  | nil =>
    intro p fuel hstr
    rw [identLoop]
    have hl : p.length < str.length := by simp [hstr]
    have hg : str[p.length]? = some c := by rw [hstr]; exact get_mid p rest c
    simp [hl, idx_some hg, hc.1, hc.2]
  | cons d ds ih =>
    intro p fuel hstr
    have hl : p.length < str.length := by simp [hstr]
    have hg : str[p.length]? = some d := by rw [hstr]; exact get_mid p (ds ++ c :: rest) d
    have hd := hds d (List.mem_cons_self d ds)
    have := ih (fun x hx => hds x (List.mem_cons_of_mem d hx)) (p ++ [d]) fuel
      (by rw [hstr]; simp)
    rw [List.length_cons, ← Nat.add_assoc, identLoop]
    rw [List.length_append, List.length_singleton] at this
    have hstep : identLoop str (fuel + ds.length + 1) (p.length + 1) =
        Run.ret (p.length + (ds.length + 1)) := by rw [this]; congr 1; omega
    rcases hd with hd | hd
    · simp [hl, idx_some hg, hd, hstep]
    · simp [hl, idx_some hg, hd, isAlpha_false_of_isDigit hd, hstep]

/-- The identifier loop panics when the block of letters, underscores and digits reaches the
end of the buffer: `isDigit(str[i])` is evaluated at `i = len(str)`. -/
theorem identLoop_eof (str ds : List Nat)
    (hds : ∀ x ∈ ds, isAlpha x = true ∨ isDigit x = true) :
    ∀ (p : List Nat) (fuel : Nat), str = p ++ ds →
      identLoop str (fuel + ds.length + 1) p.length = Run.panic := by
  induction ds with
  | nil =>
    intro p fuel hstr
    rw [identLoop]
    have hl : ¬ p.length < str.length := by simp [hstr]
    have hg : str[p.length]? = none := by rw [hstr]; simp
    simp [hl, idx_none hg]
  | cons d ds ih =>
    intro p fuel hstr
    have hl : p.length < str.length := by simp [hstr]
    have hg : str[p.length]? = some d := by rw [hstr]; exact get_mid p ds d
    have hd := hds d (List.mem_cons_self d ds)
    have := ih (fun x hx => hds x (List.mem_cons_of_mem d hx)) (p ++ [d]) fuel
      (by rw [hstr]; simp)
    rw [List.length_cons, ← Nat.add_assoc, identLoop]
    rw [List.length_append, List.length_singleton] at this
    rcases hd with hd | hd
    · simp [hl, idx_some hg, hd, this]
    · simp [hl, idx_some hg, hd, isAlpha_false_of_isDigit hd, this]

theorem slice_mid (p m rest : List Nat) :
    slice (p ++ (m ++ rest)) p.length (p.length + m.length) = Run.ret m := by
  rw [slice_len m.length (by simp)]
  simp

/-- The integer branch on a decomposed buffer. -/
theorem commonTokenizer_integer (fuel : Nat) (t : Tokenizer) (p ds rest : List Nat) (d : Nat)
    (hin : t.input = p ++ (d :: ds ++ rest)) (hi : t.i = p.length)
    (hd : isDigit d = true) (hds : ∀ c ∈ ds, isDigit c = true)
    (hrest : ∀ c, rest.head? = some c → isDigit c = false) :
    commonTokenizer (fuel + ds.length + 1) t = Run.ret
      ({ t with i := t.i + (ds.length + 1) },
        some (t.newToken TokenType.Integer (d :: ds))) := by
  have hg : t.input[t.i]? = some d := by rw [hin, hi]; exact get_mid p (ds ++ rest) d
  have hloop := digitLoop_run t.input ds rest hds hrest (p ++ [d]) fuel (by rw [hin]; simp)
  rw [List.length_append, List.length_singleton] at hloop
  have hs := slice_mid p (d :: ds) rest
  rw [← hin, ← hi, List.length_cons] at hs
  unfold commonTokenizer
  simp only [idx_some hg, Run.ret_bind, isAlpha_false_of_isDigit hd, hd, if_true, if_false,
    Bool.false_eq_true]
  rw [hi, hloop, Run.ret_bind, ← hi, Nat.add_assoc, Nat.add_comm 1, hs, Run.ret_bind]

/-- The identifier branch on a decomposed buffer, when a byte follows the run. -/
theorem commonTokenizer_identifier (fuel : Nat) (t : Tokenizer) (p ds rest : List Nat)
    (d c : Nat) (hin : t.input = p ++ (d :: ds ++ c :: rest)) (hi : t.i = p.length)
    (hd : isAlpha d = true) (hds : ∀ x ∈ ds, isAlpha x = true ∨ isDigit x = true)
    (hc : isAlpha c = false ∧ isDigit c = false) :
    commonTokenizer (fuel + ds.length + 1) t = Run.ret
      ({ t with i := t.i + (ds.length + 1) },
        some (t.newToken TokenType.Identifier (d :: ds))) := by
  have hg : t.input[t.i]? = some d := by rw [hin, hi]; exact get_mid p (ds ++ c :: rest) d
  have hloop := identLoop_run t.input ds c rest hds hc (p ++ [d]) fuel (by rw [hin]; simp)
  rw [List.length_append, List.length_singleton] at hloop
  have hs := slice_mid p (d :: ds) (c :: rest)
  rw [← hin, ← hi, List.length_cons] at hs
  unfold commonTokenizer
  simp only [idx_some hg, Run.ret_bind, hd, if_true]
  rw [hi, hloop, Run.ret_bind, ← hi, Nat.add_assoc, Nat.add_comm 1, hs, Run.ret_bind]

/-- The identifier branch on a decomposed buffer, when the run reaches the end of the buffer:
the loop condition indexes the buffer at its length. -/
theorem commonTokenizer_identifier_eof (fuel : Nat) (t : Tokenizer) (p ds : List Nat)
    (d : Nat) (hin : t.input = p ++ d :: ds) (hi : t.i = p.length)
    (hd : isAlpha d = true) (hds : ∀ x ∈ ds, isAlpha x = true ∨ isDigit x = true) :
    commonTokenizer (fuel + ds.length + 1) t = Run.panic := by
  have hg : t.input[t.i]? = some d := by rw [hin, hi]; exact get_mid p ds d
  have hloop := identLoop_eof t.input ds hds (p ++ [d]) fuel (by rw [hin]; simp)
  rw [List.length_append, List.length_singleton] at hloop
  unfold commonTokenizer
  simp only [idx_some hg, Run.ret_bind, hd, if_true]
  rw [hi, hloop, Run.panic_bind]

/-! ## The scan driver, step by step -/

theorem TokenizeLoop_token {fuel : Nat} {t t1 : Tokenizer} {c : Nat} {tok : Token}
    (hc : t.input[t.i]? = some c) (h32 : c ≠ 32) (h9 : c ≠ 9) (h10 : c ≠ 10)
    (h : commonTokenizer fuel t = Run.ret (t1, some tok)) :
    TokenizeLoop (fuel + 1) t = TokenizeLoop fuel { t1 with tokens := t1.tokens ++ [tok] } := by
  rw [TokenizeLoop]
  simp [lt_of_get hc, idx_some hc, h32, h9, h10, h]

theorem TokenizeLoop_panic {fuel : Nat} {t : Tokenizer} {c : Nat}
    (hc : t.input[t.i]? = some c) (h32 : c ≠ 32) (h9 : c ≠ 9) (h10 : c ≠ 10)
    (h : commonTokenizer fuel t = Run.panic) : TokenizeLoop (fuel + 1) t = Run.panic := by
  rw [TokenizeLoop]
  simp [lt_of_get hc, idx_some hc, h32, h9, h10, h]

theorem TokenizeLoop_exit {fuel : Nat} {t : Tokenizer} {c : Nat} {d : Diag}
    (hc : t.input[t.i]? = some c) (h32 : c ≠ 32) (h9 : c ≠ 9) (h10 : c ≠ 10)
    (h : commonTokenizer fuel t = Run.exit d) : TokenizeLoop (fuel + 1) t = Run.exit d := by
  rw [TokenizeLoop]
  simp [lt_of_get hc, idx_some hc, h32, h9, h10, h]

theorem TokenizeLoop_space {fuel : Nat} {t : Tokenizer} {c : Nat}
    (hc : t.input[t.i]? = some c) (h : c = 32 ∨ c = 9) :
    TokenizeLoop (fuel + 1) t = TokenizeLoop fuel { t with i := t.i + 1 } := by
  rw [TokenizeLoop]
  rcases h with rfl | rfl <;> simp [lt_of_get hc, idx_some hc]

theorem TokenizeLoop_newline {fuel : Nat} {t : Tokenizer} (hc : t.input[t.i]? = some 10) :
    TokenizeLoop (fuel + 1) t =
      TokenizeLoop fuel { t with i := t.i + 1, line := t.line + 1 } := by
  rw [TokenizeLoop]
  simp [lt_of_get hc, idx_some hc]

theorem TokenizeLoop_end {fuel : Nat} {t : Tokenizer} (h : t.input.length ≤ t.i) :
    TokenizeLoop (fuel + 1) t = Run.ret t := by
  rw [TokenizeLoop]
  simp [Nat.not_lt.mpr h]

/-- C1 (the defect). When the run of letters, `_` and digits that starts at the offset
extends to the last byte of the buffer, the classifier does not return an Identifier token:
the loop condition `i < len(str) && isAlpha(str[i]) || isDigit(str[i])` evaluates `str[i]` at
`i = len(str)` and the run panics.  The buffer `abc` is such an input. -/
theorem identifier_at_end_of_buffer_panics (fuel : Nat) (fname : String) (t : Tokenizer)
    (p ds : List Nat) (d : Nat) (hin : t.input = p ++ d :: ds) (hi : t.i = p.length)
    (hd : isAlpha d = true) (hds : ∀ x ∈ ds, isAlpha x = true ∨ isDigit x = true) :
    commonTokenizer (fuel + ds.length + 1) t = Run.panic ∧
    lex (fuel + 4) fname [97, 98, 99] = Run.panic := by
  refine ⟨commonTokenizer_identifier_eof fuel t p ds d hin hi hd hds, ?_⟩
  simp [lex, Tokenize, start, TokenizeLoop, commonTokenizer, idx, slice, isAlpha, isDigit,
    identLoop]

theorem identifier_at_end_of_buffer_panics_witness :
    (start "a.c" [97, 98, 99]).input = [] ++ 97 :: [98, 99] ∧
    (start "a.c" [97, 98, 99]).i = ([] : List Nat).length ∧
    isAlpha 97 = true ∧ (∀ x ∈ [98, 99], isAlpha x = true ∨ isDigit x = true) ∧
    commonTokenizer 3 (start "a.c" [97, 98, 99]) = Run.panic :=
  ⟨rfl, rfl, by decide, by decide,
    (identifier_at_end_of_buffer_panics 0 "a.c" (start "a.c" [97, 98, 99]) [] [98, 99] 97 rfl
      rfl (by decide) (by decide)).1⟩

/-- C3. For non-empty strings `a` and `b` of decimal digits, the scan of `a ++ "." ++ b`
returns exactly three tokens: Integer `a`, Punctuator `.`, Integer `b`. -/
theorem integer_dot_integer (fuel : Nat) (fname : String) (a b : List Nat)
    (ha : a ≠ []) (hb : b ≠ []) (hda : ∀ c ∈ a, isDigit c = true)
    (hdb : ∀ c ∈ b, isDigit c = true) :
    lex (fuel + a.length + b.length + 3) fname (a ++ [46] ++ b) =
      Run.ret [⟨TokenType.Integer, a, fname, 1⟩, ⟨TokenType.Punctuator, [46], fname, 1⟩,
        ⟨TokenType.Integer, b, fname, 1⟩] := by
  obtain ⟨a0, as, rfl⟩ := List.exists_cons_of_ne_nil ha
  obtain ⟨b0, bs, rfl⟩ := List.exists_cons_of_ne_nil hb
  have ha0 : isDigit a0 = true := hda a0 (List.mem_cons_self _ _)
  have hb0 : isDigit b0 = true := hdb b0 (List.mem_cons_self _ _)
  have has : ∀ c ∈ as, isDigit c = true := fun c hc => hda c (List.mem_cons_of_mem _ hc)
  have hbs : ∀ c ∈ bs, isDigit c = true := fun c hc => hdb c (List.mem_cons_of_mem _ hc)
  have ha0r : 48 ≤ a0 ∧ a0 ≤ 57 := by simpa [isDigit] using ha0
  have hb0r : 48 ≤ b0 ∧ b0 ≤ 57 := by simpa [isDigit] using hb0
  have hdata : (a0 :: as) ++ [46] ++ (b0 :: bs) = a0 :: (as ++ 46 :: b0 :: bs) := by simp
  unfold lex Tokenize
  rw [hdata]
  -- first token
  have g0 : (start fname (a0 :: (as ++ 46 :: b0 :: bs))).input[
      (start fname (a0 :: (as ++ 46 :: b0 :: bs))).i]? = some a0 := by simp [start]
  have c0 := commonTokenizer_integer (fuel + bs.length + 3)
    (start fname (a0 :: (as ++ 46 :: b0 :: bs))) [] as (46 :: b0 :: bs) a0 (by simp [start]) rfl
    ha0 has (by intro c hc; simp at hc; subst hc; decide)
  have s0 := TokenizeLoop_token g0 (by omega) (by omega) (by omega) c0
  have hf : fuel + (a0 :: as).length + (b0 :: bs).length + 3 =
      (fuel + bs.length + 3 + as.length + 1) + 1 := by simp only [List.length_cons]; omega
  rw [hf, s0]
  simp only [start, Tokenizer.newToken, newToken, List.nil_append, Nat.zero_add]
  -- the dot
  have g1 : (a0 :: (as ++ 46 :: b0 :: bs))[as.length + 1]? = some 46 := by
    have := get_mid (a0 :: as) (b0 :: bs) 46
    simpa using this
  have g1n : (a0 :: (as ++ 46 :: b0 :: bs))[as.length + 1 + 1]? = some b0 := by
    have := get_mid (a0 :: as ++ [46]) bs b0
    simpa using this
  have c1 := (commonTokenizer_dot (fuel + bs.length + 3 + as.length)
    ⟨[⟨TokenType.Integer, a0 :: as, fname, 1⟩], a0 :: (as ++ 46 :: b0 :: bs), fname,
      as.length + 1, 1⟩ g1).2
    (by intro h; have h1 := h.1; rw [g1n] at h1; simp at h1; omega)
  have s1 := TokenizeLoop_token g1 (by omega) (by omega) (by omega) c1
  rw [s1]
  simp only [Tokenizer.newToken, newToken, List.cons_append, List.nil_append]
  -- second integer
  have g2 := g1n
  have c2 := commonTokenizer_integer (fuel + 1 + as.length)
    ⟨[⟨TokenType.Integer, a0 :: as, fname, 1⟩, ⟨TokenType.Punctuator, [46], fname, 1⟩],
      a0 :: (as ++ 46 :: b0 :: bs), fname, as.length + 1 + 1, 1⟩
    (a0 :: as ++ [46]) bs [] b0 (by simp) (by simp) hb0 hbs (by intro c hc; simp at hc)
  have s2 := TokenizeLoop_token g2 (by omega) (by omega) (by omega) c2
  have hf2 : fuel + bs.length + 3 + as.length = (fuel + 1 + as.length + bs.length + 1) + 1 := by
    omega
  rw [hf2, s2]
  simp only [Tokenizer.newToken, newToken, List.cons_append, List.nil_append]
  rw [TokenizeLoop_end (by simp; omega)]
  rfl

theorem integer_dot_integer_witness :
    [49] ≠ [] ∧ [53] ≠ [] ∧ (∀ c ∈ [49], isDigit c = true) ∧ (∀ c ∈ [53], isDigit c = true) ∧
    lex (0 + [49].length + [53].length + 3) "a.c" ([49] ++ [46] ++ [53]) =
      Run.ret [⟨TokenType.Integer, [49], "a.c", 1⟩, ⟨TokenType.Punctuator, [46], "a.c", 1⟩,
        ⟨TokenType.Integer, [53], "a.c", 1⟩] :=
  ⟨by decide, by decide, by decide, by decide,
    integer_dot_integer 0 "a.c" [49] [53] (by decide) (by decide) (by decide) (by decide)⟩

theorem isUnit_cases {d : Nat} {u : List Nat} (h : isUnit d u = true) :
    (∃ c, u = [c] ∧ c ≠ d ∧ c ≠ 92) ∨ (∃ c, u = [92, c]) := by
  match u, h with
  | [c], h =>
    simp only [isUnit, Bool.and_eq_true, bne_iff_ne, ne_eq] at h
    exact Or.inl ⟨c, rfl, h.1, h.2⟩
  | [b, c], h =>
    simp only [isUnit, beq_iff_eq] at h
    subst h
    exact Or.inr ⟨c, rfl⟩

/-- The quoted-literal loop runs over a body made of units, one iteration per unit. -/
theorem quoteLoop_units (str : List Nat) (begin d : Nat) (hb : str[begin]? = some d)
    (hd : d = 34 ∨ d = 39) (rest : List Nat) (units : List (List Nat))
    (hu : ∀ u ∈ units, isUnit d u = true) :
    ∀ (p : List Nat) (fuel : Nat), str = p ++ (units.flatten ++ rest) →
      quoteLoop str begin (fuel + units.length) p.length =
        quoteLoop str begin fuel (p.length + units.flatten.length) := by
  induction units with
  | nil => intro p fuel _; simp
  | cons u us ih =>
    intro p fuel hstr
    have ihu := ih (fun v hv => hu v (List.mem_cons_of_mem u hv)) (p ++ u) fuel
      (by rw [hstr]; simp)
    rw [List.length_cons, ← Nat.add_assoc, quoteLoop]
    rcases isUnit_cases (hu u (List.mem_cons_self u us)) with ⟨c, rfl, hcd, hc92⟩ | ⟨c, rfl⟩
    · have hl : p.length < str.length := by simp [hstr]
      have hg : str[p.length]? = some c := by
        rw [hstr]; exact get_mid p (us.flatten ++ rest) c
      simp only [hl, if_true, idx_some hg, idx_some hb, Run.ret_bind]
      simp only [List.length_append, List.length_singleton] at ihu
      simp [hcd, hc92, ihu, Nat.add_assoc, Nat.add_comm 1]
    · have hl : p.length < str.length := by simp [hstr]
      have hg : str[p.length]? = some 92 := by
        rw [hstr]; exact get_mid p (c :: (us.flatten ++ rest)) 92
      have h92 : (92 : Nat) ≠ d := by omega
      simp only [hl, if_true, idx_some hg, idx_some hb, Run.ret_bind]
      simp only [List.length_append, List.length_cons, List.length_nil] at ihu
      simp [h92, ihu, Nat.add_assoc, Nat.add_comm 2]


theorem slice_body (p m rest : List Nat) (a : Nat) :
    slice (p ++ a :: (m ++ rest)) (p.length + 1) (p.length + m.length + 1) = Run.ret m := by
  have h := slice_mid (p ++ [a]) m rest
  simp only [List.length_append, List.length_singleton, List.append_assoc,
    List.singleton_append] at h
  rw [← h]
  congr 1
  omega

/-- The quoted-literal branch on a decomposed buffer: opening delimiter, body made of units,
closing delimiter. -/
theorem commonTokenizer_quoted (fuel : Nat) (t : Tokenizer) (p post : List Nat) (d : Nat)
    (units : List (List Nat)) (hd : d = 34 ∨ d = 39)
    (hu : ∀ u ∈ units, isUnit d u = true)
    (hin : t.input = p ++ d :: (units.flatten ++ d :: post)) (hi : t.i = p.length) :
    commonTokenizer (fuel + units.length + 1) t = Run.ret
      ({ t with i := t.i + units.flatten.length + 2 },
        some (t.newToken
          (if d = 39 then TokenType.CharacterLiteral else TokenType.StringLiteral)
          units.flatten)) := by
  have hg : t.input[t.i]? = some d := by rw [hin, hi]; exact get_mid p _ d
  have hloop := quoteLoop_units t.input t.i d hg hd (d :: post) units hu (p ++ [d]) (fuel + 1)
    (by rw [hin]; simp)
  have hgj : t.input[p.length + 1 + units.flatten.length]? = some d := by
    have := get_mid (p ++ d :: units.flatten) post d
    rw [hin]
    simpa only [List.length_append, List.length_cons, List.append_assoc, List.cons_append,
      Nat.add_assoc, Nat.add_comm 1] using this
  have hs := slice_body p units.flatten (d :: post) d
  rw [← hin] at hs
  rw [List.length_append, List.length_singleton] at hloop
  generalize units.flatten.length = n at hloop hgj hs ⊢
  rw [← hi] at hloop hgj hs
  have hlast : quoteLoop t.input t.i (fuel + 1) (t.i + 1 + n) = Run.ret (t.i + 1 + n) := by
    rw [quoteLoop]
    simp [lt_of_get hgj, idx_some hgj, idx_some hg]
  have hd' : isAlpha d = false ∧ isDigit d = false ∧ (d == 34 || d == 39) = true := by
    rcases hd with rfl | rfl <;> decide
  have hne : t.i + 1 + n ≠ t.input.length := Nat.ne_of_lt (lt_of_get hgj)
  unfold commonTokenizer
  simp only [idx_some hg, Run.ret_bind, hd'.1, hd'.2.1, hd'.2.2, if_true, if_false,
    Bool.false_eq_true]
  have hfu : fuel + units.length + 1 = fuel + 1 + units.length := by omega
  rw [hfu, hloop, hlast, Run.ret_bind]
  simp only [hne, if_false, idx_some hgj, Run.ret_bind, bne_self_eq_false, Bool.false_eq_true]
  have e1 : t.i + 1 + n = t.i + n + 1 := by omega
  rw [e1, hs, Run.ret_bind]
  rcases hd with rfl | rfl <;> simp [Nat.add_assoc]


/-- C4. For a delimiter `d` (`"` is 34, the single quote is 39) and a body that is a
concatenation of units (one byte other than `d` and the backslash, or a backslash followed by
any one byte), the scan of `d ++ body ++ d` returns exactly one token, a StringLiteral for `"`
and a CharacterLiteral for the single quote, whose text is the body, verbatim; the offset is
left just past the closing delimiter, at the end of the buffer. -/
theorem quoted_literal_one_token (fuel : Nat) (fname : String) (d : Nat)
    (units : List (List Nat)) (hd : d = 34 ∨ d = 39) (hu : ∀ u ∈ units, isUnit d u = true) :
    Tokenize (fuel + units.length + 2) (start fname ([d] ++ units.flatten ++ [d])) = Run.ret
      ({ start fname ([d] ++ units.flatten ++ [d]) with
          i := ([d] ++ units.flatten ++ [d]).length,
          tokens := [⟨if d = 39 then TokenType.CharacterLiteral else TokenType.StringLiteral,
            units.flatten, fname, 1⟩] },
        [⟨if d = 39 then TokenType.CharacterLiteral else TokenType.StringLiteral,
          units.flatten, fname, 1⟩]) := by
  have hdata : [d] ++ units.flatten ++ [d] = d :: (units.flatten ++ [d]) := by simp
  have hlen : ([d] ++ units.flatten ++ [d]).length = units.flatten.length + 2 := by
    simp only [List.length_append, List.length_singleton]; omega
  rw [hlen, hdata]
  have g0 : (start fname (d :: (units.flatten ++ [d]))).input[
      (start fname (d :: (units.flatten ++ [d]))).i]? = some d := by simp [start]
  have c0 := commonTokenizer_quoted fuel (start fname (d :: (units.flatten ++ [d]))) [] [] d
    units hd hu (by simp [start]) rfl
  have s0 := TokenizeLoop_token g0 (by omega) (by omega) (by omega) c0
  unfold Tokenize
  rw [s0]
  simp only [start, Tokenizer.newToken, newToken, List.nil_append, Nat.zero_add]
  rw [TokenizeLoop_end (by simp only [List.length_cons, List.length_append,
    List.length_singleton, List.length_nil]; omega)]
  rfl

theorem quoted_literal_one_token_witness :
    (34 = 34 ∨ 34 = 39) ∧ (∀ u ∈ [[97], [92, 34], [98]], isUnit 34 u = true) ∧
    Tokenize (0 + [[97], [92, 34], [98]].length + 2)
        (start "a.c" ([34] ++ [[97], [92, 34], [98]].flatten ++ [34])) = Run.ret
      ({ start "a.c" ([34] ++ [[97], [92, 34], [98]].flatten ++ [34]) with
          i := ([34] ++ [[97], [92, 34], [98]].flatten ++ [34]).length,
          tokens := [⟨if 34 = 39 then TokenType.CharacterLiteral else TokenType.StringLiteral,
            [[97], [92, 34], [98]].flatten, "a.c", 1⟩] },
        [⟨if 34 = 39 then TokenType.CharacterLiteral else TokenType.StringLiteral,
          [[97], [92, 34], [98]].flatten, "a.c", 1⟩]) :=
  ⟨by decide, by decide,
    quoted_literal_one_token 0 "a.c" 34 [[97], [92, 34], [98]] (by decide) (by decide)⟩

/-- The quoted-literal branch when the body of units runs to the end of the buffer: the
"Unmatched" diagnostic. -/
theorem commonTokenizer_unterminated (fuel : Nat) (t : Tokenizer) (p : List Nat) (d : Nat)
    (units : List (List Nat)) (hd : d = 34 ∨ d = 39)
    (hu : ∀ u ∈ units, isUnit d u = true)
    (hin : t.input = p ++ d :: units.flatten) (hi : t.i = p.length) :
    commonTokenizer (fuel + units.length + 1) t = Run.exit (Diag.unmatched d t.filename) := by
  have hg : t.input[t.i]? = some d := by rw [hin, hi]; exact get_mid p _ d
  have hloop := quoteLoop_units t.input t.i d hg hd [] units hu (p ++ [d]) (fuel + 1)
    (by rw [hin]; simp)
  have hl : t.input.length = p.length + 1 + units.flatten.length := by
    rw [hin]; simp only [List.length_append, List.length_cons]; omega
  rw [List.length_append, List.length_singleton] at hloop
  generalize units.flatten.length = n at hloop hl
  rw [← hi] at hloop hl
  have hlast : quoteLoop t.input t.i (fuel + 1) (t.i + 1 + n) = Run.ret (t.i + 1 + n) := by
    rw [quoteLoop]
    simp [hl]
  have hd' : isAlpha d = false ∧ isDigit d = false ∧ (d == 34 || d == 39) = true := by
    rcases hd with rfl | rfl <;> decide
  unfold commonTokenizer
  simp only [idx_some hg, Run.ret_bind, hd'.1, hd'.2.1, hd'.2.2, if_true, if_false,
    Bool.false_eq_true]
  have hfu : fuel + units.length + 1 = fuel + 1 + units.length := by omega
  rw [hfu, hloop, hlast, Run.ret_bind]
  simp [hl, Error]

/-- The quoted-literal branch when the body is made of units followed by one backslash that
is the last byte of the buffer: the loop leaves `i = len(str) + 1`, the test `i == len(str)`
fails and `str[i]` panics. -/
theorem commonTokenizer_trailing_backslash (fuel : Nat) (t : Tokenizer) (p : List Nat)
    (d : Nat) (units : List (List Nat)) (hd : d = 34 ∨ d = 39)
    (hu : ∀ u ∈ units, isUnit d u = true)
    (hin : t.input = p ++ d :: (units.flatten ++ [92])) (hi : t.i = p.length) :
    commonTokenizer (fuel + units.length + 2) t = Run.panic := by
  have hg : t.input[t.i]? = some d := by rw [hin, hi]; exact get_mid p _ d
  have hloop := quoteLoop_units t.input t.i d hg hd [92] units hu (p ++ [d]) (fuel + 2)
    (by rw [hin]; simp)
  have hl : t.input.length = p.length + 1 + units.flatten.length + 1 := by
    rw [hin]; simp only [List.length_append, List.length_cons, List.length_nil]; omega
  have hgj : t.input[p.length + 1 + units.flatten.length]? = some 92 := by
    have := get_mid (p ++ d :: units.flatten) [] 92
    rw [hin]
    simpa only [List.length_append, List.length_cons, List.append_assoc, List.cons_append,
      Nat.add_assoc, Nat.add_comm 1] using this
  rw [List.length_append, List.length_singleton] at hloop
  generalize units.flatten.length = n at hloop hl hgj
  rw [← hi] at hloop hl hgj
  have h92 : (92 : Nat) ≠ d := by omega
  have hlast : quoteLoop t.input t.i (fuel + 2) (t.i + 1 + n) = Run.ret (t.i + 1 + n + 2) := by
    rw [quoteLoop]
    simp only [lt_of_get hgj, if_true, idx_some hgj, idx_some hg, Run.ret_bind]
    rw [quoteLoop]
    simp [hl, h92]
  have hd' : isAlpha d = false ∧ isDigit d = false ∧ (d == 34 || d == 39) = true := by
    rcases hd with rfl | rfl <;> decide
  have hnone : t.input[t.i + 1 + n + 2]? = none := List.getElem?_eq_none (by omega)
  unfold commonTokenizer
  simp only [idx_some hg, Run.ret_bind, hd'.1, hd'.2.1, hd'.2.2, if_true, if_false,
    Bool.false_eq_true]
  have hfu : fuel + units.length + 2 = fuel + 2 + units.length := by omega
  rw [hfu, hloop, hlast, Run.ret_bind]
  simp [hl, idx_none hnone]

/-- C5 (the defect). When the quoted-literal scan reaches the end of the buffer and the last
byte is a backslash, the run does not end with the "Unmatched" diagnostic: the loop leaves the
index one past the length, the test `i == len(str)` fails, and `str[i]` panics.  The buffer
`"abc\` (opening quote, `abc`, one backslash) is such an input. -/
theorem unterminated_literal_trailing_backslash_panics (fuel : Nat) (fname : String)
    (t : Tokenizer) (p : List Nat) (d : Nat) (units : List (List Nat)) (hd : d = 34 ∨ d = 39)
    (hu : ∀ u ∈ units, isUnit d u = true)
    (hin : t.input = p ++ d :: (units.flatten ++ [92])) (hi : t.i = p.length) :
    commonTokenizer (fuel + units.length + 2) t = Run.panic ∧
    lex (fuel + 6) fname [34, 97, 98, 99, 92] = Run.panic := by
  refine ⟨commonTokenizer_trailing_backslash fuel t p d units hd hu hin hi, ?_⟩
  have g0 : (start fname [34, 97, 98, 99, 92]).input[(start fname [34, 97, 98, 99, 92]).i]? =
      some 34 := by simp [start]
  have c0 := commonTokenizer_trailing_backslash fuel (start fname [34, 97, 98, 99, 92]) [] 34
    [[97], [98], [99]] (Or.inl rfl) (by decide) (by simp [start]) rfl
  have s0 : TokenizeLoop (fuel + 6) (start fname [34, 97, 98, 99, 92]) = Run.panic :=
    TokenizeLoop_panic g0 (by omega) (by omega) (by omega) c0
  unfold lex Tokenize
  rw [s0]
  rfl

theorem unterminated_literal_trailing_backslash_panics_witness :
    (34 = 34 ∨ 34 = 39) ∧ (∀ u ∈ [[97], [98], [99]], isUnit 34 u = true) ∧
    (start "a.c" [34, 97, 98, 99, 92]).input = [] ++ 34 :: ([[97], [98], [99]].flatten ++ [92]) ∧
    (start "a.c" [34, 97, 98, 99, 92]).i = ([] : List Nat).length ∧
    commonTokenizer 5 (start "a.c" [34, 97, 98, 99, 92]) = Run.panic :=
  ⟨by decide, by decide, rfl, rfl,
    (unterminated_literal_trailing_backslash_panics 0 "a.c" (start "a.c" [34, 97, 98, 99, 92])
      [] 34 [[97], [98], [99]] (by decide) (by decide) rfl rfl).1⟩

/-- The unterminated literals the code handles as the specification says: when the body of
units runs to the end of the buffer, the scan ends with the "Unmatched" diagnostic and no
token; the buffer `"abc` is such an input. -/
theorem unterminated_literal_exits (fuel : Nat) (fname : String) (d : Nat)
    (units : List (List Nat)) (hd : d = 34 ∨ d = 39) (hu : ∀ u ∈ units, isUnit d u = true) :
    lex (fuel + units.length + 2) fname (d :: units.flatten) =
      Run.exit (Diag.unmatched d fname) := by
  have g0 : (start fname (d :: units.flatten)).input[(start fname (d :: units.flatten)).i]? =
      some d := by simp [start]
  have c0 := commonTokenizer_unterminated fuel (start fname (d :: units.flatten)) [] d units
    hd hu (by simp [start]) rfl
  unfold lex Tokenize
  rw [TokenizeLoop_exit g0 (by omega) (by omega) (by omega) c0]
  rfl

theorem unterminated_literal_exits_witness :
    (34 = 34 ∨ 34 = 39) ∧ (∀ u ∈ [[97], [98], [99]], isUnit 34 u = true) ∧
    lex 5 "a.c" [34, 97, 98, 99] = Run.exit (Diag.unmatched 34 "a.c") :=
  ⟨by decide, by decide,
    unterminated_literal_exits 0 "a.c" 34 [[97], [98], [99]] (by decide) (by decide)⟩

/-! ## The ghost bookkeeping of the scan driver -/

theorem Run.bind_eq_ret {α β : Type} {r : Run α} {f : α → Run β} {b : β}
    (h : r.bind f = Run.ret b) : ∃ a, r = Run.ret a ∧ f a = Run.ret b := by
  cases r with
  | ret a => exact ⟨a, rfl, h⟩
  | exit d => cases h
  | panic => cases h
  | timeout => cases h

/-- Erasing the ghost state of `TokenizeLoopG` gives `TokenizeLoop`. -/
theorem TokenizeLoopG_erase (fuel : Nat) :
    ∀ (t : Tokenizer) (nl : Nat) (log : List Begin),
      (TokenizeLoopG fuel t nl log).bind (fun r => Run.ret r.1) = TokenizeLoop fuel t := by
  induction fuel with
  | zero => intro t nl log; rfl
  | succ fuel ih =>
    intro t nl log
    rw [TokenizeLoopG, TokenizeLoop]
    by_cases hl : t.i < t.input.length
    · simp only [hl, if_true]
      cases hidx : idx t.input t.i with
      | ret c =>
        simp only [Run.ret_bind]
        by_cases h1 : (c == 32 || c == 9) = true
        · simp only [h1, if_true]; exact ih _ _ _
        · simp only [h1, if_false]
          by_cases h2 : (c == 10) = true
          · simp only [h2, if_true]; exact ih _ _ _
          · simp only [h2, if_false]
            cases hct : commonTokenizer fuel t with
            | ret r =>
              simp only [Run.ret_bind]
              cases hr : r.2 with
              | some token => simp only []; exact ih _ _ _
              | none => simp only []; exact ih _ _ _
            | exit d => rfl
            | panic => rfl
            | timeout => rfl
      | exit d => rfl
      | panic => rfl
      | timeout => rfl
    · simp only [hl, if_false, Run.ret_bind]

/-- Directive resolution never returns: every path ends in `common.Error` or a panic. -/
theorem resolveDirective_ne_ret (t : Tokenizer) (n : Nat) (a : Tokenizer) :
    resolveDirective t n ≠ Run.ret a := by
  unfold resolveDirective
  intro h
  obtain ⟨dir, _, h2⟩ := Run.bind_eq_ret h
  cases dir with
  | none => simp [Error] at h2
  | some d =>
    simp only [Error] at h2
    split at h2 <;> cases h2

/-- The method `preprocess` never returns normally. -/
theorem preprocess_ne_ret (fuel : Nat) (t a : Tokenizer) : preprocess fuel t ≠ Run.ret a := by
  intro h
  cases fuel with
  | zero => simp [preprocess] at h
  | succ fuel =>
    rw [preprocess] at h
    obtain ⟨t1, _, h2⟩ := Run.bind_eq_ret h
    exact resolveDirective_ne_ret _ _ _ h2


/-! ## What a returning classifier call has done -/

theorem mem_span {str : List Nat} {i n x : Nat} (h : x ∈ (str.drop i).take n) :
    ∃ k, i ≤ k ∧ k < i + n ∧ str[k]? = some x := by
  obtain ⟨m, hm⟩ := List.mem_iff_getElem?.mp h
  rw [List.getElem?_take, List.getElem?_drop] at hm
  by_cases hmn : m < n
  · rw [if_pos hmn] at hm
    exact ⟨i + m, by omega, by omega, hm⟩
  · rw [if_neg hmn] at hm
    cases hm

theorem identLoop_ret (str : List Nat) (fuel : Nat) :
    ∀ (i j : Nat), identLoop str fuel i = Run.ret j →
      i ≤ j ∧ j < str.length ∧
      ∀ k, i ≤ k → k < j → ∃ c, str[k]? = some c ∧ (isAlpha c = true ∨ isDigit c = true) := by
  induction fuel with
  | zero => intro i j h; simp [identLoop] at h
  | succ fuel ih =>
    intro i j h
    rw [identLoop] at h
    by_cases hl : i < str.length
    · have hg : str[i]? = some str[i] := List.getElem?_eq_getElem hl
      simp only [hl, if_true, idx_some hg, Run.ret_bind] at h
      by_cases ha : isAlpha str[i] = true
      · simp only [ha, if_true, Run.ret_bind] at h
        obtain ⟨h1, h2, h3⟩ := ih _ _ h
        refine ⟨by omega, h2, fun k hk1 hk2 => ?_⟩
        by_cases hk : k = i
        · subst hk; exact ⟨_, hg, Or.inl ha⟩
        · exact h3 k (by omega) hk2
      · simp only [ha, if_false, Run.ret_bind, Bool.false_eq_true] at h
        by_cases hd : isDigit str[i] = true
        · simp only [hd, if_true] at h
          obtain ⟨h1, h2, h3⟩ := ih _ _ h
          refine ⟨by omega, h2, fun k hk1 hk2 => ?_⟩
          by_cases hk : k = i
          · subst hk; exact ⟨_, hg, Or.inr hd⟩
          · exact h3 k (by omega) hk2
        · simp only [hd, if_false, Bool.false_eq_true] at h
          cases h
          exact ⟨Nat.le_refl _, hl, fun k hk1 hk2 => by omega⟩
    · have hg : str[i]? = none := List.getElem?_eq_none (by omega)
      simp [hl, idx_none hg] at h

theorem digitLoop_ret (str : List Nat) (fuel : Nat) :
    ∀ (i j : Nat), i ≤ str.length → digitLoop str fuel i = Run.ret j →
      i ≤ j ∧ j ≤ str.length ∧
      ∀ k, i ≤ k → k < j → ∃ c, str[k]? = some c ∧ isDigit c = true := by
  induction fuel with
  | zero => intro i j _ h; simp [digitLoop] at h
  | succ fuel ih =>
    intro i j hi h
    rw [digitLoop] at h
    by_cases hl : i < str.length
    · have hg : str[i]? = some str[i] := List.getElem?_eq_getElem hl
      simp only [hl, if_true, idx_some hg, Run.ret_bind] at h
      by_cases hd : isDigit str[i] = true
      · simp only [hd, if_true] at h
        obtain ⟨h1, h2, h3⟩ := ih _ _ (by omega) h
        refine ⟨by omega, h2, fun k hk1 hk2 => ?_⟩
        by_cases hk : k = i
        · subst hk; exact ⟨_, hg, hd⟩
        · exact h3 k (by omega) hk2
      · simp only [hd, if_false, Bool.false_eq_true] at h
        cases h
        exact ⟨Nat.le_refl _, hi, fun k hk1 hk2 => by omega⟩
    · simp only [hl, if_false, Run.ret_bind, Bool.false_eq_true] at h
      cases h
      exact ⟨Nat.le_refl _, hi, fun k hk1 hk2 => by omega⟩

theorem quoteLoop_ret (str : List Nat) (b : Nat) (fuel : Nat) :
    ∀ (i j : Nat), quoteLoop str b fuel i = Run.ret j → i ≤ j := by
  induction fuel with
  | zero => intro i j h; simp [quoteLoop] at h
  | succ fuel ih =>
    intro i j h
    rw [quoteLoop] at h
    obtain ⟨c, _, h2⟩ := Run.bind_eq_ret h
    by_cases hc : c = true
    · simp only [hc, if_true] at h2
      obtain ⟨x, _, h3⟩ := Run.bind_eq_ret h2
      have := ih _ _ h3
      split at this <;> omega
    · simp only [hc, if_false] at h2
      cases h2
      exact Nat.le_refl _

theorem slice_ret {str : List Nat} {lo hi : Nat} {s : List Nat}
    (h : slice str lo hi = Run.ret s) :
    lo ≤ hi ∧ hi ≤ str.length ∧ s = (str.drop lo).take (hi - lo) := by
  unfold slice at h
  by_cases hc : lo ≤ hi ∧ hi ≤ str.length
  · rw [if_pos hc, List.drop_take] at h
    cases h
    exact ⟨hc.1, hc.2, rfl⟩
  · rw [if_neg hc] at h
    cases h


theorem take1_of_get {str : List Nat} {i a : Nat} (h0 : str[i]? = some a) :
    [a] = (str.drop i).take (i + 1 - i) := by
  have h := slice1 h0
  obtain ⟨_, _, e⟩ := slice_ret h
  exact e

theorem take2_of_get {str : List Nat} {i a b : Nat} (h0 : str[i]? = some a)
    (h1 : str[i + 1]? = some b) : [a, b] = (str.drop i).take (i + 2 - i) := by
  have h := slice2 h0 h1
  obtain ⟨_, _, e⟩ := slice_ret h
  exact e

theorem take3_of_get {str : List Nat} {i a b c : Nat} (h0 : str[i]? = some a)
    (h1 : str[i + 1]? = some b) (h2 : str[i + 2]? = some c) :
    [a, b, c] = (str.drop i).take (i + 3 - i) := by
  have h := slice3 h0 h1 h2
  obtain ⟨_, _, e⟩ := slice_ret h
  exact e

theorem not_blank_of_alnum {x : Nat} (h : isAlpha x = true ∨ isDigit x = true) :
    x ≠ 10 ∧ x ≠ 32 ∧ x ≠ 9 := by
  rcases h with h | h
  · simp only [isAlpha, Bool.or_eq_true, Bool.and_eq_true, decide_eq_true_eq, beq_iff_eq] at h
    omega
  · simp only [isDigit, Bool.and_eq_true, decide_eq_true_eq] at h
    omega

theorem not_blank_of_punctuator {c : Nat} (h : (IndexByte punctuators c != -1) = true) :
    c ≠ 10 ∧ c ≠ 32 ∧ c ≠ 9 := by
  refine ⟨?_, ?_, ?_⟩ <;> (intro e; subst e; revert h; decide)

/-- What a classifier call that returns has done: it has moved the offset forward, inside the
buffer, changed nothing else, and returned a token carrying the file name and the line of the
receiver.  Unless the call began at a quote, the token text is the span of the buffer the call
went over, and the span holds no newline, space or tab. -/
theorem commonTokenizer_ret {fuel : Nat} {t : Tokenizer} {r : Tokenizer × Option Token}
    (h : commonTokenizer fuel t = Run.ret r) :
    ∃ c j typ s, t.input[t.i]? = some c ∧
      r = ({ t with i := j }, some (t.newToken typ s)) ∧ t.i < j ∧ j ≤ t.input.length ∧
      (c = 34 ∨ c = 39 ∨
        (s = (t.input.drop t.i).take (j - t.i) ∧ ∀ x ∈ s, x ≠ 10 ∧ x ≠ 32 ∧ x ≠ 9)) := by
  rcases hg : t.input[t.i]? with _ | c
  · unfold commonTokenizer at h
    simp [idx_none hg] at h
  have hil := lt_of_get hg
  by_cases ha : isAlpha c = true
  · unfold commonTokenizer at h
    simp only [idx_some hg, Run.ret_bind, ha, if_true] at h
    obtain ⟨j, hj, h2⟩ := Run.bind_eq_ret h
    obtain ⟨s, hs, h3⟩ := Run.bind_eq_ret h2
    cases h3
    obtain ⟨l1, l2, l3⟩ := identLoop_ret _ _ _ _ hj
    obtain ⟨_, _, hs1⟩ := slice_ret hs
    refine ⟨c, j, TokenType.Identifier, s, rfl, rfl, by omega, by omega,
      Or.inr (Or.inr ⟨hs1, fun x hx => ?_⟩)⟩
    rw [hs1] at hx
    obtain ⟨k, hk1, hk2, hk3⟩ := mem_span hx
    by_cases hk : k = t.i
    · subst hk
      rw [hg] at hk3
      cases hk3
      exact not_blank_of_alnum (Or.inl ha)
    · obtain ⟨y, hy1, hy2⟩ := l3 k (by omega) (by omega)
      rw [hk3] at hy1
      cases hy1
      exact not_blank_of_alnum hy2
  have ha1 : isAlpha c = false := by simpa using ha
  by_cases hd : isDigit c = true
  · unfold commonTokenizer at h
    simp only [idx_some hg, Run.ret_bind, ha1, hd, if_true, if_false, Bool.false_eq_true] at h
    obtain ⟨j, hj, h2⟩ := Run.bind_eq_ret h
    obtain ⟨s, hs, h3⟩ := Run.bind_eq_ret h2
    cases h3
    obtain ⟨l1, l2, l3⟩ := digitLoop_ret _ _ _ _ (by omega) hj
    obtain ⟨_, _, hs1⟩ := slice_ret hs
    refine ⟨c, j, TokenType.Integer, s, rfl, rfl, by omega, by omega,
      Or.inr (Or.inr ⟨hs1, fun x hx => ?_⟩)⟩
    rw [hs1] at hx
    obtain ⟨k, hk1, hk2, hk3⟩ := mem_span hx
    by_cases hk : k = t.i
    · subst hk
      rw [hg] at hk3
      cases hk3
      exact not_blank_of_alnum (Or.inr hd)
    · obtain ⟨y, hy1, hy2⟩ := l3 k (by omega) (by omega)
      rw [hk3] at hy1
      cases hy1
      exact not_blank_of_alnum (Or.inr hy2)
  have hd1 : isDigit c = false := by simpa using hd
  by_cases hq : c = 34 ∨ c = 39
  · have hq1 : (c == 34 || c == 39) = true := by simpa using hq
    unfold commonTokenizer at h
    simp only [idx_some hg, Run.ret_bind, ha1, hd1, hq1, if_true, if_false,
      Bool.false_eq_true] at h
    obtain ⟨j, hj, h2⟩ := Run.bind_eq_ret h
    obtain ⟨u, hu, h3⟩ := Run.bind_eq_ret h2
    obtain ⟨s, hs, h4⟩ := Run.bind_eq_ret h3
    cases h4
    have l1 := quoteLoop_ret _ _ _ _ _ hj
    have hjl : j < t.input.length := by
      by_cases e : j = t.input.length
      · rw [if_pos e] at hu
        cases hu
      · rw [if_neg e] at hu
        obtain ⟨cj, hcj, _⟩ := Run.bind_eq_ret hu
        rcases hgj : t.input[j]? with _ | y
        · rw [idx_none hgj] at hcj
          cases hcj
        · exact lt_of_get hgj
    refine ⟨c, j + 1, _, s, rfl, rfl, by omega, by omega, ?_⟩
    rcases hq with e | e
    · exact Or.inl e
    · exact Or.inr (Or.inl e)
  have hq1 : (c == 34 || c == 39) = false := by simpa using hq
  by_cases hp : (IndexByte punctuators c != -1) = true
  · unfold commonTokenizer at h
    simp only [idx_some hg, Run.ret_bind, ha1, hd1, hq1, hp, if_true, if_false,
      Bool.false_eq_true] at h
    cases h
    refine ⟨c, t.i + 1, TokenType.Punctuator, [c], rfl, rfl, by omega, by omega,
      Or.inr (Or.inr ⟨take1_of_get hg, fun x hx => ?_⟩)⟩
    simp only [List.mem_singleton] at hx
    subst hx
    exact not_blank_of_punctuator hp
  have hp1 : (IndexByte punctuators c != -1) = false := by simpa using hp
  by_cases h35 : c = 35
  · have h35b : (c == 35) = true := by simpa using h35
    unfold commonTokenizer at h
    simp only [idx_some hg, Run.ret_bind, ha1, hd1, hq1, hp1, h35b, if_true, if_false,
      Bool.false_eq_true] at h
    cases fuel with
    | zero => cases h
    | succ fuel =>
      simp only [] at h
      obtain ⟨t1, ht1, _⟩ := Run.bind_eq_ret h
      exact absurd ht1 (preprocess_ne_ret _ _ _)
  have h35b : (c == 35) = false := by simpa using h35
  by_cases hdbl : c = 124 ∨ c = 38 ∨ c = 43 ∨ c = 47
  · obtain ⟨p1, p2, p3⟩ := commonTokenizer_doubling fuel t c hg hdbl
    by_cases e1 : t.input[t.i + 1]? = some c
    · rw [p1 e1] at h
      cases h
      refine ⟨c, t.i + 2, TokenType.Punctuator, [c, c], rfl, rfl, by omega, lt_of_get e1,
        Or.inr (Or.inr ⟨take2_of_get hg e1, ?_⟩)⟩
      intro x hx
      simp only [List.mem_cons, List.mem_singleton, List.not_mem_nil, or_false] at hx
      omega
    by_cases e2 : t.input[t.i + 1]? = some 61
    · rw [p2 e2] at h
      cases h
      refine ⟨c, t.i + 2, TokenType.Punctuator, [c, 61], rfl, rfl, by omega, lt_of_get e2,
        Or.inr (Or.inr ⟨take2_of_get hg e2, ?_⟩)⟩
      intro x hx
      simp only [List.mem_cons, List.mem_singleton, List.not_mem_nil, or_false] at hx
      omega
    · rw [p3 e1 e2] at h
      cases h
      refine ⟨c, t.i + 1, TokenType.Punctuator, [c], rfl, rfl, by omega, by omega,
        Or.inr (Or.inr ⟨take1_of_get hg, ?_⟩)⟩
      intro x hx
      simp only [List.mem_cons, List.mem_singleton, List.not_mem_nil, or_false] at hx
      omega
  by_cases h45 : c = 45
  · subst h45
    obtain ⟨p1, p2, p3⟩ := commonTokenizer_dash fuel t hg
    by_cases e1 : t.input[t.i + 1]? = some 61
    · rw [p1 e1] at h
      cases h
      refine ⟨45, t.i + 2, TokenType.Punctuator, [45, 61], rfl, rfl, by omega, lt_of_get e1,
        Or.inr (Or.inr ⟨take2_of_get hg e1, ?_⟩)⟩
      intro x hx
      simp only [List.mem_cons, List.mem_singleton, List.not_mem_nil, or_false] at hx
      omega
    by_cases e2 : t.input[t.i + 1]? = some 62
    · rw [p2 e2] at h
      cases h
      refine ⟨45, t.i + 2, TokenType.Punctuator, [45, 62], rfl, rfl, by omega, lt_of_get e2,
        Or.inr (Or.inr ⟨take2_of_get hg e2, ?_⟩)⟩
      intro x hx
      simp only [List.mem_cons, List.mem_singleton, List.not_mem_nil, or_false] at hx
      omega
    · rw [p3 e1 e2] at h
      cases h
      refine ⟨45, t.i + 1, TokenType.Punctuator, [45], rfl, rfl, by omega, by omega,
        Or.inr (Or.inr ⟨take1_of_get hg, ?_⟩)⟩
      intro x hx
      simp only [List.mem_cons, List.mem_singleton, List.not_mem_nil, or_false] at hx
      omega
  by_cases hasg : c = 61 ∨ c = 33 ∨ c = 42
  · obtain ⟨p1, p2⟩ := commonTokenizer_assign fuel t c hg hasg
    by_cases e1 : t.input[t.i + 1]? = some 61
    · rw [p1 e1] at h
      cases h
      refine ⟨c, t.i + 2, TokenType.Punctuator, [c, 61], rfl, rfl, by omega, lt_of_get e1,
        Or.inr (Or.inr ⟨take2_of_get hg e1, ?_⟩)⟩
      intro x hx
      simp only [List.mem_cons, List.mem_singleton, List.not_mem_nil, or_false] at hx
      omega
    · rw [p2 e1] at h
      cases h
      refine ⟨c, t.i + 1, TokenType.Punctuator, [c], rfl, rfl, by omega, by omega,
        Or.inr (Or.inr ⟨take1_of_get hg, ?_⟩)⟩
      intro x hx
      simp only [List.mem_cons, List.mem_singleton, List.not_mem_nil, or_false] at hx
      omega
  by_cases hang : c = 60 ∨ c = 62
  · obtain ⟨p1, p2, p3, p4⟩ := commonTokenizer_angle fuel t c hg hang
    by_cases e1 : t.input[t.i + 1]? = some c
    · by_cases e2 : t.input[t.i + 2]? = some 61
      · rw [p1 e1 e2] at h
        cases h
        refine ⟨c, t.i + 3, TokenType.Punctuator, [c, c, 61], rfl, rfl, by omega, lt_of_get e2,
          Or.inr (Or.inr ⟨take3_of_get hg e1 e2, ?_⟩)⟩
        intro x hx
        simp only [List.mem_cons, List.mem_singleton, List.not_mem_nil, or_false] at hx
        omega
      · rw [p2 e1 e2] at h
        cases h
        refine ⟨c, t.i + 2, TokenType.Punctuator, [c, c], rfl, rfl, by omega, lt_of_get e1,
          Or.inr (Or.inr ⟨take2_of_get hg e1, ?_⟩)⟩
        intro x hx
        simp only [List.mem_cons, List.mem_singleton, List.not_mem_nil, or_false] at hx
        omega
    by_cases e3 : t.input[t.i + 1]? = some 61
    · rw [p3 e3] at h
      cases h
      refine ⟨c, t.i + 2, TokenType.Punctuator, [c, 61], rfl, rfl, by omega, lt_of_get e3,
        Or.inr (Or.inr ⟨take2_of_get hg e3, ?_⟩)⟩
      intro x hx
      simp only [List.mem_cons, List.mem_singleton, List.not_mem_nil, or_false] at hx
      omega
    · rw [p4 e1 e3] at h
      cases h
      refine ⟨c, t.i + 1, TokenType.Punctuator, [c], rfl, rfl, by omega, by omega,
        Or.inr (Or.inr ⟨take1_of_get hg, ?_⟩)⟩
      intro x hx
      simp only [List.mem_cons, List.mem_singleton, List.not_mem_nil, or_false] at hx
      omega
  by_cases h46 : c = 46
  · subst h46
    obtain ⟨p1, p2⟩ := commonTokenizer_dot fuel t hg
    by_cases e : t.input[t.i + 1]? = some 46 ∧ t.input[t.i + 2]? = some 46
    · rw [p1 e] at h
      cases h
      refine ⟨46, t.i + 3, TokenType.Punctuator, [46, 46, 46], rfl, rfl, by omega,
        lt_of_get e.2, Or.inr (Or.inr ⟨take3_of_get hg e.1 e.2, ?_⟩)⟩
      intro x hx
      simp only [List.mem_cons, List.mem_singleton, List.not_mem_nil, or_false] at hx
      omega
    · rw [p2 e] at h
      cases h
      refine ⟨46, t.i + 1, TokenType.Punctuator, [46], rfl, rfl, by omega, by omega,
        Or.inr (Or.inr ⟨take1_of_get hg, ?_⟩)⟩
      intro x hx
      simp only [List.mem_cons, List.mem_singleton, List.not_mem_nil, or_false] at hx
      omega
  unfold commonTokenizer at h
  have b1 : (c == 124 || c == 38 || c == 43 || c == 47) = false := by
    simp only [Bool.or_eq_false_iff, beq_eq_false_iff_ne]; omega
  have b2 : (c == 45) = false := by simpa using h45
  have b3 : (c == 61 || c == 33 || c == 42) = false := by
    simp only [Bool.or_eq_false_iff, beq_eq_false_iff_ne]; omega
  have b4 : (c == 60 || c == 62) = false := by
    simp only [Bool.or_eq_false_iff, beq_eq_false_iff_ne]; omega
  have b5 : (c == 46) = false := by simpa using h46
  simp only [idx_some hg, Run.ret_bind, ha1, hd1, hq1, hp1, h35b, b1, b2, b3, b4, b5, if_false,
    Bool.false_eq_true, Error] at h
  cases h


/-! ## Line numbers of the tokens -/

theorem count_take_succ {data : List Nat} {i c : Nat} (h : data[i]? = some c) :
    (data.take (i + 1)).count 10 = (data.take i).count 10 + if c = 10 then 1 else 0 := by
  rw [List.take_succ, h, List.count_append]
  by_cases e : c = 10
  · subst e; simp
  · have e1 : ¬ (10 : Nat) = c := fun x => e x.symm
    simp [e, e1, List.count_cons]

theorem count_take_span {data : List Nat} {i j : Nat} (hij : i ≤ j)
    (h : ∀ x ∈ (data.drop i).take (j - i), x ≠ 10 ∧ x ≠ 32 ∧ x ≠ 9) :
    (data.take j).count 10 = (data.take i).count 10 := by
  have e : data.take j = data.take i ++ (data.drop i).take (j - i) := by
    rw [← List.take_add]
    congr 1
    omega
  rw [e, List.count_append]
  have : List.count 10 ((data.drop i).take (j - i)) = 0 :=
    List.count_eq_zero.mpr (fun hm => (h 10 hm).1 rfl)
  omega

theorem take_length_span {data : List Nat} {i j : Nat} (hij : i ≤ j) (hj : j ≤ data.length) :
    (data.drop i).take ((data.drop i).take (j - i)).length = (data.drop i).take (j - i) := by
  rw [List.length_take, List.length_drop]
  congr 1
  omega

/-- The relation between a token and its ghost record: the token carries the line `1 + skipped`,
`skipped` is the number of newline bytes of the buffer before the token's offset, and the
token text stands at that offset. -/
theorem TokenizeLoopG_lines (data : List Nat) (hq : 34 ∉ data ∧ 39 ∉ data) (fuel : Nat) :
    ∀ (t : Tokenizer) (nl : Nat) (log : List Begin) (r : Tokenizer × Nat × List Begin),
      t.input = data → t.line = 1 + nl → nl = (data.take t.i).count 10 →
      List.Forall₂ (fun (tok : Token) (b : Begin) => tok.Line = 1 + b.skipped ∧
        b.skipped = (data.take b.offset).count 10 ∧
        (data.drop b.offset).take tok.Str.length = tok.Str) t.tokens log →
      TokenizeLoopG fuel t nl log = Run.ret r →
      List.Forall₂ (fun (tok : Token) (b : Begin) => tok.Line = 1 + b.skipped ∧
        b.skipped = (data.take b.offset).count 10 ∧
        (data.drop b.offset).take tok.Str.length = tok.Str) r.1.tokens r.2.2 := by
  induction fuel with
  | zero => intro t nl log r _ _ _ _ h; simp [TokenizeLoopG] at h
  | succ fuel ih =>
    intro t nl log r hin hline hnl hrel h
    rw [TokenizeLoopG] at h
    by_cases hl : t.i < t.input.length
    · have hg : t.input[t.i]? = some t.input[t.i] := List.getElem?_eq_getElem hl
      generalize t.input[t.i] = c at hg
      simp only [hl, if_true, idx_some hg, Run.ret_bind] at h
      have hgd : data[t.i]? = some c := by rw [← hin]; exact hg
      by_cases h1 : (c == 32 || c == 9) = true
      · simp only [h1, if_true] at h
        have hc10 : ¬ c = 10 := by
          simp only [Bool.or_eq_true, beq_iff_eq] at h1; omega
        refine ih _ _ _ _ ?_ ?_ ?_ ?_ h
        · exact hin
        · exact hline
        · show nl = (data.take (t.i + 1)).count 10
          rw [count_take_succ hgd, if_neg hc10, ← hnl]
          rfl
        · exact hrel
      · simp only [h1, if_false, Bool.false_eq_true] at h
        by_cases h2 : (c == 10) = true
        · simp only [h2, if_true] at h
          have hc10 : c = 10 := by simpa using h2
          refine ih _ _ _ _ ?_ ?_ ?_ ?_ h
          · exact hin
          · show t.line + 1 = 1 + (nl + 1)
            omega
          · show nl + 1 = (data.take (t.i + 1)).count 10
            rw [count_take_succ hgd, if_pos hc10, ← hnl]
          · exact hrel
        · simp only [h2, if_false, Bool.false_eq_true] at h
          obtain ⟨r1, hct, h3⟩ := Run.bind_eq_ret h
          obtain ⟨c1, j, typ, s, hc1, hr1, hij, hjl, hspan⟩ := commonTokenizer_ret hct
          rw [hg] at hc1
          cases hc1
          have hmem : c ∈ data := List.getElem?_mem hgd
          have hspan1 : s = (t.input.drop t.i).take (j - t.i) ∧
              ∀ x ∈ s, x ≠ 10 ∧ x ≠ 32 ∧ x ≠ 9 := by
            rcases hspan with e | e | e
            · exact absurd (e ▸ hmem) hq.1
            · exact absurd (e ▸ hmem) hq.2
            · exact e
          subst hr1
          simp only [] at h3
          rw [hin] at hspan1 hjl
          refine ih _ _ _ _ ?_ ?_ ?_ ?_ h3
          · exact hin
          · exact hline
          · show nl = (data.take j).count 10
            rw [hnl]
            exact (count_take_span (Nat.le_of_lt hij) (hspan1.1 ▸ hspan1.2)).symm
          · show List.Forall₂ _ (t.tokens ++ [t.newToken typ s]) (log ++ [⟨t.i, nl⟩])
            refine List.rel_append hrel (List.Forall₂.cons ⟨hline, hnl, ?_⟩ List.Forall₂.nil)
            show (data.drop t.i).take s.length = s
            rw [hspan1.1]
            exact take_length_span (Nat.le_of_lt hij) hjl
    · simp only [hl, if_false] at h
      cases h
      exact hrel


/-- C2 as stated fails: the line counter starts at 1, so a token on the first line reports
line 1 while the driver has skipped 0 newline bytes before it.  On the one-byte buffer `1` the
scan succeeds with the single token Integer `1`, whose ghost record is offset 0 with 0 newlines
skipped, and whose `Line` is 1. -/
theorem token_line_is_not_newlines_skipped :
    (34 ∉ [49] ∧ 39 ∉ [49]) ∧
    Tokenize 2 (start "a.c" [49]) = Run.ret
      (⟨[⟨TokenType.Integer, [49], "a.c", 1⟩], [49], "a.c", 1, 1⟩,
        [⟨TokenType.Integer, [49], "a.c", 1⟩]) ∧
    TokenizeLoopG 2 (start "a.c" [49]) 0 [] = Run.ret
      (⟨[⟨TokenType.Integer, [49], "a.c", 1⟩], [49], "a.c", 1, 1⟩, 0, [⟨0, 0⟩]) ∧
    ¬ List.Forall₂ (fun (tok : Token) (b : Begin) => tok.Line = b.skipped)
      [⟨TokenType.Integer, [49], "a.c", 1⟩] [⟨0, 0⟩] := by
  refine ⟨by decide, by decide, by decide, ?_⟩
  intro h
  cases h with
  | cons h1 _ => exact absurd h1 (by decide)

/-- C2, amended. For every buffer that holds no quote byte and on which `Tokenize` succeeds,
the run of the driver with ghost bookkeeping succeeds with the same final state, and every
returned token's `Line` equals 1 plus the number of newline bytes the scan driver skipped
strictly before the offset at which that token begins; that number is the number of newline
bytes of the buffer before that offset, and the token text stands at that offset. -/
theorem token_line_is_one_plus_newlines_skipped (fuel : Nat) (fname : String)
    (data : List Nat) (t1 : Tokenizer) (toks : TokenList) (hq : 34 ∉ data ∧ 39 ∉ data)
    (h : Tokenize fuel (start fname data) = Run.ret (t1, toks)) :
    ∃ nl log, TokenizeLoopG fuel (start fname data) 0 [] = Run.ret (t1, nl, log) ∧
      List.Forall₂ (fun (tok : Token) (b : Begin) => tok.Line = 1 + b.skipped ∧
        b.skipped = (data.take b.offset).count 10 ∧
        (data.drop b.offset).take tok.Str.length = tok.Str) toks log := by
  unfold Tokenize at h
  obtain ⟨t2, ht2, h2⟩ := Run.bind_eq_ret h
  cases h2
  rw [← TokenizeLoopG_erase fuel (start fname data) 0 []] at ht2
  obtain ⟨r, hr, h3⟩ := Run.bind_eq_ret ht2
  cases h3
  refine ⟨r.2.1, r.2.2, hr, ?_⟩
  exact TokenizeLoopG_lines data hq fuel (start fname data) 0 [] r rfl rfl
    (by simp [start]) List.Forall₂.nil hr

theorem token_line_is_one_plus_newlines_skipped_witness :
    (34 ∉ [49, 10, 50] ∧ 39 ∉ [49, 10, 50]) ∧
    Tokenize 4 (start "a.c" [49, 10, 50]) = Run.ret
      (⟨[⟨TokenType.Integer, [49], "a.c", 1⟩, ⟨TokenType.Integer, [50], "a.c", 2⟩],
          [49, 10, 50], "a.c", 3, 2⟩,
        [⟨TokenType.Integer, [49], "a.c", 1⟩, ⟨TokenType.Integer, [50], "a.c", 2⟩]) ∧
    ∃ nl log, TokenizeLoopG 4 (start "a.c" [49, 10, 50]) 0 [] = Run.ret
        (⟨[⟨TokenType.Integer, [49], "a.c", 1⟩, ⟨TokenType.Integer, [50], "a.c", 2⟩],
          [49, 10, 50], "a.c", 3, 2⟩, nl, log) ∧
      List.Forall₂ (fun (tok : Token) (b : Begin) => tok.Line = 1 + b.skipped ∧
        b.skipped = ([49, 10, 50].take b.offset).count 10 ∧
        ([49, 10, 50].drop b.offset).take tok.Str.length = tok.Str)
        [⟨TokenType.Integer, [49], "a.c", 1⟩, ⟨TokenType.Integer, [50], "a.c", 2⟩] log :=
  ⟨by decide, by decide,
    token_line_is_one_plus_newlines_skipped 4 "a.c" [49, 10, 50] _ _ (by decide) (by decide)⟩

/-! ## The preprocessor line -/

/-- The loop of `preprocess` makes no progress at a byte that is none of space, tab, newline
and backslash: the iteration leaves the receiver and the local index as they are, so no amount
of fuel lets the loop end. -/
theorem preprocessLoop_stuck (fuel : Nat) (t : Tokenizer) (i c : Nat)
    (hg : t.input[i]? = some c) (h32 : c ≠ 32) (h9 : c ≠ 9) (h10 : c ≠ 10) (h92 : c ≠ 92) :
    preprocessLoop fuel t i = Run.timeout := by
  induction fuel with
  | zero => rfl
  | succ fuel ih =>
    rw [preprocessLoop]
    simp [lt_of_get hg, idx_some hg, h32, h9, h10, h92, ih]

/-- The loop of `preprocess` skips spaces and tabs. -/
theorem preprocessLoop_blanks (t : Tokenizer) (sp : List Nat)
    (hsp : ∀ x ∈ sp, x = 32 ∨ x = 9) :
    ∀ (p rest : List Nat) (fuel : Nat), t.input = p ++ (sp ++ rest) →
      preprocessLoop (fuel + sp.length) t p.length =
        preprocessLoop fuel t (p.length + sp.length) := by
  induction sp with
  | nil => intro p rest fuel _; rfl
  | cons x sp ih =>
    intro p rest fuel hin
    have hx := hsp x (List.mem_cons_self x sp)
    have hg : t.input[p.length]? = some x := by rw [hin]; exact get_mid p (sp ++ rest) x
    have := ih (fun y hy => hsp y (List.mem_cons_of_mem x hy)) (p ++ [x]) rest fuel
      (by rw [hin]; simp)
    rw [List.length_append, List.length_singleton] at this
    rw [List.length_cons, ← Nat.add_assoc, preprocessLoop]
    have hb : (x == 32 || x == 9) = true := by
      rcases hx with rfl | rfl <;> decide
    simp only [lt_of_get hg, if_true, idx_some hg, Run.ret_bind, hb]
    rw [this]
    congr 1
    omega

/-- With any fuel, the loop of `preprocess` times out when, after spaces and tabs, it meets a
byte that is none of space, tab, newline and backslash. -/
theorem preprocessLoop_diverges (t : Tokenizer) (sp : List Nat) (c : Nat)
    (hsp : ∀ x ∈ sp, x = 32 ∨ x = 9) (h32 : c ≠ 32) (h9 : c ≠ 9) (h10 : c ≠ 10)
    (h92 : c ≠ 92) :
    ∀ (fuel : Nat) (p rest : List Nat), t.input = p ++ (sp ++ c :: rest) →
      preprocessLoop fuel t p.length = Run.timeout := by
  induction sp with
  | nil =>
    intro fuel p rest hin
    exact preprocessLoop_stuck fuel t p.length c (by rw [hin]; exact get_mid p rest c)
      h32 h9 h10 h92
  | cons x sp ih =>
    intro fuel p rest hin
    cases fuel with
    | zero => rfl
    | succ fuel =>
      have hx := hsp x (List.mem_cons_self x sp)
      have hg : t.input[p.length]? = some x := by
        rw [hin]; exact get_mid p (sp ++ c :: rest) x
      have := ih (fun y hy => hsp y (List.mem_cons_of_mem x hy)) fuel (p ++ [x]) rest
        (by rw [hin]; simp)
      rw [List.length_append, List.length_singleton] at this
      have hb : (x == 32 || x == 9) = true := by
        rcases hx with rfl | rfl <;> decide
      rw [preprocessLoop]
      simp only [lt_of_get hg, if_true, idx_some hg, Run.ret_bind, hb]
      exact this

/-- The classifier at a `#` (35): the call is the call of `preprocess`. -/
theorem commonTokenizer_hash (fuel : Nat) (t : Tokenizer) (hg : t.input[t.i]? = some 35) :
    commonTokenizer (fuel + 1) t =
      (preprocess fuel { t with i := t.i + 1 }).bind fun t1 => Run.ret (t1, none) := by
  have hd : isAlpha 35 = false ∧ isDigit 35 = false ∧
      (IndexByte punctuators 35 != -1) = false := by decide
  unfold commonTokenizer
  simp only [idx_some hg, Run.ret_bind, hd.1, hd.2.1, hd.2.2, if_false, Bool.false_eq_true]
  simp

theorem commonTokenizer_hash_zero (t : Tokenizer) (hg : t.input[t.i]? = some 35) :
    commonTokenizer 0 t = Run.timeout := by
  have hd : isAlpha 35 = false ∧ isDigit 35 = false ∧
      (IndexByte punctuators 35 != -1) = false := by decide
  unfold commonTokenizer
  simp only [idx_some hg, Run.ret_bind, hd.1, hd.2.1, hd.2.2, if_false, Bool.false_eq_true]
  simp

/-- The classifier at a `#` followed by spaces and tabs and then a byte that is none of space,
tab, newline and backslash times out with any fuel. -/
theorem commonTokenizer_hash_diverges (fuel : Nat) (t : Tokenizer) (p sp rest : List Nat)
    (c : Nat) (hin : t.input = p ++ 35 :: (sp ++ c :: rest)) (hi : t.i = p.length)
    (hsp : ∀ x ∈ sp, x = 32 ∨ x = 9) (h32 : c ≠ 32) (h9 : c ≠ 9) (h10 : c ≠ 10)
    (h92 : c ≠ 92) : commonTokenizer fuel t = Run.timeout := by
  have hg : t.input[t.i]? = some 35 := by rw [hin, hi]; exact get_mid p _ 35
  cases fuel with
  | zero => exact commonTokenizer_hash_zero t hg
  | succ fuel =>
    rw [commonTokenizer_hash fuel t hg]
    cases fuel with
    | zero => rfl
    | succ fuel =>
      rw [preprocess]
      have := preprocessLoop_diverges { t with i := t.i + 1 } sp c hsp h32 h9 h10 h92 fuel
        (p ++ [35]) rest (by show t.input = _; rw [hin]; simp)
      rw [List.length_append, List.length_singleton, ← hi] at this
      show ((preprocessLoop fuel { t with i := t.i + 1 } (t.i + 1)).bind _).bind _ = _
      rw [this]
      rfl

/-- The scan driver times out with any fuel when the classifier does at the first byte that is
no space, tab or newline. -/
theorem TokenizeLoop_diverges (ws : List Nat) (hws : ∀ x ∈ ws, x = 32 ∨ x = 9 ∨ x = 10)
    (c : Nat) (h32 : c ≠ 32) (h9 : c ≠ 9) (h10 : c ≠ 10) :
    ∀ (fuel : Nat) (t : Tokenizer) (p rest : List Nat),
      t.input = p ++ (ws ++ c :: rest) → t.i = p.length →
      (∀ (f : Nat) (t1 : Tokenizer), t1.input = t.input → t1.i = p.length + ws.length →
        commonTokenizer f t1 = Run.timeout) →
      TokenizeLoop fuel t = Run.timeout := by
  induction ws with
  | nil =>
    intro fuel t p rest hin hi hct
    cases fuel with
    | zero => rfl
    | succ fuel =>
      have hg : t.input[t.i]? = some c := by rw [hin, hi]; exact get_mid p rest c
      rw [TokenizeLoop]
      simp [lt_of_get hg, idx_some hg, h32, h9, h10, hct fuel t rfl (by simpa using hi)]
  | cons x ws ih =>
    intro fuel t p rest hin hi hct
    cases fuel with
    | zero => rfl
    | succ fuel =>
      have hx := hws x (List.mem_cons_self x ws)
      have hg : t.input[t.i]? = some x := by
        rw [hin, hi]; exact get_mid p (ws ++ c :: rest) x
      have hct1 : ∀ (f : Nat) (t1 : Tokenizer), t1.input = t.input →
          t1.i = (p ++ [x]).length + ws.length → commonTokenizer f t1 = Run.timeout := by
        intro f t1 h1 h2
        refine hct f t1 h1 ?_
        simp only [List.length_append, List.length_singleton] at h2
        rw [h2, List.length_cons]
        omega
      rcases hx with rfl | rfl | rfl
      · rw [TokenizeLoop_space hg (Or.inl rfl)]
        exact ih (fun y hy => hws y (List.mem_cons_of_mem _ hy)) fuel _ (p ++ [32]) rest
          (by show t.input = _; rw [hin]; simp) (by show t.i + 1 = _; rw [hi]; simp) hct1
      · rw [TokenizeLoop_space hg (Or.inr rfl)]
        exact ih (fun y hy => hws y (List.mem_cons_of_mem _ hy)) fuel _ (p ++ [9]) rest
          (by show t.input = _; rw [hin]; simp) (by show t.i + 1 = _; rw [hi]; simp) hct1
      · rw [TokenizeLoop_newline hg]
        exact ih (fun y hy => hws y (List.mem_cons_of_mem _ hy)) fuel _ (p ++ [10]) rest
          (by show t.input = _; rw [hin]; simp) (by show t.i + 1 = _; rw [hi]; simp) hct1


/-- C11 (the defect). When the first byte that is no space, tab or newline is `#`, and after
the `#` and any spaces and tabs comes a byte that is none of space, tab, newline and
backslash, the scan never ends: the loop of `preprocess` has no branch for such a byte and
repeats the same iteration for ever (the model times out with every fuel).  The input
`#include <stdio.h>` followed by a newline is one of them. -/
theorem hash_line_never_terminates (fuel : Nat) (fname : String) (ws sp rest : List Nat)
    (c : Nat) (hws : ∀ x ∈ ws, x = 32 ∨ x = 9 ∨ x = 10) (hsp : ∀ x ∈ sp, x = 32 ∨ x = 9)
    (h32 : c ≠ 32) (h9 : c ≠ 9) (h10 : c ≠ 10) (h92 : c ≠ 92) :
    lex fuel fname (ws ++ 35 :: (sp ++ c :: rest)) = Run.timeout ∧
    lex fuel fname [35, 105, 110, 99, 108, 117, 100, 101, 32, 60, 115, 116, 100, 105, 111, 46,
      104, 62, 10] = Run.timeout := by
  have key : ∀ (ws1 sp1 rest1 : List Nat) (c1 : Nat), (∀ x ∈ ws1, x = 32 ∨ x = 9 ∨ x = 10) →
      (∀ x ∈ sp1, x = 32 ∨ x = 9) → c1 ≠ 32 → c1 ≠ 9 → c1 ≠ 10 → c1 ≠ 92 →
      lex fuel fname (ws1 ++ 35 :: (sp1 ++ c1 :: rest1)) = Run.timeout := by
    intro ws1 sp1 rest1 c1 k1 k2 k3 k4 k5 k6
    have := TokenizeLoop_diverges ws1 k1 35 (by omega) (by omega) (by omega) fuel
      (start fname (ws1 ++ 35 :: (sp1 ++ c1 :: rest1))) [] (sp1 ++ c1 :: rest1) rfl rfl
      (fun f t1 h1 h2 => commonTokenizer_hash_diverges f t1 ws1 sp1 rest1 c1
        (by rw [h1]; rfl) (by rw [h2]; simp) k2 k3 k4 k5 k6)
    unfold lex Tokenize
    rw [this]
    rfl
  refine ⟨key ws sp rest c hws hsp h32 h9 h10 h92, ?_⟩
  exact key [] [] [110, 99, 108, 117, 100, 101, 32, 60, 115, 116, 100, 105, 111, 46, 104, 62, 10]
    105 (by simp) (by simp) (by omega) (by omega) (by omega) (by omega)

theorem hash_line_never_terminates_witness :
    (∀ x ∈ [32, 10], x = 32 ∨ x = 9 ∨ x = 10) ∧ (∀ x ∈ [9], x = 32 ∨ x = 9) ∧
    (100 : Nat) ≠ 32 ∧ (100 : Nat) ≠ 9 ∧ (100 : Nat) ≠ 10 ∧ (100 : Nat) ≠ 92 ∧
    lex 1000 "a.c" ([32, 10] ++ 35 :: ([9] ++ 100 :: [101, 102])) = Run.timeout :=
  ⟨by decide, by decide, by decide, by decide, by decide, by decide,
    (hash_line_never_terminates 1000 "a.c" [32, 10] [9] [101, 102] 100 (by decide) (by decide)
      (by decide) (by decide) (by decide) (by decide)).1⟩

/-- Directive resolution when the token at index `numOfToken` exists. -/
theorem resolveDirective_some (t : Tokenizer) (n : Nat) (tok : Token)
    (h : t.tokens[n]? = some tok) :
    (tok.Str = includeStr → resolveDirective t n = Run.exit Diag.includeNotImplemented) ∧
    (tok.Str ≠ includeStr → resolveDirective t n = Run.exit (Diag.unknownDirective tok.Str)) := by
  have hl : n < t.tokens.length := by
    by_contra hn
    rw [List.getElem?_eq_none (by omega)] at h
    cases h
  unfold resolveDirective
  simp only [ge_iff_le, Nat.le_of_lt hl, if_true, h, Run.ret_bind, Error]
  constructor
  · intro e
    simp [e]
  · intro e
    have e1 : ¬ includeStr = tok.Str := fun x => e x.symm
    simp [e1]

/-- Directive resolution when no token was appended since `numOfToken` was taken: the guard
`len(t.tokens) >= numOfToken` holds and `t.tokens[numOfToken]` is out of range. -/
theorem resolveDirective_none (t : Tokenizer) : resolveDirective t t.tokens.length = Run.panic := by
  unfold resolveDirective
  have h : t.tokens[t.tokens.length]? = none := List.getElem?_eq_none (Nat.le_refl _)
  simp [h]

/-! ## The dispatch of `commonTokenizer`, branch by branch -/

theorem commonTokenizer_out_of_range (fuel : Nat) (t : Tokenizer)
    (hg : t.input[t.i]? = none) : commonTokenizer fuel t = Run.panic := by
  unfold commonTokenizer
  simp [idx_none hg]

theorem commonTokenizer_alpha (fuel : Nat) (t : Tokenizer) (c : Nat)
    (hg : t.input[t.i]? = some c) (ha : isAlpha c = true) :
    commonTokenizer fuel t =
      (identLoop t.input fuel (t.i + 1)).bind fun j =>
      (slice t.input t.i j).bind fun s =>
      Run.ret ({ t with i := j }, some (t.newToken TokenType.Identifier s)) := by
  unfold commonTokenizer
  simp only [idx_some hg, Run.ret_bind, ha, if_true]

theorem commonTokenizer_digit (fuel : Nat) (t : Tokenizer) (c : Nat)
    (hg : t.input[t.i]? = some c) (hd : isDigit c = true) :
    commonTokenizer fuel t =
      (digitLoop t.input fuel (t.i + 1)).bind fun j =>
      (slice t.input t.i j).bind fun s =>
      Run.ret ({ t with i := j }, some (t.newToken TokenType.Integer s)) := by
  unfold commonTokenizer
  simp only [idx_some hg, Run.ret_bind, isAlpha_false_of_isDigit hd, hd, if_true, if_false,
    Bool.false_eq_true]

theorem commonTokenizer_quote (fuel : Nat) (t : Tokenizer) (c : Nat)
    (hg : t.input[t.i]? = some c) (hq : c = 34 ∨ c = 39) :
    commonTokenizer fuel t =
      (quoteLoop t.input t.i fuel (t.i + 1)).bind fun j =>
      (if j = t.input.length then Error (Diag.unmatched c t.filename)
        else (idx t.input j).bind fun cj =>
          if cj != c then Error (Diag.expected c cj) else Run.ret ()).bind fun _ =>
      (slice t.input (t.i + 1) j).bind fun s =>
      Run.ret ({ t with i := j + 1 },
        some (t.newToken
          (if c == 39 then TokenType.CharacterLiteral else TokenType.StringLiteral) s)) := by
  have hd : isAlpha c = false ∧ isDigit c = false ∧ (c == 34 || c == 39) = true := by
    rcases hq with rfl | rfl <;> decide
  unfold commonTokenizer
  simp only [idx_some hg, Run.ret_bind, hd.1, hd.2.1, hd.2.2, if_true, if_false,
    Bool.false_eq_true]

theorem IndexByte_mem (s : List Nat) (c : Nat) : IndexByte s c ≠ -1 ↔ c ∈ s := by
  induction s with
  | nil => simp [IndexByte]
  | cons b s ih =>
    rw [IndexByte]
    by_cases e : b = c
    · simp [e]
    · have e1 : ¬ c = b := fun x => e x.symm
      by_cases e2 : IndexByte s c = -1
      · have : c ∉ s := fun hm => (ih.mpr hm) e2
        simp [e, e1, e2, this]
      · have hm : c ∈ s := ih.mp e2
        have hnn : 0 ≤ IndexByte s c ∨ IndexByte s c = -1 := by
          clear ih hm e2 e e1
          induction s with
          | nil => right; rfl
          | cons b s ih =>
            rw [IndexByte]
            split
            · left; exact Int.le_refl 0
            · split
              · right; rfl
              · left
                rcases ih with h | h
                · omega
                · contradiction
        have : IndexByte s c + 1 ≠ -1 := by
          rcases hnn with h | h
          · omega
          · exact absurd h e2
        simp [e, e1, e2, hm, this]

/-- The final branch of the dispatch: a byte at which no lexeme starts. -/
theorem commonTokenizer_other (fuel : Nat) (t : Tokenizer) (c : Nat)
    (hg : t.input[t.i]? = some c) (hn : startsLexeme c = false) :
    commonTokenizer fuel t = Run.exit (Diag.unexpectedChar c) := by
  simp only [startsLexeme, punctuators, Bool.or_eq_false_iff, List.contains_eq_any_beq,
    List.any_cons, List.any_nil, Bool.or_false, beq_eq_false_iff_ne, ne_eq] at hn
  obtain ⟨⟨⟨⟨⟨⟨ha, hd⟩, h34⟩, h39⟩, hp⟩, h35⟩, hop⟩ := hn
  have hp1 : (IndexByte punctuators c != -1) = false := by
    have : ¬ c ∈ punctuators := by
      simp only [punctuators, List.mem_cons, List.mem_singleton, List.not_mem_nil, or_false]
      omega
    have h2 : IndexByte punctuators c = -1 := by
      by_contra h3
      exact this ((IndexByte_mem _ _).mp h3)
    simp [h2]
  have b0 : (c == 34 || c == 39) = false := by
    simp only [Bool.or_eq_false_iff, beq_eq_false_iff_ne]; omega
  have b1 : (c == 124 || c == 38 || c == 43 || c == 47) = false := by
    simp only [Bool.or_eq_false_iff, beq_eq_false_iff_ne]; omega
  have b2 : (c == 45) = false := by simp only [beq_eq_false_iff_ne]; omega
  have b3 : (c == 61 || c == 33 || c == 42) = false := by
    simp only [Bool.or_eq_false_iff, beq_eq_false_iff_ne]; omega
  have b4 : (c == 60 || c == 62) = false := by
    simp only [Bool.or_eq_false_iff, beq_eq_false_iff_ne]; omega
  have b5 : (c == 46) = false := by simp only [beq_eq_false_iff_ne]; omega
  have b6 : (c == 35) = false := by simp only [beq_eq_false_iff_ne]; omega
  unfold commonTokenizer
  simp only [idx_some hg, Run.ret_bind, ha, hd, b0, hp1, b6, b1, b2, b3, b4, b5, if_false,
    Bool.false_eq_true, Error]


theorem take_of_get1 {str : List Nat} {i a : Nat} (h0 : str[i]? = some a) :
    [a] = (str.drop i).take 1 := by
  have h := take1_of_get h0
  rwa [Nat.add_sub_cancel_left] at h

theorem take_of_get2 {str : List Nat} {i a b : Nat} (h0 : str[i]? = some a)
    (h1 : str[i + 1]? = some b) : [a, b] = (str.drop i).take 2 := by
  have h := take2_of_get h0 h1
  rwa [Nat.add_sub_cancel_left] at h

theorem take_of_get3 {str : List Nat} {i a b c : Nat} (h0 : str[i]? = some a)
    (h1 : str[i + 1]? = some b) (h2 : str[i + 2]? = some c) :
    [a, b, c] = (str.drop i).take 3 := by
  have h := take3_of_get h0 h1 h2
  rwa [Nat.add_sub_cancel_left] at h

/-- The branches of the punctuators and operators: the call returns a Punctuator token whose
text is one of the texts of `punctuatorTexts`, the span of the buffer the call went over. -/
theorem commonTokenizer_operator (fuel : Nat) (t : Tokenizer) (c : Nat)
    (hg : t.input[t.i]? = some c)
    (hop : c ∈ punctuators ∨ c ∈ [124, 38, 43, 47, 45, 61, 33, 42, 60, 62, 46]) :
    ∃ n s, commonTokenizer fuel t = Run.ret
        ({ t with i := t.i + n }, some (t.newToken TokenType.Punctuator s)) ∧
      0 < n ∧ t.i + n ≤ t.input.length ∧ s = (t.input.drop t.i).take n ∧
      s ∈ punctuatorTexts := by
  have hil := lt_of_get hg
  rcases hop with hp | hop
  · have hp1 : (IndexByte punctuators c != -1) = true := by
      have := (IndexByte_mem punctuators c).mpr hp
      simpa using this
    have hd : isAlpha c = false ∧ isDigit c = false ∧ (c == 34 || c == 39) = false ∧
        [c] ∈ punctuatorTexts := by
      simp only [punctuators, List.mem_cons, List.mem_singleton, List.not_mem_nil,
        or_false] at hp
      rcases hp with rfl | rfl | rfl | rfl | rfl | rfl | rfl | rfl | rfl | rfl | rfl | rfl | rfl <;>
        decide
    refine ⟨1, [c], ?_, by omega, by omega, take_of_get1 hg, hd.2.2.2⟩
    unfold commonTokenizer
    simp only [idx_some hg, Run.ret_bind, hd.1, hd.2.1, hd.2.2.1, hp1, if_true, if_false,
      Bool.false_eq_true]
  simp only [List.mem_cons, List.mem_singleton, List.not_mem_nil, or_false] at hop
  by_cases hdbl : c = 124 ∨ c = 38 ∨ c = 43 ∨ c = 47
  · obtain ⟨p1, p2, p3⟩ := commonTokenizer_doubling fuel t c hg hdbl
    have hm : [c] ∈ punctuatorTexts ∧ [c, c] ∈ punctuatorTexts ∧ [c, 61] ∈ punctuatorTexts := by
      rcases hdbl with rfl | rfl | rfl | rfl <;> decide
    by_cases e1 : t.input[t.i + 1]? = some c
    · exact ⟨2, [c, c], p1 e1, by omega, lt_of_get e1, take_of_get2 hg e1, hm.2.1⟩
    by_cases e2 : t.input[t.i + 1]? = some 61
    · exact ⟨2, [c, 61], p2 e2, by omega, lt_of_get e2, take_of_get2 hg e2, hm.2.2⟩
    · exact ⟨1, [c], p3 e1 e2, by omega, by omega, take_of_get1 hg, hm.1⟩
  by_cases h45 : c = 45
  · subst h45
    obtain ⟨p1, p2, p3⟩ := commonTokenizer_dash fuel t hg
    by_cases e1 : t.input[t.i + 1]? = some 61
    · exact ⟨2, [45, 61], p1 e1, by omega, lt_of_get e1, take_of_get2 hg e1, by decide⟩
    by_cases e2 : t.input[t.i + 1]? = some 62
    · exact ⟨2, [45, 62], p2 e2, by omega, lt_of_get e2, take_of_get2 hg e2, by decide⟩
    · exact ⟨1, [45], p3 e1 e2, by omega, by omega, take_of_get1 hg, by decide⟩
  by_cases hasg : c = 61 ∨ c = 33 ∨ c = 42
  · obtain ⟨p1, p2⟩ := commonTokenizer_assign fuel t c hg hasg
    have hm : [c] ∈ punctuatorTexts ∧ [c, 61] ∈ punctuatorTexts := by
      rcases hasg with rfl | rfl | rfl <;> decide
    by_cases e1 : t.input[t.i + 1]? = some 61
    · exact ⟨2, [c, 61], p1 e1, by omega, lt_of_get e1, take_of_get2 hg e1, hm.2⟩
    · exact ⟨1, [c], p2 e1, by omega, by omega, take_of_get1 hg, hm.1⟩
  by_cases hang : c = 60 ∨ c = 62
  · obtain ⟨p1, p2, p3, p4⟩ := commonTokenizer_angle fuel t c hg hang
    have hm : [c] ∈ punctuatorTexts ∧ [c, c] ∈ punctuatorTexts ∧ [c, 61] ∈ punctuatorTexts ∧
        [c, c, 61] ∈ punctuatorTexts := by
      rcases hang with rfl | rfl <;> decide
    by_cases e1 : t.input[t.i + 1]? = some c
    · by_cases e2 : t.input[t.i + 2]? = some 61
      · exact ⟨3, [c, c, 61], p1 e1 e2, by omega, lt_of_get e2, take_of_get3 hg e1 e2,
          hm.2.2.2⟩
      · exact ⟨2, [c, c], p2 e1 e2, by omega, lt_of_get e1, take_of_get2 hg e1, hm.2.1⟩
    by_cases e3 : t.input[t.i + 1]? = some 61
    · exact ⟨2, [c, 61], p3 e3, by omega, lt_of_get e3, take_of_get2 hg e3, hm.2.2.1⟩
    · exact ⟨1, [c], p4 e1 e3, by omega, by omega, take_of_get1 hg, hm.1⟩
  have h46 : c = 46 := by omega
  subst h46
  obtain ⟨p1, p2⟩ := commonTokenizer_dot fuel t hg
  by_cases e : t.input[t.i + 1]? = some 46 ∧ t.input[t.i + 2]? = some 46
  · exact ⟨3, [46, 46, 46], p1 e, by omega, lt_of_get e.2, take_of_get3 hg e.1 e.2, by decide⟩
  · exact ⟨1, [46], p2 e, by omega, by omega, take_of_get1 hg, by decide⟩

/-- The dispatch is exhaustive: a byte at which a lexeme starts is a letter or `_`, a digit, a
quote, `#`, or a punctuator or operator byte. -/
theorem startsLexeme_cases {c : Nat} (h : startsLexeme c = true) :
    isAlpha c = true ∨ isDigit c = true ∨ (c = 34 ∨ c = 39) ∨ c = 35 ∨
      (c ∈ punctuators ∨ c ∈ [124, 38, 43, 47, 45, 61, 33, 42, 60, 62, 46]) := by
  simp only [startsLexeme, Bool.or_eq_true, List.contains_eq_any_beq, List.any_eq_true,
    beq_iff_eq] at h
  rcases h with (((((h | h) | h) | h) | h) | h) | h
  · exact Or.inl h
  · exact Or.inr (Or.inl h)
  · exact Or.inr (Or.inr (Or.inl (Or.inl h)))
  · exact Or.inr (Or.inr (Or.inl (Or.inr h)))
  · obtain ⟨x, hx, e⟩ := h
    exact Or.inr (Or.inr (Or.inr (Or.inr (Or.inl (e ▸ hx)))))
  · exact Or.inr (Or.inr (Or.inr (Or.inl h)))
  · obtain ⟨x, hx, e⟩ := h
    exact Or.inr (Or.inr (Or.inr (Or.inr (Or.inr (e ▸ hx)))))


/-! ## How a scan can end -/

theorem Run.bind_eq_exit {α β : Type} {r : Run α} {f : α → Run β} {d : Diag}
    (h : r.bind f = Run.exit d) : r = Run.exit d ∨ ∃ a, r = Run.ret a ∧ f a = Run.exit d := by
  cases r with
  | ret a => exact Or.inr ⟨a, rfl, h⟩
  | exit d1 => cases h; exact Or.inl rfl
  | panic => cases h
  | timeout => cases h

theorem idx_ne_exit (str : List Nat) (i : Nat) (d : Diag) : idx str i ≠ Run.exit d := by
  unfold idx
  split <;> exact fun h => by cases h

theorem slice_ne_exit (str : List Nat) (lo hi : Nat) (d : Diag) :
    slice str lo hi ≠ Run.exit d := by
  unfold slice
  split <;> exact fun h => by cases h

theorem identLoop_ne_exit (str : List Nat) (d : Diag) (fuel : Nat) :
    ∀ i, identLoop str fuel i ≠ Run.exit d := by
  induction fuel with
  | zero => intro i h; cases h
  | succ fuel ih =>
    intro i h
    rw [identLoop] at h
    rcases hg : str[i]? with _ | c
    · have hl : ¬ i < str.length := Nat.not_lt.mpr (le_of_get_none hg)
      simp [hl, idx_none hg] at h
    · simp only [lt_of_get hg, if_true, idx_some hg, Run.ret_bind] at h
      by_cases ha : isAlpha c = true
      · simp only [ha, if_true, Run.ret_bind] at h
        exact ih _ h
      · simp only [ha, if_false, Run.ret_bind, Bool.false_eq_true] at h
        by_cases hd : isDigit c = true
        · simp only [hd, if_true] at h
          exact ih _ h
        · simp only [hd, if_false, Bool.false_eq_true] at h
          cases h

theorem digitLoop_ne_exit (str : List Nat) (d : Diag) (fuel : Nat) :
    ∀ i, digitLoop str fuel i ≠ Run.exit d := by
  induction fuel with
  | zero => intro i h; cases h
  | succ fuel ih =>
    intro i h
    rw [digitLoop] at h
    rcases hg : str[i]? with _ | c
    · have hl : ¬ i < str.length := Nat.not_lt.mpr (le_of_get_none hg)
      simp [hl] at h
    · simp only [lt_of_get hg, if_true, idx_some hg, Run.ret_bind] at h
      by_cases hd : isDigit c = true
      · simp only [hd, if_true] at h
        exact ih _ h
      · simp only [hd, if_false, Bool.false_eq_true] at h
        cases h

theorem quoteLoop_ne_exit (str : List Nat) (b : Nat) (d : Diag) (fuel : Nat) :
    ∀ i, quoteLoop str b fuel i ≠ Run.exit d := by
  induction fuel with
  | zero => intro i h; cases h
  | succ fuel ih =>
    intro i h
    rw [quoteLoop] at h
    rcases hg : str[i]? with _ | c
    · have hl : ¬ i < str.length := Nat.not_lt.mpr (le_of_get_none hg)
      simp [hl] at h
    · simp only [lt_of_get hg, if_true, idx_some hg, Run.ret_bind] at h
      rcases hb : str[b]? with _ | e
      · simp [idx_none hb] at h
      · simp only [idx_some hb, Run.ret_bind] at h
        by_cases hc : (c != e) = true
        · simp only [hc, if_true] at h
          exact ih _ h
        · simp only [hc, if_false, Bool.false_eq_true] at h
          cases h

/-- Whenever the quoted-literal loop stops strictly inside the buffer, the byte there
equals the opening delimiter. -/
theorem quoteLoop_stop (str : List Nat) (b : Nat) (fuel : Nat) :
    ∀ (i j : Nat), quoteLoop str b fuel i = Run.ret j → j < str.length →
      ∃ c, str[j]? = some c ∧ str[b]? = some c := by
  induction fuel with
  | zero => intro i j h; cases h
  | succ fuel ih =>
    intro i j h hj
    rw [quoteLoop] at h
    rcases hg : str[i]? with _ | c
    · have hl : ¬ i < str.length := Nat.not_lt.mpr (le_of_get_none hg)
      simp only [hl, if_false, Run.ret_bind, Bool.false_eq_true] at h
      cases h
      exact absurd hj hl
    · simp only [lt_of_get hg, if_true, idx_some hg, Run.ret_bind] at h
      rcases hb : str[b]? with _ | e
      · simp [idx_none hb] at h
      · simp only [idx_some hb, Run.ret_bind] at h
        by_cases hc : (c != e) = true
        · simp only [hc, if_true] at h
          have := ih _ _ h hj
          rw [hb] at this
          exact this
        · simp only [hc, if_false, Bool.false_eq_true] at h
          cases h
          have hce : c = e := by simpa using hc
          exact ⟨c, hg, by rw [hce]⟩

/-- The quoted-literal branch can only end the run with the "Unmatched" diagnostic. -/
theorem commonTokenizer_quote_exit (fuel : Nat) (t : Tokenizer) (c : Nat) (d : Diag)
    (hg : t.input[t.i]? = some c) (hq : c = 34 ∨ c = 39)
    (h : commonTokenizer fuel t = Run.exit d) : d = Diag.unmatched c t.filename := by
  rw [commonTokenizer_quote fuel t c hg hq] at h
  rcases Run.bind_eq_exit h with h1 | ⟨j, hj, h2⟩
  · exact absurd h1 (quoteLoop_ne_exit _ _ _ _ _)
  rcases Run.bind_eq_exit h2 with h3 | ⟨u, _, h4⟩
  · by_cases e : j = t.input.length
    · rw [if_pos e] at h3
      cases h3
      rfl
    · rw [if_neg e] at h3
      rcases Run.bind_eq_exit h3 with h5 | ⟨cj, hcj, h6⟩
      · exact absurd h5 (idx_ne_exit _ _ _)
      · have hjl : j < t.input.length := by
          rcases hgj : t.input[j]? with _ | y
          · rw [idx_none hgj] at hcj
            cases hcj
          · exact lt_of_get hgj
        obtain ⟨y, hy1, hy2⟩ := quoteLoop_stop _ _ _ _ _ hj hjl
        rw [hg] at hy2
        cases hy2
        rw [idx_some hy1] at hcj
        cases hcj
        simp at h6
  · rcases Run.bind_eq_exit h4 with h5 | ⟨s, _, h6⟩
    · exact absurd h5 (slice_ne_exit _ _ _ _)
    · cases h6

/-- A classifier call that returns began at a byte at which a lexeme starts. -/
theorem commonTokenizer_ret_starts {fuel : Nat} {t : Tokenizer}
    {r : Tokenizer × Option Token} (h : commonTokenizer fuel t = Run.ret r) :
    ∃ c, t.input[t.i]? = some c ∧ startsLexeme c = true := by
  rcases hg : t.input[t.i]? with _ | c
  · rw [commonTokenizer_out_of_range fuel t hg] at h
    cases h
  · refine ⟨c, rfl, ?_⟩
    by_contra hn
    have hn1 : startsLexeme c = false := by simpa using hn
    rw [commonTokenizer_other fuel t c hg hn1] at h
    cases h


/-- One iteration of the loop of `preprocess` at a backslash, unfolded. -/
theorem preprocessLoop_backslash (fuel : Nat) (t : Tokenizer) (i : Nat)
    (hg : t.input[i]? = some 92) :
    preprocessLoop (fuel + 1) t i =
      (if i + 1 ≥ t.input.length then Run.ret true
        else (idx t.input (i + 1)).bind fun c1 => Run.ret (c1 != 10)).bind fun bad =>
      if bad then (idx t.input (i + 1)).bind fun c1 => Error (Diag.unexpectedChar c1)
      else if i + 2 ≥ t.input.length then Error Diag.unexpectedEOF
      else
        (commonTokenizer fuel { t with i := i + 2 }).bind fun r =>
        preprocessLoop fuel
          (match r.2 with
            | some token => { r.1 with tokens := r.1.tokens ++ [token] }
            | none => r.1)
          (i + 2) := by
  rw [preprocessLoop]
  simp only [lt_of_get hg, if_true, idx_some hg, Run.ret_bind]
  rfl

/-- One iteration of the loop of `preprocess` at a byte that is none of space, tab, newline
and backslash: nothing changes. -/
theorem preprocessLoop_same (fuel : Nat) (t : Tokenizer) (i c : Nat)
    (hg : t.input[i]? = some c) (h32 : c ≠ 32) (h9 : c ≠ 9) (h10 : c ≠ 10) (h92 : c ≠ 92) :
    preprocessLoop (fuel + 1) t i = preprocessLoop fuel t i := by
  rw [preprocessLoop]
  simp [lt_of_get hg, idx_some hg, h32, h9, h10, h92]

theorem startsLexeme_not_blank {c : Nat} (h : startsLexeme c = true) :
    c ≠ 32 ∧ c ≠ 9 ∧ c ≠ 10 := by
  refine ⟨?_, ?_, ?_⟩ <;> (intro e; subst e; revert h; decide)

/-- Once the local index of the loop of `preprocess` stands at a byte at which a lexeme
starts, the loop never exits normally: at a backslash it either aborts or calls the classifier
two bytes further, which returns only when a lexeme starts there too; at any other such byte
it repeats the same iteration. -/
theorem preprocessLoop_ne_ret (fuel : Nat) :
    ∀ (t : Tokenizer) (i c : Nat), t.input[i]? = some c → startsLexeme c = true →
      ∀ t1, preprocessLoop fuel t i ≠ Run.ret t1 := by
  induction fuel with
  | zero => intro t i c _ _ t1 h; cases h
  | succ fuel ih =>
    intro t i c hg hs t1 h
    obtain ⟨h32, h9, h10⟩ := startsLexeme_not_blank hs
    by_cases h92 : c = 92
    · subst h92
      rw [preprocessLoop_backslash fuel t i hg] at h
      obtain ⟨bad, _, h2⟩ := Run.bind_eq_ret h
      by_cases hb : bad = true
      · simp only [hb, if_true] at h2
        obtain ⟨c1, _, h3⟩ := Run.bind_eq_ret h2
        cases h3
      · simp only [hb, if_false] at h2
        by_cases he : i + 2 ≥ t.input.length
        · rw [if_pos he] at h2
          cases h2
        · rw [if_neg he] at h2
          obtain ⟨r, hr, h3⟩ := Run.bind_eq_ret h2
          obtain ⟨c2, hc2, hs2⟩ := commonTokenizer_ret_starts hr
          obtain ⟨_, j, typ, s, _, hr1, _, _, _⟩ := commonTokenizer_ret hr
          subst hr1
          refine ih _ (i + 2) c2 ?_ hs2 t1 h3
          exact hc2
    · rw [preprocessLoop_same fuel t i c hg h32 h9 h10 h92] at h
      exact ih t i c hg hs t1 h

/-- When the loop of `preprocess` exits normally it has appended no token: it has only
skipped spaces and tabs up to a newline or the end of the buffer. -/
theorem preprocessLoop_ret (fuel : Nat) :
    ∀ (t : Tokenizer) (i : Nat) (t1 : Tokenizer),
      preprocessLoop fuel t i = Run.ret t1 → t1 = t := by
  induction fuel with
  | zero => intro t i t1 h; cases h
  | succ fuel ih =>
    intro t i t1 h
    rcases hg : t.input[i]? with _ | c
    · rw [preprocessLoop] at h
      have hl : ¬ i < t.input.length := Nat.not_lt.mpr (le_of_get_none hg)
      simp only [hl, if_false] at h
      cases h
      rfl
    · by_cases hb : c = 32 ∨ c = 9
      · rw [preprocessLoop] at h
        have hb1 : (c == 32 || c == 9) = true := by simpa using hb
        simp only [lt_of_get hg, if_true, idx_some hg, Run.ret_bind, hb1] at h
        exact ih _ _ _ h
      · by_cases h10 : c = 10
        · subst h10
          rw [preprocessLoop] at h
          simp [lt_of_get hg, idx_some hg] at h
          exact h.symm
        · by_cases h92 : c = 92
          · exact absurd h (preprocessLoop_ne_ret (fuel + 1) t i c hg (by subst h92; decide) t1)
          · rw [preprocessLoop_same fuel t i c hg (by omega) (by omega) h10 h92] at h
            exact ih _ _ _ h

/-- A diagnostic that ends a call of the loop of `preprocess`, of `preprocess` or of the
classifier is one of the diagnostics of the scanning code: never one of the two diagnostics of
directive resolution, and never the delimiter-mismatch diagnostic. -/
theorem exit_isScanDiag (fuel : Nat) :
    (∀ (t : Tokenizer) (i : Nat) (d : Diag),
      preprocessLoop fuel t i = Run.exit d → d.isScanDiag = true) ∧
    (∀ (t : Tokenizer) (d : Diag), preprocess fuel t = Run.exit d → d.isScanDiag = true) ∧
    (∀ (t : Tokenizer) (d : Diag), commonTokenizer fuel t = Run.exit d →
      d.isScanDiag = true) := by
  induction fuel with
  | zero =>
    refine ⟨fun t i d h => (by cases h), fun t d h => (by cases h), ?_⟩
    intro t d h
    rcases hg : t.input[t.i]? with _ | c
    · rw [commonTokenizer_out_of_range 0 t hg] at h
      cases h
    by_cases hs : startsLexeme c = true
    · rcases startsLexeme_cases hs with ha | hd | hq | h35 | hop
      · rw [commonTokenizer_alpha 0 t c hg ha] at h
        cases h
      · rw [commonTokenizer_digit 0 t c hg hd] at h
        cases h
      · rw [commonTokenizer_quote_exit 0 t c d hg hq h]
        rfl
      · subst h35
        rw [commonTokenizer_hash_zero t hg] at h
        cases h
      · obtain ⟨n, s, hr, _⟩ := commonTokenizer_operator 0 t c hg hop
        rw [hr] at h
        cases h
    · have hn1 : startsLexeme c = false := by simpa using hs
      rw [commonTokenizer_other 0 t c hg hn1] at h
      cases h
      rfl
  | succ fuel ih =>
    obtain ⟨ihl, ihp, ihc⟩ := ih
    have hloop : ∀ (t : Tokenizer) (i : Nat) (d : Diag),
        preprocessLoop (fuel + 1) t i = Run.exit d → d.isScanDiag = true := by
      intro t i d h
      rcases hg : t.input[i]? with _ | c
      · rw [preprocessLoop] at h
        have hl : ¬ i < t.input.length := Nat.not_lt.mpr (le_of_get_none hg)
        simp only [hl, if_false] at h
        cases h
      by_cases hb : c = 32 ∨ c = 9
      · rw [preprocessLoop] at h
        have hb1 : (c == 32 || c == 9) = true := by simpa using hb
        simp only [lt_of_get hg, if_true, idx_some hg, Run.ret_bind, hb1] at h
        exact ihl _ _ _ h
      by_cases h10 : c = 10
      · subst h10
        rw [preprocessLoop] at h
        simp [lt_of_get hg, idx_some hg] at h
      by_cases h92 : c = 92
      · subst h92
        rw [preprocessLoop_backslash fuel t i hg] at h
        rcases Run.bind_eq_exit h with h1 | ⟨bad, _, h2⟩
        · split at h1
          · cases h1
          · rcases Run.bind_eq_exit h1 with h3 | ⟨c1, _, h4⟩
            · exact absurd h3 (idx_ne_exit _ _ _)
            · cases h4
        by_cases hbad : bad = true
        · simp only [hbad, if_true] at h2
          rcases Run.bind_eq_exit h2 with h3 | ⟨c1, _, h4⟩
          · exact absurd h3 (idx_ne_exit _ _ _)
          · cases h4
            rfl
        · simp only [hbad, if_false] at h2
          by_cases he : i + 2 ≥ t.input.length
          · rw [if_pos he] at h2
            cases h2
            rfl
          · rw [if_neg he] at h2
            rcases Run.bind_eq_exit h2 with h3 | ⟨r, _, h4⟩
            · exact ihc _ _ h3
            · exact ihl _ _ _ h4
      · rw [preprocessLoop_same fuel t i c hg (by omega) (by omega) h10 h92] at h
        exact ihl _ _ _ h
    refine ⟨hloop, ?_, ?_⟩
    · intro t d h
      rw [preprocess] at h
      rcases Run.bind_eq_exit h with h1 | ⟨t1, ht1, h2⟩
      · exact ihl _ _ _ h1
      · have := preprocessLoop_ret fuel t t.i t1 ht1
        subst this
        rw [resolveDirective_none] at h2
        cases h2
    · intro t d h
      rcases hg : t.input[t.i]? with _ | c
      · rw [commonTokenizer_out_of_range _ t hg] at h
        cases h
      by_cases hs : startsLexeme c = true
      · rcases startsLexeme_cases hs with ha | hd | hq | h35 | hop
        · rw [commonTokenizer_alpha _ t c hg ha] at h
          rcases Run.bind_eq_exit h with h1 | ⟨j, _, h2⟩
          · exact absurd h1 (identLoop_ne_exit _ _ _ _)
          · rcases Run.bind_eq_exit h2 with h3 | ⟨s, _, h4⟩
            · exact absurd h3 (slice_ne_exit _ _ _ _)
            · cases h4
        · rw [commonTokenizer_digit _ t c hg hd] at h
          rcases Run.bind_eq_exit h with h1 | ⟨j, _, h2⟩
          · exact absurd h1 (digitLoop_ne_exit _ _ _ _)
          · rcases Run.bind_eq_exit h2 with h3 | ⟨s, _, h4⟩
            · exact absurd h3 (slice_ne_exit _ _ _ _)
            · cases h4
        · rw [commonTokenizer_quote_exit _ t c d hg hq h]
          rfl
        · subst h35
          rw [commonTokenizer_hash fuel t hg] at h
          rcases Run.bind_eq_exit h with h1 | ⟨t1, _, h2⟩
          · exact ihp _ _ h1
          · cases h2
        · obtain ⟨n, s, hr, _⟩ := commonTokenizer_operator (fuel + 1) t c hg hop
          rw [hr] at h
          cases h
      · have hn1 : startsLexeme c = false := by simpa using hs
        rw [commonTokenizer_other _ t c hg hn1] at h
        cases h
        rfl


/-- A diagnostic that ends the scan driver is one of the diagnostics of the scanning code. -/
theorem TokenizeLoop_exit_isScanDiag (fuel : Nat) :
    ∀ (t : Tokenizer) (d : Diag), TokenizeLoop fuel t = Run.exit d → d.isScanDiag = true := by
  induction fuel with
  | zero => intro t d h; cases h
  | succ fuel ih =>
    intro t d h
    rw [TokenizeLoop] at h
    rcases hg : t.input[t.i]? with _ | c
    · have hl : ¬ t.i < t.input.length := Nat.not_lt.mpr (le_of_get_none hg)
      simp only [hl, if_false] at h
      cases h
    · simp only [lt_of_get hg, if_true, idx_some hg, Run.ret_bind] at h
      split at h
      · exact ih _ _ h
      · split at h
        · exact ih _ _ h
        · rcases Run.bind_eq_exit h with h1 | ⟨r, _, h2⟩
          · exact (exit_isScanDiag fuel).2.2 _ _ h1
          · exact ih _ _ h2

/-- At a byte at which a lexeme starts and which is not `#`, the only diagnostic the classifier
can end with is "Unmatched", in the quoted-literal branch. -/
theorem commonTokenizer_exit_unmatched (fuel : Nat) (t : Tokenizer) (c : Nat) (d : Diag)
    (hg : t.input[t.i]? = some c) (hs : startsLexeme c = true) (h35 : c ≠ 35)
    (h : commonTokenizer fuel t = Run.exit d) : d = Diag.unmatched c t.filename := by
  rcases startsLexeme_cases hs with ha | hd | hq | e35 | hop
  · rw [commonTokenizer_alpha _ t c hg ha] at h
    rcases Run.bind_eq_exit h with h1 | ⟨j, _, h2⟩
    · exact absurd h1 (identLoop_ne_exit _ _ _ _)
    · rcases Run.bind_eq_exit h2 with h3 | ⟨s, _, h4⟩
      · exact absurd h3 (slice_ne_exit _ _ _ _)
      · cases h4
  · rw [commonTokenizer_digit _ t c hg hd] at h
    rcases Run.bind_eq_exit h with h1 | ⟨j, _, h2⟩
    · exact absurd h1 (digitLoop_ne_exit _ _ _ _)
    · rcases Run.bind_eq_exit h2 with h3 | ⟨s, _, h4⟩
      · exact absurd h3 (slice_ne_exit _ _ _ _)
      · cases h4
  · exact commonTokenizer_quote_exit fuel t c d hg hq h
  · exact absurd e35 h35
  · obtain ⟨n, s, hr, _⟩ := commonTokenizer_operator fuel t c hg hop
    rw [hr] at h
    cases h

theorem startsLexeme_high (b : Nat) (h : 128 ≤ b) : startsLexeme b = false := by
  simp only [startsLexeme, isAlpha, isDigit, punctuators, Bool.or_eq_false_iff,
    Bool.and_eq_false_iff, List.contains_eq_any_beq, List.any_cons, List.any_nil, Bool.or_false,
    beq_eq_false_iff_ne, decide_eq_false_iff_not, ne_eq]
  omega

/-! ## The dispatch at `#` -/

/-- C14 as stated fails at `#`.  `#` is one of the bytes the claim lists as starting a lexeme,
yet on the buffer `#\#` the classifier call at offset 0, whose byte is `#`, ends in the
"Unexpected char" diagnostic: the dispatch calls `preprocess`, which meets the backslash, finds
that the byte after it is no newline and reports that byte, which is `#` again.  So the
diagnostic for the byte at the offset is not confined to the bytes at which no lexeme
starts. -/
theorem unexpected_character_at_hash :
    (start "a.c" [35, 92, 35]).input[(start "a.c" [35, 92, 35]).i]? = some 35 ∧
    startsLexeme 35 = true ∧
    commonTokenizer 3 (start "a.c" [35, 92, 35]) = Run.exit (Diag.unexpectedChar 35) ∧
    ¬ (∀ (fuel : Nat) (t : Tokenizer) (c : Nat), t.input[t.i]? = some c →
        (commonTokenizer fuel t = Run.exit (Diag.unexpectedChar c) ↔ startsLexeme c = false)) := by
  have h : commonTokenizer 3 (start "a.c" [35, 92, 35]) = Run.exit (Diag.unexpectedChar 35) := by
    decide
  refine ⟨by decide, by decide, h, ?_⟩
  intro hall
  have := (hall 3 (start "a.c" [35, 92, 35]) 35 (by decide)).1 h
  exact absurd this (by decide)

/-- C14, amended. At every byte other than `#`, the classifier call ends in the "Unexpected
char" diagnostic for the byte at the offset exactly when no lexeme starts at that byte, that is
when the byte is none of a letter, `_`, a digit, a quote, one of the thirteen single-byte
punctuators, or one of `| & + / - = ! * < > .`; at a byte at which a lexeme starts the call
ends in that diagnostic for no byte at all.  The bytes `^`, `@`, `$`, carriage return and
every byte from 0x80 on are bytes at which no lexeme starts.  At `#` the dispatch calls
`preprocess` and the outcome of the call is the outcome of `preprocess`. -/
theorem unexpected_character_off_hash (fuel : Nat) (t : Tokenizer) (c : Nat)
    (hg : t.input[t.i]? = some c) (h35 : c ≠ 35) :
    (commonTokenizer fuel t = Run.exit (Diag.unexpectedChar c) ↔ startsLexeme c = false) ∧
    (startsLexeme c = true →
      ∀ x, commonTokenizer fuel t ≠ Run.exit (Diag.unexpectedChar x)) ∧
    startsLexeme 94 = false ∧ startsLexeme 64 = false ∧ startsLexeme 36 = false ∧
    startsLexeme 13 = false ∧ (∀ b, 128 ≤ b → startsLexeme b = false) ∧
    (∀ s : Tokenizer, s.input[s.i]? = some 35 → commonTokenizer (fuel + 1) s =
      (preprocess fuel { s with i := s.i + 1 }).bind fun s1 => Run.ret (s1, none)) := by
  have hno : startsLexeme c = true →
      ∀ x, commonTokenizer fuel t ≠ Run.exit (Diag.unexpectedChar x) := by
    intro hs x h
    have := commonTokenizer_exit_unmatched fuel t c _ hg hs h35 h
    cases this
  refine ⟨⟨?_, fun hn => commonTokenizer_other fuel t c hg hn⟩, hno, by decide, by decide,
    by decide, by decide, startsLexeme_high, fun s hs => commonTokenizer_hash fuel s hs⟩
  intro h
  cases hs : startsLexeme c with
  | false => rfl
  | true => exact absurd h (hno hs c)

theorem unexpected_character_off_hash_witness :
    (start "a.c" [94]).input[(start "a.c" [94]).i]? = some 94 ∧ 94 ≠ 35 ∧
    (commonTokenizer 0 (start "a.c" [94]) = Run.exit (Diag.unexpectedChar 94) ↔
      startsLexeme 94 = false) :=
  ⟨by decide, by decide,
    (unexpected_character_off_hash 0 (start "a.c" [94]) 94 (by decide) (by decide)).1⟩

/-- C17. The delimiter-mismatch diagnostic ("Expected ... but got ...") is unreachable: no
call of the classifier and no scan ends in it, because whenever the quoted-literal loop stops
strictly inside the buffer the byte there equals the opening delimiter. -/
theorem delimiter_mismatch_unreachable :
    (∀ (fuel : Nat) (t : Tokenizer) (x y : Nat),
      commonTokenizer fuel t ≠ Run.exit (Diag.expected x y)) ∧
    (∀ (fuel : Nat) (t : Tokenizer) (x y : Nat),
      Tokenize fuel t ≠ Run.exit (Diag.expected x y)) ∧
    (∀ (str : List Nat) (b fuel i j : Nat), quoteLoop str b fuel i = Run.ret j →
      j < str.length → ∃ c, str[j]? = some c ∧ str[b]? = some c) := by
  refine ⟨?_, ?_, fun str b fuel i j => quoteLoop_stop str b fuel i j⟩
  · intro fuel t x y h
    have := (exit_isScanDiag fuel).2.2 t _ h
    cases this
  · intro fuel t x y h
    unfold Tokenize at h
    rcases Run.bind_eq_exit h with h1 | ⟨t1, _, h2⟩
    · have := TokenizeLoop_exit_isScanDiag fuel t _ h1
      cases this
    · cases h2

/-- C12 (the defect). Directive resolution does deliver "not implemented" for a first token
`include` and "unknown directive" with the token text for any other first token, but when no
token was scanned on the `#` line it does not deliver the diagnostic with the sentinel
`(null)`: the guard `len(t.tokens) >= numOfToken` is always true and `t.tokens[numOfToken]`
panics.  The inputs `#` plus newline, and `#` alone, end in that panic.  Moreover no scan ever
ends in one of the two diagnostics of directive resolution: the loop of `preprocess` exits
normally only when it has appended no token. -/
theorem directive_without_token_panics (fuel : Nat) (fname : String) (t : Tokenizer) :
    (∀ n tok, t.tokens[n]? = some tok → tok.Str = includeStr →
      resolveDirective t n = Run.exit Diag.includeNotImplemented) ∧
    (∀ n tok, t.tokens[n]? = some tok → tok.Str ≠ includeStr →
      resolveDirective t n = Run.exit (Diag.unknownDirective tok.Str)) ∧
    resolveDirective t t.tokens.length = Run.panic ∧
    resolveDirective t t.tokens.length ≠ Run.exit (Diag.unknownDirective nullStr) ∧
    lex (fuel + 4) fname [35, 10] = Run.panic ∧
    lex (fuel + 4) fname [35] = Run.panic ∧
    (∀ (data : List Nat), lex fuel fname data ≠ Run.exit Diag.includeNotImplemented ∧
      ∀ s, lex fuel fname data ≠ Run.exit (Diag.unknownDirective s)) := by
  have hlex : ∀ (data : List Nat) (d : Diag), lex fuel fname data = Run.exit d →
      d.isScanDiag = true := by
    intro data d h
    unfold lex Tokenize at h
    rcases Run.bind_eq_exit h with h1 | ⟨r, _, h2⟩
    · rcases Run.bind_eq_exit h1 with h3 | ⟨t1, _, h4⟩
      · exact TokenizeLoop_exit_isScanDiag fuel _ _ h3
      · cases h4
    · cases h2
  refine ⟨fun n tok h => (resolveDirective_some t n tok h).1,
    fun n tok h => (resolveDirective_some t n tok h).2, resolveDirective_none t, ?_, ?_, ?_, ?_⟩
  · rw [resolveDirective_none]
    intro h
    cases h
  · simp [lex, Tokenize, start, TokenizeLoop, commonTokenizer, idx, isAlpha, isDigit,
      IndexByte, punctuators, preprocess, preprocessLoop, resolveDirective]
  · simp [lex, Tokenize, start, TokenizeLoop, commonTokenizer, idx, isAlpha, isDigit,
      IndexByte, punctuators, preprocess, preprocessLoop, resolveDirective]
  · intro data
    refine ⟨fun h => ?_, fun s h => ?_⟩
    · have := hlex data _ h
      cases this
    · have := hlex data _ h
      cases this

/-! ## Buffers of blanks -/

/-- The scan driver runs over a tail of spaces, tabs and newlines to the end of the buffer,
counting the newlines. -/
theorem TokenizeLoop_blanks (ws : List Nat) (hws : ∀ x ∈ ws, x = 32 ∨ x = 9 ∨ x = 10) :
    ∀ (fuel : Nat) (t : Tokenizer) (p : List Nat), t.input = p ++ ws → t.i = p.length →
      TokenizeLoop (fuel + ws.length + 1) t =
        Run.ret { t with i := t.input.length, line := t.line + ws.count 10 } := by
  induction ws with
  | nil =>
    intro fuel t p hin hi
    have hl : t.input.length = t.i := by rw [hin, hi]; simp
    rw [TokenizeLoop_end (by omega)]
    simp [hl]
  | cons x ws ih =>
    intro fuel t p hin hi
    have hx := hws x (List.mem_cons_self x ws)
    have hg : t.input[t.i]? = some x := by rw [hin, hi]; exact get_mid p ws x
    have hf : fuel + (x :: ws).length + 1 = (fuel + ws.length + 1) + 1 := by
      simp only [List.length_cons]; omega
    rw [hf]
    rcases hx with rfl | rfl | rfl
    · rw [TokenizeLoop_space hg (Or.inl rfl)]
      rw [ih (fun y hy => hws y (List.mem_cons_of_mem _ hy)) fuel _ (p ++ [32])
        (by show t.input = _; rw [hin]; simp) (by show t.i + 1 = _; rw [hi]; simp)]
      simp [List.count_cons]
    · rw [TokenizeLoop_space hg (Or.inr rfl)]
      rw [ih (fun y hy => hws y (List.mem_cons_of_mem _ hy)) fuel _ (p ++ [9])
        (by show t.input = _; rw [hin]; simp) (by show t.i + 1 = _; rw [hi]; simp)]
      simp [List.count_cons]
    · rw [TokenizeLoop_newline hg]
      rw [ih (fun y hy => hws y (List.mem_cons_of_mem _ hy)) fuel _ (p ++ [10])
        (by show t.input = _; rw [hin]; simp) (by show t.i + 1 = _; rw [hi]; simp)]
      simp [List.count_cons, Nat.add_assoc, Nat.add_comm 1]

/-- C15. For every buffer made only of space, tab and newline bytes (the empty buffer
included) `Tokenize` succeeds and returns the empty token sequence, with the offset at the
buffer length and the line counter equal to 1 plus the number of newline bytes. -/
theorem blank_buffer_no_tokens (fuel : Nat) (fname : String) (data : List Nat)
    (h : ∀ x ∈ data, x = 32 ∨ x = 9 ∨ x = 10) :
    Tokenize (fuel + data.length + 1) (start fname data) = Run.ret
      ({ start fname data with i := data.length, line := 1 + data.count 10 }, []) := by
  unfold Tokenize
  rw [TokenizeLoop_blanks data h fuel (start fname data) [] rfl rfl]
  simp [start, Nat.add_comm]

theorem blank_buffer_no_tokens_witness :
    (∀ x ∈ [32, 10, 9, 10], x = 32 ∨ x = 9 ∨ x = 10) ∧
    Tokenize (0 + [32, 10, 9, 10].length + 1) (start "a.c" [32, 10, 9, 10]) = Run.ret
      ({ start "a.c" [32, 10, 9, 10] with
          i := [32, 10, 9, 10].length, line := 1 + [32, 10, 9, 10].count 10 }, []) :=
  ⟨by decide, blank_buffer_no_tokens 0 "a.c" [32, 10, 9, 10] (by decide)⟩


/-! ## Termination -/

theorem Run.bind_eq_timeout {α β : Type} {r : Run α} {f : α → Run β}
    (h : r.bind f = Run.timeout) : r = Run.timeout ∨ ∃ a, r = Run.ret a ∧ f a = Run.timeout := by
  cases r with
  | ret a => exact Or.inr ⟨a, rfl, h⟩
  | exit d => cases h
  | panic => cases h
  | timeout => exact Or.inl rfl

theorem idx_ne_timeout (str : List Nat) (i : Nat) : idx str i ≠ Run.timeout := by
  unfold idx
  split <;> exact fun h => by cases h

theorem slice_ne_timeout (str : List Nat) (lo hi : Nat) : slice str lo hi ≠ Run.timeout := by
  unfold slice
  split <;> exact fun h => by cases h

/-- The identifier loop ends within `len(str) - i + 1` iterations. -/
theorem identLoop_ne_timeout (str : List Nat) (fuel : Nat) :
    ∀ i, str.length - i < fuel → identLoop str fuel i ≠ Run.timeout := by
  induction fuel with
  | zero => intro i hf; omega
  | succ fuel ih =>
    intro i hf h
    rw [identLoop] at h
    rcases hg : str[i]? with _ | c
    · have hl : ¬ i < str.length := Nat.not_lt.mpr (le_of_get_none hg)
      simp [hl, idx_none hg] at h
    · have hil := lt_of_get hg
      simp only [hil, if_true, idx_some hg, Run.ret_bind] at h
      by_cases ha : isAlpha c = true
      · simp only [ha, if_true, Run.ret_bind] at h
        exact ih _ (by omega) h
      · simp only [ha, if_false, Run.ret_bind, Bool.false_eq_true] at h
        by_cases hd : isDigit c = true
        · simp only [hd, if_true] at h
          exact ih _ (by omega) h
        · simp only [hd, if_false, Bool.false_eq_true] at h
          cases h

/-- The integer loop ends within `len(str) - i + 1` iterations. -/
theorem digitLoop_ne_timeout (str : List Nat) (fuel : Nat) :
    ∀ i, str.length - i < fuel → digitLoop str fuel i ≠ Run.timeout := by
  induction fuel with
  | zero => intro i hf; omega
  | succ fuel ih =>
    intro i hf h
    rw [digitLoop] at h
    rcases hg : str[i]? with _ | c
    · have hl : ¬ i < str.length := Nat.not_lt.mpr (le_of_get_none hg)
      simp [hl] at h
    · have hil := lt_of_get hg
      simp only [hil, if_true, idx_some hg, Run.ret_bind] at h
      by_cases hd : isDigit c = true
      · simp only [hd, if_true] at h
        exact ih _ (by omega) h
      · simp only [hd, if_false, Bool.false_eq_true] at h
        cases h

/-- The quoted-literal loop ends within `len(str) - i + 1` iterations. -/
theorem quoteLoop_ne_timeout (str : List Nat) (b : Nat) (fuel : Nat) :
    ∀ i, str.length - i < fuel → quoteLoop str b fuel i ≠ Run.timeout := by
  induction fuel with
  | zero => intro i hf; omega
  | succ fuel ih =>
    intro i hf h
    rw [quoteLoop] at h
    rcases hg : str[i]? with _ | c
    · have hl : ¬ i < str.length := Nat.not_lt.mpr (le_of_get_none hg)
      simp [hl] at h
    · have hil := lt_of_get hg
      simp only [hil, if_true, idx_some hg, Run.ret_bind] at h
      rcases hb : str[b]? with _ | e
      · simp [idx_none hb] at h
      · simp only [idx_some hb, Run.ret_bind] at h
        by_cases hc : (c != e) = true
        · simp only [hc, if_true] at h
          refine ih _ ?_ h
          split <;> omega
        · simp only [hc, if_false, Bool.false_eq_true] at h
          cases h

/-- A classifier call that does not begin at `#` ends when the fuel covers the rest of the
buffer. -/
theorem commonTokenizer_ne_timeout (fuel : Nat) (t : Tokenizer) (c : Nat)
    (hg : t.input[t.i]? = some c) (h35 : c ≠ 35) (hf : t.input.length - (t.i + 1) < fuel) :
    commonTokenizer fuel t ≠ Run.timeout := by
  intro h
  by_cases hs : startsLexeme c = true
  · rcases startsLexeme_cases hs with ha | hd | hq | e35 | hop
    · rw [commonTokenizer_alpha _ t c hg ha] at h
      rcases Run.bind_eq_timeout h with h1 | ⟨j, _, h2⟩
      · exact identLoop_ne_timeout _ _ _ hf h1
      · rcases Run.bind_eq_timeout h2 with h3 | ⟨s, _, h4⟩
        · exact slice_ne_timeout _ _ _ h3
        · cases h4
    · rw [commonTokenizer_digit _ t c hg hd] at h
      rcases Run.bind_eq_timeout h with h1 | ⟨j, _, h2⟩
      · exact digitLoop_ne_timeout _ _ _ hf h1
      · rcases Run.bind_eq_timeout h2 with h3 | ⟨s, _, h4⟩
        · exact slice_ne_timeout _ _ _ h3
        · cases h4
    · rw [commonTokenizer_quote _ t c hg hq] at h
      rcases Run.bind_eq_timeout h with h1 | ⟨j, _, h2⟩
      · exact quoteLoop_ne_timeout _ _ _ _ hf h1
      · rcases Run.bind_eq_timeout h2 with h3 | ⟨u, _, h4⟩
        · split at h3
          · cases h3
          · rcases Run.bind_eq_timeout h3 with h5 | ⟨cj, _, h6⟩
            · exact idx_ne_timeout _ _ h5
            · split at h6 <;> cases h6
        · rcases Run.bind_eq_timeout h4 with h5 | ⟨s, _, h6⟩
          · exact slice_ne_timeout _ _ _ h5
          · cases h6
    · exact h35 e35
    · obtain ⟨n, s, hr, _⟩ := commonTokenizer_operator fuel t c hg hop
      rw [hr] at h
      cases h
  · have hn1 : startsLexeme c = false := by simpa using hs
    rw [commonTokenizer_other _ t c hg hn1] at h
    cases h

/-- On a buffer without `#` the scan driver ends when the fuel exceeds the rest of the
buffer: every iteration goes at least one byte forward. -/
theorem TokenizeLoop_ne_timeout (fuel : Nat) :
    ∀ (t : Tokenizer), 35 ∉ t.input → t.input.length - t.i < fuel →
      TokenizeLoop fuel t ≠ Run.timeout := by
  induction fuel with
  | zero => intro t _ hf; omega
  | succ fuel ih =>
    intro t h35 hf h
    rw [TokenizeLoop] at h
    rcases hg : t.input[t.i]? with _ | c
    · have hl : ¬ t.i < t.input.length := Nat.not_lt.mpr (le_of_get_none hg)
      simp only [hl, if_false] at h
      cases h
    · have hil := lt_of_get hg
      simp only [hil, if_true, idx_some hg, Run.ret_bind] at h
      split at h
      · refine ih _ ?_ ?_ h
        · exact h35
        · show t.input.length - (t.i + 1) < fuel
          omega
      · split at h
        · refine ih _ ?_ ?_ h
          · exact h35
          · show t.input.length - (t.i + 1) < fuel
            omega
        · have hc35 : c ≠ 35 := fun e => h35 (e ▸ List.getElem?_mem hg)
          rcases Run.bind_eq_timeout h with h1 | ⟨r, hr, h2⟩
          · exact commonTokenizer_ne_timeout fuel t c hg hc35 (by omega) h1
          · obtain ⟨_, j, typ, s, _, hr1, hij, _, _⟩ := commonTokenizer_ret hr
            subst hr1
            refine ih _ ?_ ?_ h2
            · exact h35
            · show t.input.length - j < fuel
              omega

/-- C13 (the defect). `Tokenize` does not terminate on every buffer: on `#a` the loop of
`preprocess` repeats the same iteration for ever (the model times out with every fuel).  On
the buffers that hold no `#` byte the scan does end: with fuel above the buffer length the
model never times out. -/
theorem tokenize_termination_fails_at_hash (fuel : Nat) (fname : String) :
    lex fuel fname [35, 97] = Run.timeout ∧
    (∀ (data : List Nat), 35 ∉ data → data.length < fuel →
      lex fuel fname data ≠ Run.timeout) := by
  constructor
  · have := TokenizeLoop_diverges [] (by simp) 35 (by omega) (by omega) (by omega) fuel
      (start fname [35, 97]) [] [97] rfl rfl
      (fun f t1 h1 h2 => commonTokenizer_hash_diverges f t1 [] [] [] 97
        (by rw [h1]; rfl) (by rw [h2]; rfl) (by simp) (by omega) (by omega) (by omega)
        (by omega))
    unfold lex Tokenize
    rw [this]
    rfl
  · intro data h35 hf h
    unfold lex Tokenize at h
    rcases Run.bind_eq_timeout h with h1 | ⟨r, _, h2⟩
    · rcases Run.bind_eq_timeout h1 with h3 | ⟨t1, _, h4⟩
      · exact TokenizeLoop_ne_timeout fuel (start fname data) h35 (by simpa [start] using hf) h3
      · cases h4
    · cases h2

/-! ## The cursor only moves forward -/

/-- The loop of `Tokenize` is its body followed by the rest of the loop. -/
theorem TokenizeLoop_step (fuel : Nat) (t : Tokenizer) :
    TokenizeLoop (fuel + 1) t =
      if t.i < t.input.length then (TokenizeStep fuel t).bind (TokenizeLoop fuel)
      else Run.ret t := by
  rw [TokenizeLoop]
  by_cases hl : t.i < t.input.length
  · simp only [hl, if_true, TokenizeStep]
    cases idx t.input t.i with
    | ret c =>
      simp only [Run.ret_bind]
      split
      · rfl
      · split
        · rfl
        · cases commonTokenizer fuel t <;> rfl
    | exit d => rfl
    | panic => rfl
    | timeout => rfl
  · simp only [hl, if_false]

/-- The loop of `preprocess` is its body followed by the rest of the loop. -/
theorem preprocessLoop_step (fuel : Nat) (t : Tokenizer) (i : Nat) :
    preprocessLoop (fuel + 1) t i =
      if i < t.input.length then
        (preprocessStep fuel t i).bind fun o =>
          match o with
          | some (t1, i1) => preprocessLoop fuel t1 i1
          | none => Run.ret t
      else Run.ret t := by
  rw [preprocessLoop]
  by_cases hl : i < t.input.length
  · simp only [hl, if_true, preprocessStep]
    cases idx t.input i with
    | ret c =>
      simp only [Run.ret_bind]
      split
      · rfl
      · split
        · rfl
        · split
          · cases (if i + 1 ≥ t.input.length then Run.ret true
              else (idx t.input (i + 1)).bind fun c1 => Run.ret (c1 != 10)) with
            | ret bad =>
              simp only [Run.ret_bind]
              split
              · cases idx t.input (i + 1) <;> rfl
              · split
                · rfl
                · cases commonTokenizer fuel { t with i := i + 2 } <;> rfl
            | exit d => rfl
            | panic => rfl
            | timeout => rfl
          · rfl
    | exit d => rfl
    | panic => rfl
    | timeout => rfl
  · simp only [hl, if_false]

/-- The branch of the thirteen single-byte punctuators. -/
theorem commonTokenizer_punctuator (fuel : Nat) (t : Tokenizer) (c : Nat)
    (hg : t.input[t.i]? = some c) (hp : c ∈ punctuators) :
    commonTokenizer fuel t = Run.ret
      ({ t with i := t.i + 1 }, some (t.newToken TokenType.Punctuator [c])) := by
  have hp1 : (IndexByte punctuators c != -1) = true := by
    have := (IndexByte_mem punctuators c).mpr hp
    simpa using this
  have hd : isAlpha c = false ∧ isDigit c = false ∧ (c == 34 || c == 39) = false := by
    simp only [punctuators, List.mem_cons, List.mem_singleton, List.not_mem_nil,
      or_false] at hp
    rcases hp with rfl | rfl | rfl | rfl | rfl | rfl | rfl | rfl | rfl | rfl | rfl | rfl | rfl <;>
      decide
  unfold commonTokenizer
  simp only [idx_some hg, Run.ret_bind, hd.1, hd.2.1, hd.2.2, hp1, if_true, if_false,
    Bool.false_eq_true]

/-- One iteration of the scan driver that completes moves the offset strictly forward and
does not decrease the line counter. -/
theorem TokenizeStep_forward {fuel : Nat} {t t1 : Tokenizer}
    (h : TokenizeStep fuel t = Run.ret t1) :
    t.i < t1.i ∧ t.line ≤ t1.line ∧ t1.input = t.input := by
  unfold TokenizeStep at h
  obtain ⟨c, _, h2⟩ := Run.bind_eq_ret h
  split at h2
  · cases h2
    exact ⟨Nat.lt_succ_self _, Nat.le_refl _, rfl⟩
  · split at h2
    · cases h2
      exact ⟨Nat.lt_succ_self _, Nat.le_succ _, rfl⟩
    · obtain ⟨r, hr, h3⟩ := Run.bind_eq_ret h2
      obtain ⟨_, j, typ, s, _, hr1, hij, _, _⟩ := commonTokenizer_ret hr
      subst hr1
      cases h3
      exact ⟨hij, Nat.le_refl _, rfl⟩

/-- Over a whole run of the scan driver the offset and the line counter do not decrease. -/
theorem TokenizeLoop_forward (fuel : Nat) :
    ∀ (t t1 : Tokenizer), TokenizeLoop fuel t = Run.ret t1 →
      t.i ≤ t1.i ∧ t.line ≤ t1.line := by
  induction fuel with
  | zero => intro t t1 h; cases h
  | succ fuel ih =>
    intro t t1 h
    rw [TokenizeLoop_step] at h
    split at h
    · obtain ⟨t2, h2, h3⟩ := Run.bind_eq_ret h
      obtain ⟨a, b, _⟩ := TokenizeStep_forward h2
      obtain ⟨c, d⟩ := ih _ _ h3
      exact ⟨by omega, by omega⟩
    · cases h
      exact ⟨Nat.le_refl _, Nat.le_refl _⟩

/-- One iteration of the loop of `preprocess` that completes keeps `preprocessInv` and does
not decrease the offset, the line counter or the local index. -/
theorem preprocessStep_forward {fuel : Nat} {t t1 : Tokenizer} {i i1 : Nat}
    (hinv : preprocessInv t i) (h : preprocessStep fuel t i = Run.ret (some (t1, i1))) :
    t.i ≤ t1.i ∧ t.line ≤ t1.line ∧ i ≤ i1 ∧ preprocessInv t1 i1 := by
  unfold preprocessStep at h
  rcases hg : t.input[i]? with _ | c
  · rw [idx_none hg] at h
    cases h
  rw [idx_some hg, Run.ret_bind] at h
  by_cases hb : c = 32 ∨ c = 9
  · have hb1 : (c == 32 || c == 9) = true := by simpa using hb
    simp only [hb1, if_true] at h
    cases h
    refine ⟨Nat.le_refl _, Nat.le_refl _, Nat.le_succ _, Or.inl ?_⟩
    rcases hinv with h1 | h1
    · omega
    · rw [hg] at h1
      rcases hb with rfl | rfl
      · exact absurd rfl h1.2.1
      · exact absurd rfl h1.2.2.1
  have hb1 : (c == 32 || c == 9) = false := by
    simp only [Bool.or_eq_false_iff, beq_eq_false_iff_ne]; omega
  simp only [hb1, if_false, Bool.false_eq_true] at h
  by_cases h10 : c = 10
  · subst h10
    simp at h
  have h10b : (c == 10) = false := by simpa using h10
  simp only [h10b, if_false, Bool.false_eq_true] at h
  by_cases h92 : c = 92
  · subst h92
    simp only [beq_self_eq_true, if_true] at h
    have hle : t.i ≤ i + 1 := by
      rcases hinv with h1 | h1
      · exact h1
      · rw [hg] at h1
        exact absurd rfl h1.2.2.2.2
    obtain ⟨bad, _, h2⟩ := Run.bind_eq_ret h
    by_cases hbad : bad = true
    · simp only [hbad, if_true] at h2
      obtain ⟨c1, _, h3⟩ := Run.bind_eq_ret h2
      cases h3
    · simp only [hbad, if_false] at h2
      by_cases he : i + 2 ≥ t.input.length
      · rw [if_pos he] at h2
        cases h2
      · rw [if_neg he] at h2
        obtain ⟨r, hr, h3⟩ := Run.bind_eq_ret h2
        obtain ⟨c2, hc2, hs2⟩ := commonTokenizer_ret_starts hr
        obtain ⟨_, j, typ, s, _, hr1, hij, _, _⟩ := commonTokenizer_ret hr
        have hc2' : t.input[i + 2]? = some c2 := hc2
        have hij' : i + 2 < j := hij
        obtain ⟨n32, n9, n10⟩ := startsLexeme_not_blank hs2
        by_cases e92 : c2 = 92
        · subst e92
          have hp := commonTokenizer_punctuator fuel { t with i := i + 2 } 92 hc2 (by decide)
          rw [hp] at hr
          cases hr
          cases h3
          exact ⟨by show t.i ≤ i + 2 + 1; omega, Nat.le_refl _, by omega,
            Or.inl (Nat.le_refl _)⟩
        · subst hr1
          cases h3
          refine ⟨by show t.i ≤ j; omega, Nat.le_refl _, by omega, Or.inr ?_⟩
          show t.input[i + 2]? ≠ none ∧ _
          rw [hc2']
          simp [n32, n9, n10, e92]
  · have h92b : (c == 92) = false := by simpa using h92
    simp only [h92b, if_false, Bool.false_eq_true] at h
    cases h
    exact ⟨Nat.le_refl _, Nat.le_refl _, Nat.le_refl _, hinv⟩


/-- C16. Cursor monotonicity. Every classifier call that returns leaves the offset strictly
greater than before, inside the buffer, and the line counter as it was; every iteration of the
scan driver that completes leaves the offset strictly greater and the line counter not
smaller; over a whole run of the driver neither decreases; and inside `preprocess`, whose loop
starts with its local index at the offset, every iteration that completes keeps the relation
`preprocessInv` and decreases neither the offset nor the line counter. -/
theorem cursor_only_moves_forward (fuel : Nat) (t : Tokenizer) (r : Tokenizer × Option Token)
    (h : commonTokenizer fuel t = Run.ret r) :
    (t.i < r.1.i ∧ r.1.i ≤ t.input.length ∧ t.line ≤ r.1.line) ∧
    (∀ (f : Nat) (s s1 : Tokenizer), TokenizeStep f s = Run.ret s1 →
      s.i < s1.i ∧ s.line ≤ s1.line) ∧
    (∀ (f : Nat) (s : Tokenizer), TokenizeLoop (f + 1) s =
      if s.i < s.input.length then (TokenizeStep f s).bind (TokenizeLoop f) else Run.ret s) ∧
    (∀ (f : Nat) (s s1 : Tokenizer), TokenizeLoop f s = Run.ret s1 →
      s.i ≤ s1.i ∧ s.line ≤ s1.line) ∧
    (∀ (s : Tokenizer), preprocessInv s s.i) ∧
    (∀ (f : Nat) (s s1 : Tokenizer) (i i1 : Nat), preprocessInv s i →
      preprocessStep f s i = Run.ret (some (s1, i1)) →
      s.i ≤ s1.i ∧ s.line ≤ s1.line ∧ i ≤ i1 ∧ preprocessInv s1 i1) ∧
    (∀ (f : Nat) (s : Tokenizer) (i : Nat), preprocessLoop (f + 1) s i =
      if i < s.input.length then
        (preprocessStep f s i).bind fun o =>
          match o with
          | some (s1, i1) => preprocessLoop f s1 i1
          | none => Run.ret s
      else Run.ret s) := by
  obtain ⟨_, j, typ, s, _, hr1, hij, hjl, _⟩ := commonTokenizer_ret h
  subst hr1
  refine ⟨⟨hij, hjl, Nat.le_refl _⟩, ?_, TokenizeLoop_step, TokenizeLoop_forward, ?_, ?_,
    preprocessLoop_step⟩
  · intro f s s1 hs
    obtain ⟨a, b, _⟩ := TokenizeStep_forward hs
    exact ⟨a, b⟩
  · intro s
    exact Or.inl (Nat.le_succ _)
  · intro f s s1 i i1 hinv hs
    exact preprocessStep_forward hinv hs

theorem cursor_only_moves_forward_witness :
    commonTokenizer 2 (start "a.c" [120, 49, 32]) = Run.ret
      ({ start "a.c" [120, 49, 32] with i := 2 },
        some ⟨TokenType.Identifier, [120, 49], "a.c", 1⟩) ∧
    (start "a.c" [120, 49, 32]).i < 2 ∧ 2 ≤ (start "a.c" [120, 49, 32]).input.length ∧
    (start "a.c" [120, 49, 32]).line ≤ 1 :=
  ⟨by decide,
    (cursor_only_moves_forward 2 (start "a.c" [120, 49, 32])
      ({ start "a.c" [120, 49, 32] with i := 2 },
        some ⟨TokenType.Identifier, [120, 49], "a.c", 1⟩) (by decide)).1⟩

/-! ## Lines of literals -/

/-- The scan driver skips spaces and tabs. -/
theorem TokenizeLoop_spaces (sp : List Nat) (hsp : ∀ x ∈ sp, x = 32 ∨ x = 9) :
    ∀ (fuel : Nat) (t : Tokenizer) (p rest : List Nat), t.input = p ++ (sp ++ rest) →
      t.i = p.length →
      TokenizeLoop (fuel + sp.length) t = TokenizeLoop fuel { t with i := t.i + sp.length } := by
  induction sp with
  | nil => intro fuel t p rest _ _; rfl
  | cons x sp ih =>
    intro fuel t p rest hin hi
    have hx := hsp x (List.mem_cons_self x sp)
    have hg : t.input[t.i]? = some x := by rw [hin, hi]; exact get_mid p (sp ++ rest) x
    rw [List.length_cons, ← Nat.add_assoc, TokenizeLoop_space hg hx]
    rw [ih (fun y hy => hsp y (List.mem_cons_of_mem _ hy)) fuel _ (p ++ [x]) rest
      (by show t.input = _; rw [hin]; simp) (by show t.i + 1 = _; rw [hi]; simp)]
    simp [Nat.add_assoc, Nat.add_comm 1]

/-- A quoted literal, spaces and tabs, and a single-byte punctuator: two tokens with the line
of the start of the scan, however many newline bytes the literal holds. -/
theorem lex_literal_then_punctuator (fuel : Nat) (fname : String) (d c : Nat)
    (units : List (List Nat)) (sp : List Nat) (hd : d = 34 ∨ d = 39)
    (hu : ∀ u ∈ units, isUnit d u = true) (hsp : ∀ x ∈ sp, x = 32 ∨ x = 9)
    (hc : c ∈ punctuators) :
    lex (fuel + units.length + sp.length + 3) fname
        (d :: (units.flatten ++ d :: (sp ++ [c]))) =
      Run.ret [⟨if d = 39 then TokenType.CharacterLiteral else TokenType.StringLiteral,
          units.flatten, fname, 1⟩,
        ⟨TokenType.Punctuator, [c], fname, 1⟩] := by
  have hc3 : c ≠ 32 ∧ c ≠ 9 ∧ c ≠ 10 := by
    refine ⟨?_, ?_, ?_⟩ <;> (intro e; subst e; revert hc; decide)
  unfold lex Tokenize
  -- the literal
  have g0 : (start fname (d :: (units.flatten ++ d :: (sp ++ [c])))).input[
      (start fname (d :: (units.flatten ++ d :: (sp ++ [c])))).i]? = some d := by simp [start]
  have c0 := commonTokenizer_quoted (fuel + sp.length + 1)
    (start fname (d :: (units.flatten ++ d :: (sp ++ [c])))) [] (sp ++ [c]) d units hd hu
    (by simp [start]) rfl
  have s0 := TokenizeLoop_token g0 (by omega) (by omega) (by omega) c0
  have hf : fuel + units.length + sp.length + 3 =
      (fuel + sp.length + 1 + units.length + 1) + 1 := by omega
  rw [hf, s0]
  simp only [start, Tokenizer.newToken, newToken, List.nil_append, Nat.zero_add]
  -- the spaces and tabs
  have hf1 : fuel + sp.length + 1 + units.length + 1 =
      (fuel + units.length + 2) + sp.length := by omega
  have s1 := TokenizeLoop_spaces sp hsp (fuel + units.length + 2)
    ⟨[⟨if d = 39 then TokenType.CharacterLiteral else TokenType.StringLiteral,
      units.flatten, fname, 1⟩], d :: (units.flatten ++ d :: (sp ++ [c])), fname,
      units.flatten.length + 2, 1⟩ (d :: (units.flatten ++ [d])) [c]
    (by simp only [List.cons_append, List.append_assoc, List.singleton_append,
      List.nil_append])
    (by simp only [List.length_cons, List.length_append, List.length_singleton,
      List.length_nil])
  rw [hf1, s1]
  -- the punctuator
  have g2 : (d :: (units.flatten ++ d :: (sp ++ [c])))[units.flatten.length + 2 + sp.length]? =
      some c := by
    have h1 := get_mid (d :: (units.flatten ++ [d]) ++ sp) [] c
    have h2 : (d :: (units.flatten ++ [d]) ++ sp).length =
        units.flatten.length + 2 + sp.length := by
      simp only [List.length_cons, List.length_append, List.length_singleton, List.length_nil]
    have h3 : d :: (units.flatten ++ [d]) ++ sp ++ [c] =
        d :: (units.flatten ++ d :: (sp ++ [c])) := by
      simp only [List.cons_append, List.append_assoc, List.singleton_append,
        List.nil_append]
    rw [h2, h3] at h1
    exact h1
  have c2 := commonTokenizer_punctuator (fuel + units.length + 1)
    ⟨[⟨if d = 39 then TokenType.CharacterLiteral else TokenType.StringLiteral,
      units.flatten, fname, 1⟩], d :: (units.flatten ++ d :: (sp ++ [c])), fname,
      units.flatten.length + 2 + sp.length, 1⟩ c g2 hc
  have s2 := TokenizeLoop_token g2 hc3.1 hc3.2.1 hc3.2.2 c2
  have s2b : TokenizeLoop (fuel + units.length + 2)
      ⟨[⟨if d = 39 then TokenType.CharacterLiteral else TokenType.StringLiteral,
        units.flatten, fname, 1⟩], d :: (units.flatten ++ d :: (sp ++ [c])), fname,
        units.flatten.length + 2 + sp.length, 1⟩ = _ := s2
  rw [s2b]
  simp only [Tokenizer.newToken, newToken, List.cons_append, List.nil_append]
  rw [TokenizeLoop_end (by
    simp only [List.length_cons, List.length_append, List.length_singleton, List.length_nil]
    omega)]
  rfl

/-! ## The texts of the tokens -/

theorem filter_take_succ_blank {data : List Nat} {i c : Nat} (h : data[i]? = some c)
    (hb : isBlank c = true) :
    (data.take (i + 1)).filter (fun x => !isBlank x) =
      (data.take i).filter (fun x => !isBlank x) := by
  rw [List.take_succ, h, List.filter_append]
  simp [hb]

theorem filter_take_span {data : List Nat} {i j : Nat} (hij : i ≤ j)
    (h : ∀ x ∈ (data.drop i).take (j - i), x ≠ 10 ∧ x ≠ 32 ∧ x ≠ 9) :
    (data.take j).filter (fun x => !isBlank x) =
      (data.take i).filter (fun x => !isBlank x) ++ (data.drop i).take (j - i) := by
  have e : data.take j = data.take i ++ (data.drop i).take (j - i) := by
    rw [← List.take_add]
    congr 1
    omega
  rw [e, List.filter_append]
  congr 1
  rw [List.filter_eq_self]
  intro x hx
  obtain ⟨a, b, c⟩ := h x hx
  simp [isBlank, a, b, c]

/-- On a buffer without quote bytes, the texts of the tokens collected so far are, in order,
the bytes of the buffer before the offset that are no space, tab or newline. -/
theorem TokenizeLoop_texts (fuel : Nat) :
    ∀ (t t1 : Tokenizer), 34 ∉ t.input → 39 ∉ t.input →
      (t.tokens.map Token.Str).flatten = (t.input.take t.i).filter (fun x => !isBlank x) →
      TokenizeLoop fuel t = Run.ret t1 →
      (t1.tokens.map Token.Str).flatten = t.input.filter (fun x => !isBlank x) := by
  induction fuel with
  | zero => intro t t1 _ _ _ h; cases h
  | succ fuel ih =>
    intro t t1 h34 h39 hinv h
    rw [TokenizeLoop] at h
    rcases hg : t.input[t.i]? with _ | c
    · have hl : ¬ t.i < t.input.length := Nat.not_lt.mpr (le_of_get_none hg)
      simp only [hl, if_false] at h
      cases h
      rw [hinv, List.take_of_length_le (le_of_get_none hg)]
    · simp only [lt_of_get hg, if_true, idx_some hg, Run.ret_bind] at h
      by_cases h1 : (c == 32 || c == 9) = true
      · simp only [h1, if_true] at h
        have hb : isBlank c = true := by
          simp only [Bool.or_eq_true, beq_iff_eq] at h1
          simp only [isBlank, Bool.or_eq_true, beq_iff_eq]
          exact Or.inl h1
        exact ih { t with i := t.i + 1 } t1 h34 h39
          (by show (t.tokens.map Token.Str).flatten = (t.input.take (t.i + 1)).filter _
              rw [filter_take_succ_blank hg hb]
              exact hinv) h
      · simp only [h1, if_false, Bool.false_eq_true] at h
        by_cases h2 : (c == 10) = true
        · simp only [h2, if_true] at h
          have hb : isBlank c = true := by
            simp only [beq_iff_eq] at h2
            simp [isBlank, h2]
          exact ih { t with i := t.i + 1, line := t.line + 1 } t1 h34 h39
            (by show (t.tokens.map Token.Str).flatten = (t.input.take (t.i + 1)).filter _
                rw [filter_take_succ_blank hg hb]
                exact hinv) h
        · simp only [h2, if_false, Bool.false_eq_true] at h
          obtain ⟨r, hct, h3⟩ := Run.bind_eq_ret h
          obtain ⟨c1, j, typ, s, hc1, hr1, hij, hjl, hspan⟩ := commonTokenizer_ret hct
          rw [hg] at hc1
          cases hc1
          have hmem : c ∈ t.input := List.getElem?_mem hg
          have hspan1 : s = (t.input.drop t.i).take (j - t.i) ∧
              ∀ x ∈ s, x ≠ 10 ∧ x ≠ 32 ∧ x ≠ 9 := by
            rcases hspan with e | e | e
            · exact absurd (e ▸ hmem) h34
            · exact absurd (e ▸ hmem) h39
            · exact e
          subst hr1
          exact ih { t with i := j, tokens := t.tokens ++ [t.newToken typ s] } t1 h34 h39
            (by show ((t.tokens ++ [t.newToken typ s]).map Token.Str).flatten =
                  (t.input.take j).filter _
                rw [filter_take_span (Nat.le_of_lt hij) (hspan1.1 ▸ hspan1.2), ← hspan1.1,
                  ← hinv]
                simp [Tokenizer.newToken, newToken]) h3

/-- C19. For every buffer that holds no double and no single quote byte and on which
`Tokenize` succeeds, the concatenation of the texts of the returned tokens, in order, is the
buffer with every space, tab and newline byte removed. -/
theorem token_texts_concatenate (fuel : Nat) (fname : String) (data : List Nat)
    (toks : TokenList) (h34 : 34 ∉ data) (h39 : 39 ∉ data)
    (h : lex fuel fname data = Run.ret toks) :
    (toks.map Token.Str).flatten = data.filter (fun x => !isBlank x) := by
  unfold lex Tokenize at h
  obtain ⟨r, hr, h2⟩ := Run.bind_eq_ret h
  cases h2
  obtain ⟨t1, ht1, h3⟩ := Run.bind_eq_ret hr
  cases h3
  exact TokenizeLoop_texts fuel (start fname data) t1 h34 h39 rfl ht1

theorem token_texts_concatenate_witness :
    34 ∉ [49, 10, 59] ∧ 39 ∉ [49, 10, 59] ∧
    lex 4 "a.c" [49, 10, 59] = Run.ret
      [⟨TokenType.Integer, [49], "a.c", 1⟩, ⟨TokenType.Punctuator, [59], "a.c", 2⟩] ∧
    (([⟨TokenType.Integer, [49], "a.c", 1⟩, ⟨TokenType.Punctuator, [59], "a.c", 2⟩] :
        TokenList).map Token.Str).flatten = [49, 10, 59].filter (fun x => !isBlank x) :=
  ⟨by decide, by decide, by decide,
    token_texts_concatenate 4 "a.c" [49, 10, 59] _ (by decide) (by decide) (by decide)⟩


/-! ## Well-formed tokens -/

theorem span_cons {str : List Nat} {i j c : Nat} (hg : str[i]? = some c) (hij : i < j) :
    (str.drop i).take (j - i) = c :: (str.drop (i + 1)).take (j - (i + 1)) := by
  have hl := lt_of_get hg
  have hc : str[i] = c := by
    have := List.getElem?_eq_getElem hl
    rw [hg] at this
    exact (Option.some.inj this).symm
  have e : j - i = (j - (i + 1)) + 1 := by omega
  rw [List.drop_eq_getElem_cons hl, e, List.take_succ_cons, hc]

/-- A token returned by the classifier is well-formed for its kind. -/
theorem commonTokenizer_wellFormed {fuel : Nat} {t : Tokenizer}
    {r : Tokenizer × Option Token} (h : commonTokenizer fuel t = Run.ret r) :
    ∃ tok, r.2 = some tok ∧ wellFormed tok = true := by
  obtain ⟨c, hg, hs⟩ := commonTokenizer_ret_starts h
  rcases startsLexeme_cases hs with ha | hd | hq | h35 | hop
  · rw [commonTokenizer_alpha _ t c hg ha] at h
    obtain ⟨j, hj, h2⟩ := Run.bind_eq_ret h
    obtain ⟨s, hsl, h3⟩ := Run.bind_eq_ret h2
    cases h3
    obtain ⟨l1, l2, l3⟩ := identLoop_ret _ _ _ _ hj
    obtain ⟨_, _, hs1⟩ := slice_ret hsl
    rw [span_cons hg (by omega)] at hs1
    refine ⟨_, rfl, ?_⟩
    simp only [wellFormed, Tokenizer.newToken, newToken, hs1, ha, Bool.true_and,
      List.all_eq_true, Bool.or_eq_true]
    intro x hx
    obtain ⟨k, hk1, hk2, hk3⟩ := mem_span hx
    obtain ⟨y, hy1, hy2⟩ := l3 k hk1 (by omega)
    rw [hk3] at hy1
    cases hy1
    exact hy2
  · rw [commonTokenizer_digit _ t c hg hd] at h
    obtain ⟨j, hj, h2⟩ := Run.bind_eq_ret h
    obtain ⟨s, hsl, h3⟩ := Run.bind_eq_ret h2
    cases h3
    obtain ⟨l1, l2, l3⟩ := digitLoop_ret _ _ _ _ (lt_of_get hg) hj
    obtain ⟨_, _, hs1⟩ := slice_ret hsl
    rw [span_cons hg (by omega)] at hs1
    refine ⟨_, rfl, ?_⟩
    simp only [wellFormed, Tokenizer.newToken, newToken, hs1, List.isEmpty_cons, Bool.not_false,
      Bool.true_and, List.all_cons, hd, List.all_eq_true]
    intro x hx
    obtain ⟨k, hk1, hk2, hk3⟩ := mem_span hx
    obtain ⟨y, hy1, hy2⟩ := l3 k hk1 (by omega)
    rw [hk3] at hy1
    cases hy1
    exact hy2
  · obtain ⟨_, j, typ, s, _, hr1, _, _, _⟩ := commonTokenizer_ret h
    rw [commonTokenizer_quote _ t c hg hq] at h
    obtain ⟨j1, _, h2⟩ := Run.bind_eq_ret h
    obtain ⟨u, _, h3⟩ := Run.bind_eq_ret h2
    obtain ⟨s1, _, h4⟩ := Run.bind_eq_ret h3
    cases h4
    refine ⟨_, rfl, ?_⟩
    rcases hq with rfl | rfl <;> rfl
  · subst h35
    cases fuel with
    | zero =>
      rw [commonTokenizer_hash_zero t hg] at h
      cases h
    | succ fuel =>
      rw [commonTokenizer_hash fuel t hg] at h
      obtain ⟨t1, ht1, _⟩ := Run.bind_eq_ret h
      exact absurd ht1 (preprocess_ne_ret _ _ _)
  · obtain ⟨n, s, hr, _, _, _, hm⟩ := commonTokenizer_operator fuel t c hg hop
    rw [hr] at h
    cases h
    refine ⟨_, rfl, ?_⟩
    simp only [wellFormed, Tokenizer.newToken, newToken]
    exact List.elem_eq_true_of_mem hm

/-- The scan driver keeps the collected tokens well-formed. -/
theorem TokenizeLoop_wellFormed (fuel : Nat) :
    ∀ (t t1 : Tokenizer), (∀ tok ∈ t.tokens, wellFormed tok = true) →
      TokenizeLoop fuel t = Run.ret t1 → ∀ tok ∈ t1.tokens, wellFormed tok = true := by
  induction fuel with
  | zero => intro t t1 _ h; cases h
  | succ fuel ih =>
    intro t t1 hwf h
    rw [TokenizeLoop_step] at h
    split at h
    · obtain ⟨t2, h2, h3⟩ := Run.bind_eq_ret h
      refine ih t2 t1 ?_ h3
      unfold TokenizeStep at h2
      obtain ⟨c, _, h4⟩ := Run.bind_eq_ret h2
      split at h4
      · cases h4
        exact hwf
      · split at h4
        · cases h4
          exact hwf
        · obtain ⟨r, hr, h5⟩ := Run.bind_eq_ret h4
          obtain ⟨tok, htok, hw⟩ := commonTokenizer_wellFormed hr
          obtain ⟨_, j, typ, s, _, hr1, _, _, _⟩ := commonTokenizer_ret hr
          subst hr1
          cases h5
          cases htok
          intro x hx
          simp only [List.mem_append, List.mem_singleton] at hx
          rcases hx with hx | hx
          · exact hwf x hx
          · rw [hx]
            exact hw
    · cases h
      exact hwf

/-- C20. For every buffer on which `Tokenize` succeeds every returned token is well-formed
for its kind: the text of an Identifier is a letter or `_` followed by letters, `_` and
digits; the text of an Integer is a non-empty string of decimal digits; the text of a
Punctuator is one of the texts of `punctuatorTexts`, so its length is between 1 and 3. -/
theorem returned_tokens_wellFormed (fuel : Nat) (fname : String) (data : List Nat)
    (toks : TokenList) (h : lex fuel fname data = Run.ret toks) :
    (∀ tok ∈ toks, wellFormed tok = true) ∧
    (∀ s ∈ punctuatorTexts, 1 ≤ s.length ∧ s.length ≤ 3) := by
  refine ⟨?_, by decide⟩
  unfold lex Tokenize at h
  obtain ⟨r, hr, h2⟩ := Run.bind_eq_ret h
  cases h2
  obtain ⟨t1, ht1, h3⟩ := Run.bind_eq_ret hr
  cases h3
  exact TokenizeLoop_wellFormed fuel (start fname data) t1
    (fun tok htok => by simp [start] at htok) ht1

theorem returned_tokens_wellFormed_witness :
    lex 4 "a.c" [120, 49, 60, 60, 61, 55] = Run.ret
      [⟨TokenType.Identifier, [120, 49], "a.c", 1⟩, ⟨TokenType.Punctuator, [60, 60, 61], "a.c", 1⟩,
        ⟨TokenType.Integer, [55], "a.c", 1⟩] ∧
    (∀ tok ∈ ([⟨TokenType.Identifier, [120, 49], "a.c", 1⟩,
        ⟨TokenType.Punctuator, [60, 60, 61], "a.c", 1⟩,
        ⟨TokenType.Integer, [55], "a.c", 1⟩] : TokenList), wellFormed tok = true) :=
  ⟨by decide,
    (returned_tokens_wellFormed 4 "a.c" [120, 49, 60, 60, 61, 55] _ (by decide)).1⟩

/-! ## A `#` line never completes -/

/-- The classifier never returns from a call that begins at `#`. -/
theorem commonTokenizer_hash_ne_ret (fuel : Nat) (t : Tokenizer)
    (hg : t.input[t.i]? = some 35) (r : Tokenizer × Option Token) :
    commonTokenizer fuel t ≠ Run.ret r := by
  intro h
  cases fuel with
  | zero =>
    rw [commonTokenizer_hash_zero t hg] at h
    cases h
  | succ fuel =>
    rw [commonTokenizer_hash fuel t hg] at h
    obtain ⟨t1, ht1, _⟩ := Run.bind_eq_ret h
    exact absurd ht1 (preprocess_ne_ret _ _ _)

/-- When the first byte that is no space, tab or newline is `#`, the scan never returns a
token list, whatever follows the `#`. -/
theorem hash_scan_never_returns (ws : List Nat) (hws : ∀ x ∈ ws, x = 32 ∨ x = 9 ∨ x = 10) :
    ∀ (fuel : Nat) (t : Tokenizer) (p rest : List Nat),
      t.input = p ++ (ws ++ 35 :: rest) → t.i = p.length →
      ∀ t1, TokenizeLoop fuel t ≠ Run.ret t1 := by
  induction ws with
  | nil =>
    intro fuel t p rest hin hi t1 h
    cases fuel with
    | zero => cases h
    | succ fuel =>
      have hg : t.input[t.i]? = some 35 := by rw [hin, hi]; exact get_mid p rest 35
      rw [TokenizeLoop] at h
      simp only [lt_of_get hg, if_true, idx_some hg, Run.ret_bind] at h
      have h1 : ((35 : Nat) == 32 || (35 : Nat) == 9) = false := by decide
      have h2 : ((35 : Nat) == 10) = false := by decide
      simp only [h1, h2, if_false, Bool.false_eq_true] at h
      obtain ⟨r, hr, _⟩ := Run.bind_eq_ret h
      exact commonTokenizer_hash_ne_ret fuel t hg r hr
  | cons x ws ih =>
    intro fuel t p rest hin hi t1 h
    cases fuel with
    | zero => cases h
    | succ fuel =>
      have hx := hws x (List.mem_cons_self x ws)
      have hg : t.input[t.i]? = some x := by
        rw [hin, hi]; exact get_mid p (ws ++ 35 :: rest) x
      have hws1 : ∀ y ∈ ws, y = 32 ∨ y = 9 ∨ y = 10 :=
        fun y hy => hws y (List.mem_cons_of_mem _ hy)
      rcases hx with rfl | rfl | rfl
      · rw [TokenizeLoop_space hg (Or.inl rfl)] at h
        exact ih hws1 fuel { t with i := t.i + 1 } (p ++ [32]) rest
          (by show t.input = _; rw [hin]; simp) (by show t.i + 1 = _; rw [hi]; simp) t1 h
      · rw [TokenizeLoop_space hg (Or.inr rfl)] at h
        exact ih hws1 fuel { t with i := t.i + 1 } (p ++ [9]) rest
          (by show t.input = _; rw [hin]; simp) (by show t.i + 1 = _; rw [hi]; simp) t1 h
      · rw [TokenizeLoop_newline hg] at h
        exact ih hws1 fuel { t with i := t.i + 1, line := t.line + 1 } (p ++ [10]) rest
          (by show t.input = _; rw [hin]; simp) (by show t.i + 1 = _; rw [hi]; simp) t1 h

/-- The scans that begin with a `#` line and do end in a diagnostic: a backslash that is not
followed by a newline gives "Unexpected char" for the byte after the backslash (which may
itself be a `#`), and a backslash-newline at the end of the buffer gives "Unexpected EOF". -/
theorem hash_backslash_exits (fuel : Nat) (fname : String) :
    lex (fuel + 4) fname [35, 92, 97] = Run.exit (Diag.unexpectedChar 97) ∧
    lex (fuel + 4) fname [35, 92, 35] = Run.exit (Diag.unexpectedChar 35) ∧
    lex (fuel + 4) fname [35, 92, 10] = Run.exit Diag.unexpectedEOF := by
  have key : ∀ (x : Nat) (d : Diag),
      preprocessLoop (fuel + 1) { start fname [35, 92, x] with i := 1 } 1 = Run.exit d →
      lex (fuel + 4) fname [35, 92, x] = Run.exit d := by
    intro x d hp
    have g0 : (start fname [35, 92, x]).input[(start fname [35, 92, x]).i]? = some 35 := by
      simp [start]
    have hc : commonTokenizer (fuel + 3) (start fname [35, 92, x]) = Run.exit d := by
      rw [commonTokenizer_hash (fuel + 2) _ g0, preprocess]
      show ((preprocessLoop (fuel + 1) { start fname [35, 92, x] with i := 1 } 1).bind _).bind _
        = _
      rw [hp]
      rfl
    have hl : TokenizeLoop (fuel + 4) (start fname [35, 92, x]) = Run.exit d :=
      TokenizeLoop_exit g0 (by omega) (by omega) (by omega) hc
    unfold lex Tokenize
    rw [hl]
    rfl
  refine ⟨?_, ?_, ?_⟩
  · apply key
    rw [preprocessLoop_backslash fuel _ 1 (by simp [start])]
    simp [start, idx, Error]
  · apply key
    rw [preprocessLoop_backslash fuel _ 1 (by simp [start])]
    simp [start, idx, Error]
  · apply key
    rw [preprocessLoop_backslash fuel _ 1 (by simp [start])]
    simp [start, idx, Error]

/-! ## The line of the tokens after a quoted literal -/

/-- More fuel does not change the result of the loop of the quoted-literal branch. -/
theorem quoteLoop_mono (str : List Nat) (b : Nat) (fuel : Nat) :
    ∀ (k i j : Nat), quoteLoop str b fuel i = Run.ret j →
      quoteLoop str b (fuel + k) i = Run.ret j := by
  induction fuel with
  | zero => intro k i j h; simp [quoteLoop] at h
  | succ fuel ih =>
    intro k i j h
    have hf : fuel + 1 + k = (fuel + k) + 1 := by omega
    rw [hf, quoteLoop]
    rw [quoteLoop] at h
    obtain ⟨bb, hb, h2⟩ := Run.bind_eq_ret h
    rw [hb, Run.ret_bind]
    cases bb with
    | false => simpa using h2
    | true =>
      simp only [if_true] at h2 ⊢
      obtain ⟨c, hc, h3⟩ := Run.bind_eq_ret h2
      rw [hc, Run.ret_bind]
      exact ih _ _ _ h3

/-- More fuel does not change what the classifier returns at a quote. -/
theorem commonTokenizer_quote_mono (fuel k : Nat) (t : Tokenizer) (c : Nat)
    (hg : t.input[t.i]? = some c) (hq : c = 34 ∨ c = 39) (r : Tokenizer × Option Token)
    (h : commonTokenizer fuel t = Run.ret r) : commonTokenizer (fuel + k) t = Run.ret r := by
  rw [commonTokenizer_quote _ t c hg hq] at h ⊢
  obtain ⟨j, hj, h2⟩ := Run.bind_eq_ret h
  rw [quoteLoop_mono _ _ _ k _ _ hj, Run.ret_bind]
  exact h2

/-- Whatever the fuel, a classifier call that returns at the opening delimiter of a terminated
literal returns that literal. -/
theorem commonTokenizer_quoted_ret (fuel : Nat) (t : Tokenizer) (p post : List Nat) (d : Nat)
    (units : List (List Nat)) (hd : d = 34 ∨ d = 39) (hu : ∀ u ∈ units, isUnit d u = true)
    (hin : t.input = p ++ d :: (units.flatten ++ d :: post)) (hi : t.i = p.length)
    (r : Tokenizer × Option Token) (h : commonTokenizer fuel t = Run.ret r) :
    r = ({ t with i := t.i + units.flatten.length + 2 },
      some (t.newToken (if d = 39 then TokenType.CharacterLiteral else TokenType.StringLiteral)
        units.flatten)) := by
  have hg : t.input[t.i]? = some d := by rw [hin, hi]; exact get_mid p _ d
  have h1 := commonTokenizer_quote_mono fuel (units.length + 1) t d hg hd r h
  have h2 := commonTokenizer_quoted fuel t p post d units hd hu hin hi
  have h3 : commonTokenizer (fuel + units.length + 1) t = Run.ret r := h1
  rw [h2] at h3
  cases h3
  rfl

/-- An iteration of the scan driver that ends in a returned state at a byte that is no space,
tab or newline consists of a classifier call that returns. -/
theorem TokenizeLoop_ret_token {fuel : Nat} {t tf : Tokenizer} {c : Nat}
    (hc : t.input[t.i]? = some c) (h32 : c ≠ 32) (h9 : c ≠ 9) (h10 : c ≠ 10)
    (h : TokenizeLoop fuel t = Run.ret tf) :
    ∃ f r, fuel = f + 1 ∧ commonTokenizer f t = Run.ret r ∧
      TokenizeLoop f (match r.2 with
        | some token => { r.1 with tokens := r.1.tokens ++ [token] }
        | none => r.1) = Run.ret tf := by
  cases fuel with
  | zero => simp [TokenizeLoop] at h
  | succ f =>
    rw [TokenizeLoop] at h
    simp only [lt_of_get hc, if_true, idx_some hc, Run.ret_bind] at h
    have e1 : (c == 32 || c == 9) = false := by simp [h32, h9]
    have e2 : (c == 10) = false := by simp [h10]
    simp only [e1, e2, if_false, Bool.false_eq_true] at h
    obtain ⟨r, hr, h2⟩ := Run.bind_eq_ret h
    exact ⟨f, r, rfl, hr, h2⟩

/-- The scan driver only appends to the collected tokens. -/
theorem TokenizeLoop_tokens_append (fuel : Nat) :
    ∀ (t tf : Tokenizer), TokenizeLoop fuel t = Run.ret tf →
      ∃ more, tf.tokens = t.tokens ++ more := by
  induction fuel with
  | zero => intro t tf h; simp [TokenizeLoop] at h
  | succ fuel ih =>
    intro t tf h
    rw [TokenizeLoop] at h
    by_cases hl : t.i < t.input.length
    · have hg : t.input[t.i]? = some t.input[t.i] := List.getElem?_eq_getElem hl
      generalize t.input[t.i] = c at hg
      simp only [hl, if_true, idx_some hg, Run.ret_bind] at h
      split at h
      · obtain ⟨more, hm⟩ := ih _ _ h
        exact ⟨more, hm⟩
      · split at h
        · obtain ⟨more, hm⟩ := ih _ _ h
          exact ⟨more, hm⟩
        · obtain ⟨r, hr, h2⟩ := Run.bind_eq_ret h
          obtain ⟨_, j, typ, s, _, hr1, _, _, _⟩ := commonTokenizer_ret hr
          subst hr1
          obtain ⟨more, hm⟩ := ih _ _ h2
          exact ⟨t.newToken typ s :: more, by rw [hm]; simp⟩
    · simp only [hl, if_false] at h
      cases h
      exact ⟨[], by simp⟩

/-- A scan that returns passes over a run of spaces and tabs. -/
theorem TokenizeLoop_spaces_ret (sp : List Nat) (hsp : ∀ x ∈ sp, x = 32 ∨ x = 9) :
    ∀ (fuel : Nat) (t tf : Tokenizer) (p rest : List Nat), t.input = p ++ (sp ++ rest) →
      t.i = p.length → TokenizeLoop fuel t = Run.ret tf →
      ∃ f, TokenizeLoop f { t with i := t.i + sp.length } = Run.ret tf := by
  induction sp with
  | nil => intro fuel t tf p rest _ _ h; exact ⟨fuel, h⟩
  | cons x sp ih =>
    intro fuel t tf p rest hin hi h
    have hx := hsp x (List.mem_cons_self x sp)
    have hg : t.input[t.i]? = some x := by rw [hin, hi]; exact get_mid p (sp ++ rest) x
    cases fuel with
    | zero => simp [TokenizeLoop] at h
    | succ fuel =>
      rw [TokenizeLoop_space hg hx] at h
      obtain ⟨f, hf⟩ := ih (fun y hy => hsp y (List.mem_cons_of_mem _ hy)) fuel
        { t with i := t.i + 1 } tf (p ++ [x]) rest
        (by show t.input = _; rw [hin]; simp) (by show t.i + 1 = _; rw [hi]; simp) h
      refine ⟨f, ?_⟩
      have e : t.i + (x :: sp).length = t.i + 1 + sp.length := by
        simp only [List.length_cons]; omega
      rw [e]
      exact hf

/-- The token after a quoted literal.  From any state at the opening delimiter of a terminated
literal that is followed by spaces and tabs and then a byte that is no space, tab or newline,
a scan that returns has appended the literal and then a token with the literal's line, however
many newline bytes the literal holds. -/
theorem TokenizeLoop_literal_next (fuel : Nat) (t tf : Tokenizer) (p sp rest : List Nat)
    (d c : Nat) (units : List (List Nat)) (hd : d = 34 ∨ d = 39)
    (hu : ∀ u ∈ units, isUnit d u = true) (hsp : ∀ x ∈ sp, x = 32 ∨ x = 9)
    (h32 : c ≠ 32) (h9 : c ≠ 9) (h10 : c ≠ 10)
    (hin : t.input = p ++ d :: (units.flatten ++ d :: (sp ++ c :: rest)))
    (hi : t.i = p.length) (h : TokenizeLoop fuel t = Run.ret tf) :
    ∃ tok more, tf.tokens = t.tokens ++
        t.newToken (if d = 39 then TokenType.CharacterLiteral else TokenType.StringLiteral)
          units.flatten :: tok :: more ∧
      tok.Line = (t.newToken
        (if d = 39 then TokenType.CharacterLiteral else TokenType.StringLiteral)
          units.flatten).Line ∧
      tok.Line = t.line := by
  have hg : t.input[t.i]? = some d := by rw [hin, hi]; exact get_mid p _ d
  have hd3 : d ≠ 32 ∧ d ≠ 9 ∧ d ≠ 10 := by rcases hd with rfl | rfl <;> decide
  obtain ⟨f, r, _, hr, h1⟩ := TokenizeLoop_ret_token hg hd3.1 hd3.2.1 hd3.2.2 h
  have er := commonTokenizer_quoted_ret f t p (sp ++ c :: rest) d units hd hu hin hi r hr
  subst er
  simp only [] at h1
  generalize hlit : t.newToken
    (if d = 39 then TokenType.CharacterLiteral else TokenType.StringLiteral) units.flatten
    = lit at h1 ⊢
  have hlitl : lit.Line = t.line := by rw [← hlit]; rfl
  -- the spaces and tabs
  obtain ⟨f2, h2⟩ := TokenizeLoop_spaces_ret sp hsp f
    { t with i := t.i + units.flatten.length + 2, tokens := t.tokens ++ [lit] } tf
    (p ++ d :: (units.flatten ++ [d])) (c :: rest)
    (by show t.input = _; rw [hin]; simp)
    (by show t.i + units.flatten.length + 2 = _; rw [hi]
        simp only [List.length_cons, List.length_append, List.length_singleton,
          List.length_nil]
        omega) h1
  -- the following token
  have hg2 : t.input[t.i + units.flatten.length + 2 + sp.length]? = some c := by
    have e1 : t.input = (p ++ d :: (units.flatten ++ [d]) ++ sp) ++ c :: rest := by
      rw [hin]; simp
    have e2 : t.i + units.flatten.length + 2 + sp.length =
        (p ++ d :: (units.flatten ++ [d]) ++ sp).length := by
      rw [hi]
      simp only [List.length_cons, List.length_append, List.length_singleton,
        List.length_nil]
      omega
    rw [e2, e1]
    exact get_mid _ _ c
  obtain ⟨f3, r3, _, hr3, h3⟩ := @TokenizeLoop_ret_token f2
    { t with i := t.i + units.flatten.length + 2 + sp.length, tokens := t.tokens ++ [lit] }
    tf c hg2 h32 h9 h10 h2
  obtain ⟨_, j, typ, s, _, hr4, _, _, _⟩ := commonTokenizer_ret hr3
  subst hr4
  simp only [] at h3
  obtain ⟨more, hm⟩ := TokenizeLoop_tokens_append _ _ _ h3
  refine ⟨⟨typ, s, t.filename, t.line⟩, more, ?_, hlitl.symm, rfl⟩
  rw [hm]
  show t.tokens ++ [lit] ++ [⟨typ, s, t.filename, t.line⟩] ++ more = _
  simp only [List.append_assoc, List.singleton_append, List.cons_append, List.nil_append]

/-- A byte of the buffer at an offset between `i` and `o` belongs to the bytes from `i` up to
`o`. -/
theorem span_mem {str : List Nat} {i o k x : Nat} (hik : i ≤ k) (hko : k < o)
    (hg : str[k]? = some x) : x ∈ (str.drop i).take (o - i) := by
  refine List.mem_iff_getElem?.mpr ⟨k - i, ?_⟩
  rw [List.getElem?_take, List.getElem?_drop, if_pos (by omega)]
  have e : i + (k - i) = k := by omega
  rw [e]
  exact hg

theorem span_subset {str : List Nat} {i j o x : Nat} (hij : i ≤ j)
    (h : x ∈ (str.drop j).take (o - j)) : x ∈ (str.drop i).take (o - i) := by
  obtain ⟨k, h1, h2, h3⟩ := mem_span h
  exact span_mem (by omega) (by omega) h3

/-- A scan that returns also returns with the ghost bookkeeping, in the same final state. -/
theorem TokenizeLoopG_of_ret {fuel : Nat} {t tf : Tokenizer} (nl : Nat) (log : List Begin)
    (h : TokenizeLoop fuel t = Run.ret tf) :
    ∃ nlf logf, TokenizeLoopG fuel t nl log = Run.ret (tf, nlf, logf) := by
  rw [← TokenizeLoopG_erase fuel t nl log] at h
  obtain ⟨r, hr, h2⟩ := Run.bind_eq_ret h
  cases h2
  exact ⟨r.2.1, r.2.2, hr⟩

/-- The tokens a scan appends from a state on: a token that begins at an offset with no
newline byte between the state's offset and that offset carries the state's line. -/
theorem TokenizeLoopG_same_line (fuel : Nat) :
    ∀ (t : Tokenizer) (nl : Nat) (log : List Begin) (r : Tokenizer × Nat × List Begin),
      TokenizeLoopG fuel t nl log = Run.ret r →
      ∃ toks bs, r.1.tokens = t.tokens ++ toks ∧ r.2.2 = log ++ bs ∧
        List.Forall₂ (fun (tok : Token) (b : Begin) => t.i ≤ b.offset ∧
          (10 ∉ (t.input.drop t.i).take (b.offset - t.i) → tok.Line = t.line)) toks bs := by
  induction fuel with
  | zero => intro t nl log r h; simp [TokenizeLoopG] at h
  | succ fuel ih =>
    intro t nl log r h
    rw [TokenizeLoopG] at h
    by_cases hl : t.i < t.input.length
    · have hg : t.input[t.i]? = some t.input[t.i] := List.getElem?_eq_getElem hl
      generalize t.input[t.i] = c at hg
      simp only [hl, if_true, idx_some hg, Run.ret_bind] at h
      by_cases h1 : (c == 32 || c == 9) = true
      · simp only [h1, if_true] at h
        obtain ⟨toks, bs, e1, e2, hf⟩ := ih _ _ _ _ h
        refine ⟨toks, bs, e1, e2, hf.imp ?_⟩
        intro tok b hb
        have hb1 : t.i + 1 ≤ b.offset := hb.1
        have hb2 : 10 ∉ (t.input.drop (t.i + 1)).take (b.offset - (t.i + 1)) →
            tok.Line = t.line := hb.2
        exact ⟨by omega, fun hn => hb2 (fun hm => hn (span_subset (Nat.le_succ _) hm))⟩
      · simp only [h1, if_false, Bool.false_eq_true] at h
        by_cases h2 : (c == 10) = true
        · simp only [h2, if_true] at h
          have hc10 : c = 10 := by simpa using h2
          subst hc10
          obtain ⟨toks, bs, e1, e2, hf⟩ := ih _ _ _ _ h
          refine ⟨toks, bs, e1, e2, hf.imp ?_⟩
          intro tok b hb
          have hb1 : t.i + 1 ≤ b.offset := hb.1
          exact ⟨by omega, fun hn => absurd (span_mem (Nat.le_refl _) (by omega) hg) hn⟩
        · simp only [h2, if_false, Bool.false_eq_true] at h
          obtain ⟨r1, hct, h3⟩ := Run.bind_eq_ret h
          obtain ⟨_, j, typ, s, _, hr1, hij, _, _⟩ := commonTokenizer_ret hct
          subst hr1
          simp only [] at h3
          obtain ⟨toks, bs, e1, e2, hf⟩ := ih _ _ _ _ h3
          refine ⟨t.newToken typ s :: toks, ⟨t.i, nl⟩ :: bs, ?_, ?_, ?_⟩
          · rw [e1]
            show t.tokens ++ [t.newToken typ s] ++ toks = _
            simp only [List.append_assoc, List.singleton_append]
          · rw [e2]
            simp only [List.append_assoc, List.singleton_append]
          · refine List.Forall₂.cons ⟨Nat.le_refl _, fun _ => rfl⟩ (hf.imp ?_)
            intro tok b hb
            have hb1 : j ≤ b.offset := hb.1
            have hb2 : 10 ∉ (t.input.drop j).take (b.offset - j) → tok.Line = t.line := hb.2
            exact ⟨by omega,
              fun hn => hb2 (fun hm => hn (span_subset (Nat.le_of_lt hij) hm))⟩
    · simp only [hl, if_false] at h
      cases h
      exact ⟨[], [], by simp, by simp, List.Forall₂.nil⟩

/-- The tokens after a quoted literal.  From any state at the opening delimiter of a
terminated literal, a scan that returns has appended the literal, and every token appended
after it that begins at an offset with no newline byte between the closing delimiter and that
offset carries the literal's line, however many newline bytes the literal holds. -/
theorem TokenizeLoopG_literal_line (fuel : Nat) (t : Tokenizer) (nl : Nat) (log : List Begin)
    (r : Tokenizer × Nat × List Begin) (p post : List Nat) (d : Nat)
    (units : List (List Nat)) (hd : d = 34 ∨ d = 39) (hu : ∀ u ∈ units, isUnit d u = true)
    (hin : t.input = p ++ d :: (units.flatten ++ d :: post)) (hi : t.i = p.length)
    (h : TokenizeLoopG fuel t nl log = Run.ret r) :
    ∃ toks bs, r.1.tokens = t.tokens ++
        t.newToken (if d = 39 then TokenType.CharacterLiteral else TokenType.StringLiteral)
          units.flatten :: toks ∧
      r.2.2 = log ++ ⟨p.length, nl⟩ :: bs ∧
      List.Forall₂ (fun (tok : Token) (b : Begin) =>
        p.length + units.flatten.length + 2 ≤ b.offset ∧
        (10 ∉ post.take (b.offset - (p.length + units.flatten.length + 2)) →
          tok.Line = (t.newToken
            (if d = 39 then TokenType.CharacterLiteral else TokenType.StringLiteral)
            units.flatten).Line)) toks bs := by
  have hg : t.input[t.i]? = some d := by rw [hin, hi]; exact get_mid p _ d
  have hd3 : (d == 32 || d == 9) = false ∧ (d == 10) = false := by
    rcases hd with rfl | rfl <;> decide
  cases fuel with
  | zero => simp [TokenizeLoopG] at h
  | succ f =>
    rw [TokenizeLoopG] at h
    simp only [lt_of_get hg, if_true, idx_some hg, Run.ret_bind, hd3.1, hd3.2, if_false,
      Bool.false_eq_true] at h
    obtain ⟨r1, hr, h1⟩ := Run.bind_eq_ret h
    have er := commonTokenizer_quoted_ret f t p post d units hd hu hin hi r1 hr
    subst er
    simp only [] at h1
    obtain ⟨toks, bs, e1, e2, hf⟩ := TokenizeLoopG_same_line f _ _ _ _ h1
    have hdrop : t.input.drop (t.i + units.flatten.length + 2) = post := by
      have e : t.input = (p ++ d :: (units.flatten ++ [d])) ++ post := by rw [hin]; simp
      rw [e]
      refine List.drop_left' ?_
      rw [hi]
      simp only [List.length_cons, List.length_append, List.length_singleton,
        List.length_nil]
      omega
    refine ⟨toks, bs, ?_, ?_, hf.imp ?_⟩
    · rw [e1]
      show t.tokens ++ [_] ++ toks = _
      simp only [List.append_assoc, List.singleton_append]
    · rw [e2, hi]
      simp only [List.append_assoc, List.singleton_append]
    · intro tok b hb
      have hb1 : t.i + units.flatten.length + 2 ≤ b.offset := hb.1
      have hb2 : 10 ∉ (t.input.drop (t.i + units.flatten.length + 2)).take
          (b.offset - (t.i + units.flatten.length + 2)) → tok.Line = t.line := hb.2
      rw [hdrop, hi] at hb2
      rw [hi] at hb1
      exact ⟨hb1, hb2⟩

theorem span_mono_right {str : List Nat} {e o o2 x : Nat} (h : o ≤ o2)
    (hm : x ∈ (str.drop e).take (o - e)) : x ∈ (str.drop e).take (o2 - e) := by
  obtain ⟨k, h1, h2, h3⟩ := mem_span hm
  exact span_mem h1 (by omega) h3

/-- A returned token that is a quoted literal: the offset has moved by the length of the text
plus the two delimiters, and the text stands just after the opening delimiter. -/
theorem commonTokenizer_ret_literal {fuel : Nat} {t : Tokenizer}
    {r : Tokenizer × Option Token} (h : commonTokenizer fuel t = Run.ret r) :
    ∃ tok, r.2 = some tok ∧
      (tok.Typ = TokenType.StringLiteral ∨ tok.Typ = TokenType.CharacterLiteral →
        r.1.i = t.i + tok.Str.length + 2 ∧
        (t.input.drop (t.i + 1)).take tok.Str.length = tok.Str) := by
  obtain ⟨c, hg, hs⟩ := commonTokenizer_ret_starts h
  rcases startsLexeme_cases hs with ha | hd | hq | e35 | hop
  · rw [commonTokenizer_alpha _ t c hg ha] at h
    obtain ⟨j, _, h2⟩ := Run.bind_eq_ret h
    obtain ⟨s, _, h3⟩ := Run.bind_eq_ret h2
    cases h3
    exact ⟨_, rfl, fun hl => by rcases hl with e | e <;> cases e⟩
  · rw [commonTokenizer_digit _ t c hg hd] at h
    obtain ⟨j, _, h2⟩ := Run.bind_eq_ret h
    obtain ⟨s, _, h3⟩ := Run.bind_eq_ret h2
    cases h3
    exact ⟨_, rfl, fun hl => by rcases hl with e | e <;> cases e⟩
  · rw [commonTokenizer_quote _ t c hg hq] at h
    obtain ⟨j, _, h2⟩ := Run.bind_eq_ret h
    obtain ⟨_, _, h3⟩ := Run.bind_eq_ret h2
    obtain ⟨s, hsl, h4⟩ := Run.bind_eq_ret h3
    cases h4
    obtain ⟨s1, s2, s3⟩ := slice_ret hsl
    have hlen : s.length = j - (t.i + 1) := by
      rw [s3, List.length_take, List.length_drop]
      omega
    refine ⟨_, rfl, fun _ => ⟨?_, ?_⟩⟩
    · show j + 1 = t.i + s.length + 2
      omega
    · show (t.input.drop (t.i + 1)).take s.length = s
      rw [hlen]
      exact s3.symm
  · subst e35
    exact absurd h (commonTokenizer_hash_ne_ret fuel t hg r)
  · obtain ⟨n, s, hr, _⟩ := commonTokenizer_operator fuel t c hg hop
    rw [hr] at h
    cases h
    exact ⟨_, rfl, fun hl => by rcases hl with e | e <;> cases e⟩

/-- The lines of the tokens after a quoted literal, over a whole scan.  The ghost log pairs
every token with the offset at which it begins.  For two tokens of which the earlier is a
quoted literal: when no newline byte stands between the offset just after the literal's
closing delimiter and the offset of the later token, the later token carries the literal's
line.  The text of a quoted literal stands just after the offset of its record. -/
theorem TokenizeLoopG_after_literal (data : List Nat) (fuel : Nat) :
    ∀ (t : Tokenizer) (nl : Nat) (log : List Begin) (r : Tokenizer × Nat × List Begin),
      t.input = data → t.tokens.length = log.length →
      (∀ z ∈ t.tokens.zip log,
        z.1.Typ = TokenType.StringLiteral ∨ z.1.Typ = TokenType.CharacterLiteral →
        z.2.offset + z.1.Str.length + 2 ≤ t.i ∧
        (data.drop (z.2.offset + 1)).take z.1.Str.length = z.1.Str ∧
        (10 ∉ (data.drop (z.2.offset + z.1.Str.length + 2)).take
            (t.i - (z.2.offset + z.1.Str.length + 2)) → z.1.Line = t.line)) →
      List.Pairwise (fun (x y : Token × Begin) =>
        x.1.Typ = TokenType.StringLiteral ∨ x.1.Typ = TokenType.CharacterLiteral →
        10 ∉ (data.drop (x.2.offset + x.1.Str.length + 2)).take
            (y.2.offset - (x.2.offset + x.1.Str.length + 2)) →
        y.1.Line = x.1.Line) (t.tokens.zip log) →
      TokenizeLoopG fuel t nl log = Run.ret r →
      r.1.tokens.length = r.2.2.length ∧
      List.Pairwise (fun (x y : Token × Begin) =>
        x.1.Typ = TokenType.StringLiteral ∨ x.1.Typ = TokenType.CharacterLiteral →
        10 ∉ (data.drop (x.2.offset + x.1.Str.length + 2)).take
            (y.2.offset - (x.2.offset + x.1.Str.length + 2)) →
        y.1.Line = x.1.Line) (r.1.tokens.zip r.2.2) ∧
      ∀ z ∈ r.1.tokens.zip r.2.2,
        z.1.Typ = TokenType.StringLiteral ∨ z.1.Typ = TokenType.CharacterLiteral →
        (data.drop (z.2.offset + 1)).take z.1.Str.length = z.1.Str := by
  induction fuel with
  | zero => intro t nl log r _ _ _ _ h; simp [TokenizeLoopG] at h
  | succ fuel ih =>
    intro t nl log r hin hlen hA hB h
    rw [TokenizeLoopG] at h
    by_cases hl : t.i < t.input.length
    · have hg : t.input[t.i]? = some t.input[t.i] := List.getElem?_eq_getElem hl
      generalize t.input[t.i] = c at hg
      simp only [hl, if_true, idx_some hg, Run.ret_bind] at h
      have hgd : data[t.i]? = some c := by rw [← hin]; exact hg
      by_cases h1 : (c == 32 || c == 9) = true
      · simp only [h1, if_true] at h
        refine ih _ _ _ _ ?_ ?_ ?_ ?_ h
        · exact hin
        · exact hlen
        · intro z hz hq
          obtain ⟨a1, a2, a3⟩ := hA z hz hq
          exact ⟨Nat.le_succ_of_le a1, a2,
            fun hn => a3 (fun hm => hn (span_mono_right (Nat.le_succ _) hm))⟩
        · exact hB
      · simp only [h1, if_false, Bool.false_eq_true] at h
        by_cases h2 : (c == 10) = true
        · simp only [h2, if_true] at h
          have hc10 : c = 10 := by simpa using h2
          subst hc10
          refine ih _ _ _ _ ?_ ?_ ?_ ?_ h
          · exact hin
          · exact hlen
          · intro z hz hq
            obtain ⟨a1, a2, a3⟩ := hA z hz hq
            exact ⟨Nat.le_succ_of_le a1, a2,
              fun hn => absurd (span_mem a1 (Nat.lt_succ_self _) hgd) hn⟩
          · exact hB
        · simp only [h2, if_false, Bool.false_eq_true] at h
          obtain ⟨r1, hct, h3⟩ := Run.bind_eq_ret h
          obtain ⟨tok, htok, hlit⟩ := commonTokenizer_ret_literal hct
          obtain ⟨_, j, typ, s, _, hr1, hij, _, _⟩ := commonTokenizer_ret hct
          subst hr1
          cases htok
          simp only [] at h3
          have hzip : (t.tokens ++ [t.newToken typ s]).zip (log ++ [(⟨t.i, nl⟩ : Begin)]) =
              t.tokens.zip log ++ [(t.newToken typ s, (⟨t.i, nl⟩ : Begin))] := by
            rw [List.zip_append hlen]
            rfl
          refine ih _ _ _ _ ?_ ?_ ?_ ?_ h3
          · exact hin
          · show (t.tokens ++ [t.newToken typ s]).length =
              (log ++ [(⟨t.i, nl⟩ : Begin)]).length
            simp only [List.length_append, List.length_singleton, hlen]
          · intro z hz hq
            have hz1 : z ∈ t.tokens.zip log ++ [(t.newToken typ s, (⟨t.i, nl⟩ : Begin))] := by
              rw [← hzip]; exact hz
            rcases List.mem_append.mp hz1 with hz2 | hz2
            · obtain ⟨a1, a2, a3⟩ := hA z hz2 hq
              refine ⟨?_, a2, fun hn => a3 (fun hm => hn (span_mono_right (Nat.le_of_lt hij) hm))⟩
              show _ ≤ j
              omega
            · have ez := List.mem_singleton.mp hz2
              subst ez
              obtain ⟨b1, b2⟩ := hlit hq
              have b1j : j = t.i + (t.newToken typ s).Str.length + 2 := b1
              rw [hin] at b2
              exact ⟨Nat.le_of_eq b1j.symm, b2, fun _ => rfl⟩
          · show List.Pairwise _
              ((t.tokens ++ [t.newToken typ s]).zip (log ++ [(⟨t.i, nl⟩ : Begin)]))
            rw [hzip]
            refine List.pairwise_append.mpr ⟨hB, List.pairwise_singleton _ _, ?_⟩
            intro x hx y hy hq hn
            have ey := List.mem_singleton.mp hy
            subst ey
            obtain ⟨_, _, a3⟩ := hA x hx hq
            exact (a3 hn).symm
    · simp only [hl, if_false] at h
      cases h
      exact ⟨hlen, hB, fun z hz hq => (hA z hz hq).2.1⟩

/-- C18. A classifier call that returns a token changes only the offset: the buffer, the
file name, the line counter and the collected tokens are as before, and the token carries the
file name and the line counter of the receiver.  Consequently the newline bytes inside a
quoted literal do not increase the line counter, and a token that follows a quoted literal
with no newline in between reports the literal's line, however many newline bytes the literal
holds.  This consequence is stated four times, from the particular to the general.
(1) A buffer made of a quoted literal, spaces and tabs, and a single-byte punctuator gives two
tokens with line 1.
(2) Over a whole scan: whenever `Tokenize` succeeds on a buffer, the scan with the ghost log of
token offsets succeeds in the same final state with one record per token, and for any two
returned tokens of which the earlier is a quoted literal, if no newline byte stands between the
offset just after the literal's closing delimiter and the offset at which the later token
begins, the later token has the literal's `Line`; the literal's text stands just after the
offset of its record.
(3) From any state of the scan that stands at the opening delimiter of a terminated literal
followed by spaces and tabs and a byte that is no space, tab or newline: a scan that returns
has appended the literal and, next, a token with the literal's `Line`.
(4) From any state of the scan that stands at the opening delimiter of a terminated literal: a
scan that returns has appended the literal, and every token appended later that begins with no
newline byte between the literal's closing delimiter and its offset has the literal's
`Line`. -/
theorem classifier_changes_only_offset (fuel : Nat) (t : Tokenizer)
    (r : Tokenizer × Option Token) (h : commonTokenizer fuel t = Run.ret r) :
    (∃ tok, r.2 = some tok ∧ tok.Line = t.line ∧ tok.FileName = t.filename) ∧
    r.1.input = t.input ∧ r.1.filename = t.filename ∧ r.1.line = t.line ∧
    r.1.tokens = t.tokens ∧
    (∀ (fname : String) (d c : Nat) (units : List (List Nat)) (sp : List Nat),
      (d = 34 ∨ d = 39) → (∀ u ∈ units, isUnit d u = true) → (∀ x ∈ sp, x = 32 ∨ x = 9) →
      c ∈ punctuators →
      lex (fuel + units.length + sp.length + 3) fname
          (d :: (units.flatten ++ d :: (sp ++ [c]))) =
        Run.ret [⟨if d = 39 then TokenType.CharacterLiteral else TokenType.StringLiteral,
            units.flatten, fname, 1⟩,
          ⟨TokenType.Punctuator, [c], fname, 1⟩]) ∧
    (∀ (f : Nat) (fname : String) (data : List Nat) (t1 : Tokenizer) (toks : TokenList),
      Tokenize f (start fname data) = Run.ret (t1, toks) →
      ∃ nl log, TokenizeLoopG f (start fname data) 0 [] = Run.ret (t1, nl, log) ∧
        toks.length = log.length ∧
        List.Pairwise (fun (x y : Token × Begin) =>
          x.1.Typ = TokenType.StringLiteral ∨ x.1.Typ = TokenType.CharacterLiteral →
          10 ∉ (data.drop (x.2.offset + x.1.Str.length + 2)).take
              (y.2.offset - (x.2.offset + x.1.Str.length + 2)) →
          y.1.Line = x.1.Line) (toks.zip log) ∧
        ∀ z ∈ toks.zip log,
          z.1.Typ = TokenType.StringLiteral ∨ z.1.Typ = TokenType.CharacterLiteral →
          (data.drop (z.2.offset + 1)).take z.1.Str.length = z.1.Str) ∧
    (∀ (f : Nat) (s sf : Tokenizer) (p sp rest : List Nat) (d c : Nat)
      (units : List (List Nat)),
      (d = 34 ∨ d = 39) → (∀ u ∈ units, isUnit d u = true) → (∀ x ∈ sp, x = 32 ∨ x = 9) →
      c ≠ 32 → c ≠ 9 → c ≠ 10 →
      s.input = p ++ d :: (units.flatten ++ d :: (sp ++ c :: rest)) → s.i = p.length →
      TokenizeLoop f s = Run.ret sf →
      ∃ tok more, sf.tokens = s.tokens ++
          s.newToken (if d = 39 then TokenType.CharacterLiteral else TokenType.StringLiteral)
            units.flatten :: tok :: more ∧
        tok.Line = (s.newToken
          (if d = 39 then TokenType.CharacterLiteral else TokenType.StringLiteral)
            units.flatten).Line ∧
        tok.Line = s.line) ∧
    (∀ (f : Nat) (s sf : Tokenizer) (nl : Nat) (log : List Begin) (p post : List Nat)
      (d : Nat) (units : List (List Nat)),
      (d = 34 ∨ d = 39) → (∀ u ∈ units, isUnit d u = true) →
      s.input = p ++ d :: (units.flatten ++ d :: post) → s.i = p.length →
      TokenizeLoop f s = Run.ret sf →
      ∃ nlf toks bs,
        TokenizeLoopG f s nl log = Run.ret (sf, nlf, log ++ ⟨p.length, nl⟩ :: bs) ∧
        sf.tokens = s.tokens ++
          s.newToken (if d = 39 then TokenType.CharacterLiteral else TokenType.StringLiteral)
            units.flatten :: toks ∧
        List.Forall₂ (fun (tok : Token) (b : Begin) =>
          p.length + units.flatten.length + 2 ≤ b.offset ∧
          (10 ∉ post.take (b.offset - (p.length + units.flatten.length + 2)) →
            tok.Line = (s.newToken
              (if d = 39 then TokenType.CharacterLiteral else TokenType.StringLiteral)
              units.flatten).Line)) toks bs) := by
  obtain ⟨_, j, typ, s, _, hr1, _, _, _⟩ := commonTokenizer_ret h
  subst hr1
  refine ⟨⟨_, rfl, rfl, rfl⟩, rfl, rfl, rfl, rfl, ?_, ?_, ?_, ?_⟩
  · intro fname d c units sp hd hu hsp hc
    exact lex_literal_then_punctuator fuel fname d c units sp hd hu hsp hc
  · intro f fname data t1 toks hT
    unfold Tokenize at hT
    obtain ⟨t2, ht2, h2⟩ := Run.bind_eq_ret hT
    cases h2
    obtain ⟨nlf, logf, hG⟩ := TokenizeLoopG_of_ret 0 [] ht2
    refine ⟨nlf, logf, hG, ?_⟩
    exact TokenizeLoopG_after_literal data f (start fname data) 0 [] _ rfl rfl
      (fun z hz => by cases hz) List.Pairwise.nil hG
  · intro f s sf p sp rest d c units hd hu hsp h32 h9 h10 hin hi hs
    exact TokenizeLoop_literal_next f s sf p sp rest d c units hd hu hsp h32 h9 h10 hin hi hs
  · intro f s sf nl log p post d units hd hu hin hi hs
    obtain ⟨nlf, logf, hG⟩ := TokenizeLoopG_of_ret nl log hs
    obtain ⟨toks, bs, e1, e2, hf⟩ :=
      TokenizeLoopG_literal_line f s nl log _ p post d units hd hu hin hi hG
    have e3 : logf = log ++ ⟨p.length, nl⟩ :: bs := e2
    subst e3
    exact ⟨nlf, toks, bs, hG, e1, hf⟩

theorem classifier_changes_only_offset_witness :
    commonTokenizer 4 (start "a.c" [34, 97, 10, 98, 34, 59]) = Run.ret
      ({ start "a.c" [34, 97, 10, 98, 34, 59] with i := 5 },
        some ⟨TokenType.StringLiteral, [97, 10, 98], "a.c", 1⟩) ∧
    lex (4 + [[97], [10], [98]].length + [32].length + 3) "a.c"
        (34 :: ([[97], [10], [98]].flatten ++ 34 :: ([32] ++ [59]))) =
      Run.ret [⟨if 34 = 39 then TokenType.CharacterLiteral else TokenType.StringLiteral,
          [[97], [10], [98]].flatten, "a.c", 1⟩,
        ⟨TokenType.Punctuator, [59], "a.c", 1⟩] ∧
    Tokenize 6 (start "a.c" [120, 32, 34, 97, 10, 34, 59]) = Run.ret
      (⟨[⟨TokenType.Identifier, [120], "a.c", 1⟩,
          ⟨TokenType.StringLiteral, [97, 10], "a.c", 1⟩,
          ⟨TokenType.Punctuator, [59], "a.c", 1⟩],
          [120, 32, 34, 97, 10, 34, 59], "a.c", 7, 1⟩,
        [⟨TokenType.Identifier, [120], "a.c", 1⟩,
          ⟨TokenType.StringLiteral, [97, 10], "a.c", 1⟩,
          ⟨TokenType.Punctuator, [59], "a.c", 1⟩]) ∧
    (∃ nl log, TokenizeLoopG 6 (start "a.c" [120, 32, 34, 97, 10, 34, 59]) 0 [] = Run.ret
        (⟨[⟨TokenType.Identifier, [120], "a.c", 1⟩,
          ⟨TokenType.StringLiteral, [97, 10], "a.c", 1⟩,
          ⟨TokenType.Punctuator, [59], "a.c", 1⟩],
          [120, 32, 34, 97, 10, 34, 59], "a.c", 7, 1⟩, nl, log) ∧
      [⟨TokenType.Identifier, [120], "a.c", 1⟩,
          ⟨TokenType.StringLiteral, [97, 10], "a.c", 1⟩,
          (⟨TokenType.Punctuator, [59], "a.c", 1⟩ : Token)].length = log.length ∧
      List.Pairwise (fun (x y : Token × Begin) =>
        x.1.Typ = TokenType.StringLiteral ∨ x.1.Typ = TokenType.CharacterLiteral →
        10 ∉ ([120, 32, 34, 97, 10, 34, 59].drop (x.2.offset + x.1.Str.length + 2)).take
            (y.2.offset - (x.2.offset + x.1.Str.length + 2)) →
        y.1.Line = x.1.Line)
        ([⟨TokenType.Identifier, [120], "a.c", 1⟩,
          ⟨TokenType.StringLiteral, [97, 10], "a.c", 1⟩,
          (⟨TokenType.Punctuator, [59], "a.c", 1⟩ : Token)].zip log) ∧
      ∀ z ∈ [⟨TokenType.Identifier, [120], "a.c", 1⟩,
          ⟨TokenType.StringLiteral, [97, 10], "a.c", 1⟩,
          (⟨TokenType.Punctuator, [59], "a.c", 1⟩ : Token)].zip log,
        z.1.Typ = TokenType.StringLiteral ∨ z.1.Typ = TokenType.CharacterLiteral →
        ([120, 32, 34, 97, 10, 34, 59].drop (z.2.offset + 1)).take z.1.Str.length =
          z.1.Str) :=
  ⟨by decide,
    (classifier_changes_only_offset 4 (start "a.c" [34, 97, 10, 98, 34, 59])
      ({ start "a.c" [34, 97, 10, 98, 34, 59] with i := 5 },
        some ⟨TokenType.StringLiteral, [97, 10, 98], "a.c", 1⟩) (by decide)).2.2.2.2.2.1
      "a.c" 34 59 [[97], [10], [98]] [32] (by decide) (by decide) (by decide) (by decide),
    by decide,
    (classifier_changes_only_offset 4 (start "a.c" [34, 97, 10, 98, 34, 59])
      ({ start "a.c" [34, 97, 10, 98, 34, 59] with i := 5 },
        some ⟨TokenType.StringLiteral, [97, 10, 98], "a.c", 1⟩) (by decide)).2.2.2.2.2.2.1
      6 "a.c" [120, 32, 34, 97, 10, 34, 59] _ _ (by decide)⟩

end Minic
